import Mathlib

/-!
Verification of the `vkgc::garbage_collector` from `src/vkgc.cc` / `src/vkgc.hh`.

The collector is embedded shallowly:
* opaque `void*` resource identities and `VkSemaphore` counter identities are
  `Nat`; the value `0` plays the role of the null pointer (the code checks
  `if(triggers.top().dependent)` before decrementing);
* `std::function` closures are opaque labels (`Nat`); invoking one appends an
  `Event` to an event log (the log is ghost instrumentation, it does not
  influence the state transitions);
* `std::unordered_map` is an association list; `operator[]` is `mupdate`,
  which default-constructs the entry when absent, exactly like the C++;
* the `std::priority_queue<trigger>` with the inverted `operator<`
  (`t.value < value`, vkgc.cc:125-128) is a min-heap on `value`; it is
  modelled as a list kept sorted by ascending `value` (push = ordered insert,
  top = head, pop = tail);
* `size_t` / `uint64_t` arithmetic on `dependency_count` wraps modulo `2^64`
  (`wrapInc` / `wrapDec`);
* the device collaborator's `vkGetSemaphoreCounterValue` is a function
  `q : Nat → Nat` chosen by the environment per `collect` call;
  `vkDestroySemaphore` and `vkDeviceWaitIdle` are logged as events;
* the recursive `check_delete` takes a fuel argument for totality; the public
  entry points supply `resources.length + 1`, which dominates the recursion
  depth (each nested eligible frame is a distinct live record).
-/

namespace Vkgc

/-- `2^64`, the modulus of `size_t` / `uint64_t` arithmetic. -/
def U64 : Nat := 2 ^ 64

/-- `size_t` increment (`dependency_count++`). -/
def wrapInc (c : Nat) : Nat := (c + 1) % U64

/-- `size_t` decrement (`dependency_count--`); wraps at zero. -/
def wrapDec (c : Nat) : Nat := (c + (U64 - 1)) % U64

/-- `garbage_collector::dependency_info` (vkgc.hh:108-115). -/
structure dependency_info where
  dependency_count : Nat
  dependents : List Nat
  cleanup : Option Nat
deriving Repr, DecidableEq

instance : Inhabited dependency_info := ⟨⟨0, [], none⟩⟩

/-- `garbage_collector::trigger` (vkgc.hh:119-126); `dependent = 0` encodes
the null pointer stored by `add_trigger`. -/
structure trigger where
  value : Nat
  dependent : Nat
  callback : Option Nat
deriving Repr, DecidableEq

/-- `garbage_collector::semaphore_info` (vkgc.hh:128-133); the priority queue
is the list `triggers`, kept sorted by ascending `value`. -/
structure semaphore_info where
  triggers : List trigger
  should_destroy : Bool
deriving Repr, DecidableEq

instance : Inhabited semaphore_info := ⟨⟨[], false⟩⟩

abbrev RMap := List (Nat × dependency_info)

abbrev SMap := List (Nat × semaphore_info)

/-- The collector's mutable state: the two registries (vkgc.hh:117, 134). -/
structure GC where
  resources : RMap
  semaphore_dependencies : SMap
deriving Repr, DecidableEq

/-- Observable events of a run (ghost log).  `miss r` marks the undefined
behaviour branch of `check_delete` where `resources.find(resource)` fails
(vkgc.cc:132 dereferences the iterator unguarded); `decrement r old` records
a `dependency_count--` applied to `r` whose pre-decrement value was `old`. -/
inductive Event where
  | cleanup (r : Nat) (label : Nat)
  | callback (label : Nat)
  | decrement (r : Nat) (oldCount : Nat)
  | destroy_sem (s : Nat)
  | wait_idle
  | miss (r : Nat)
deriving Repr, DecidableEq

/-- Association-list lookup (`unordered_map::find`). -/
def mfind (k : Nat) : List (Nat × α) → Option α
  | [] => none
  | (k', v) :: rest => if k' = k then some v else mfind k rest

/-- `unordered_map::operator[]` followed by a mutation `f`: updates the entry
in place, default-constructing it first when absent. -/
def mupdate [Inhabited α] (k : Nat) (f : α → α) : List (Nat × α) → List (Nat × α)
  | [] => [(k, f default)]
  | (k', v) :: rest => if k' = k then (k', f v) :: rest else (k', v) :: mupdate k f rest

/-- `unordered_map::erase`. -/
def merase (k : Nat) : List (Nat × α) → List (Nat × α)
  | [] => []
  | (k', v) :: rest => if k' = k then rest else (k', v) :: merase k rest

/-- `priority_queue::push` for the min-heap on `value` (ordered insert). -/
def trig_insert (t : trigger) : List trigger → List trigger
  | [] => [t]
  | u :: rest => if t.value < u.value then t :: u :: rest else u :: trig_insert t rest

/-- `garbage_collector::check_delete` (vkgc.cc:130-143): if the record is
eligible (`dependency_count == 0 && cleanup`), run the cleanup, then for each
entry of the dependents list decrement its count and recurse
(`resources[dep].dependency_count--; check_delete(dep);`, the fold), then
erase the record.  `fuel` bounds the recursion depth; callers supply
`res.length + 1`, which dominates it. -/
def check_delete : Nat → Nat → RMap → RMap × List Event
  | 0, _, res => (res, [])
  | fuel + 1, resource, res =>
    match mfind resource res with
    | none => (res, [Event.miss resource])
    | some info =>
      if info.dependency_count = 0 ∧ info.cleanup.isSome then
        let out := info.dependents.foldl
          (fun acc dep =>
            let old := ((mfind dep acc.1).getD default).dependency_count
            let res1 := mupdate dep
              (fun i => { i with dependency_count := wrapDec i.dependency_count }) acc.1
            let out2 := check_delete fuel dep res1
            (out2.1, acc.2 ++ Event.decrement dep old :: out2.2))
          (res, [])
        (merase resource out.1, Event.cleanup resource (info.cleanup.getD 0) :: out.2)
      else (res, [])

/-- The dependents loop of `check_delete` (vkgc.cc:136-140) in direct
recursive form; equal to the fold inside `check_delete`
(`cascade_eq_foldl` below). -/
def cascade (fuel : Nat) : List Nat → RMap → RMap × List Event
  | [], res => (res, [])
  | dep :: rest, res =>
    let old := ((mfind dep res).getD default).dependency_count
    let res1 := mupdate dep
      (fun i => { i with dependency_count := wrapDec i.dependency_count }) res
    let out2 := check_delete fuel dep res1
    let out3 := cascade fuel rest out2.1
    (out3.1, Event.decrement dep old :: (out2.2 ++ out3.2))

/-- `garbage_collector::release(void*, std::function<void()>&&)`
(vkgc.cc:37-42): store the cleanup, then `check_delete`. -/
def release (resource : Nat) (cleanup : Nat) (g : GC) : GC × List Event :=
  let res := mupdate resource (fun i => { i with cleanup := some cleanup }) g.resources
  let out := check_delete (res.length + 1) resource res
  ({ g with resources := out.1 }, out.2)

/-- `garbage_collector::release(VkSemaphore)` (vkgc.cc:44-48): only marks
`should_destroy`. -/
def release_sem (sem : Nat) (g : GC) : GC :=
  { g with semaphore_dependencies :=
      mupdate sem (fun s => { s with should_destroy := true }) g.semaphore_dependencies }

/-- `garbage_collector::depend_many` (vkgc.cc:55-62): append all used
resources to the user's dependents, then bump each used count. -/
def depend_many (used : List Nat) (user : Nat) (g : GC) : GC :=
  let res1 := mupdate user (fun i => { i with dependents := i.dependents ++ used }) g.resources
  let res2 := used.foldl
    (fun m u => mupdate u (fun i => { i with dependency_count := wrapInc i.dependency_count }) m)
    res1
  { g with resources := res2 }

/-- `garbage_collector::depend(void*, void*)` (vkgc.cc:50-53). -/
def depend (used user : Nat) (g : GC) : GC := depend_many [used] user g

/-- `garbage_collector::depend(void*, VkSemaphore, uint64_t)` (vkgc.cc:64-70):
bump the used count and push a callback-less trigger. -/
def depend_sem (used sem value : Nat) (g : GC) : GC :=
  { resources :=
      mupdate used (fun i => { i with dependency_count := wrapInc i.dependency_count })
        g.resources,
    semaphore_dependencies :=
      mupdate sem (fun s => { s with triggers := trig_insert ⟨value, used, none⟩ s.triggers })
        g.semaphore_dependencies }

/-- `garbage_collector::add_trigger` (vkgc.cc:115-123): push a trigger with a
null dependent and the given callback. -/
def add_trigger (sem value cb : Nat) (g : GC) : GC :=
  let sems := mupdate sem
    (fun s => { s with triggers := trig_insert ⟨value, 0, some cb⟩ s.triggers })
    g.semaphore_dependencies
  { g with semaphore_dependencies := sems }

/-- The trigger-draining loop of `collect` (vkgc.cc:81-92): pop while
`top().value <= value`; run the callback if present; if the dependent is
non-null, decrement its count and `check_delete` it. -/
def fire_triggers (value : Nat) : List trigger → RMap → List trigger × RMap × List Event
  | [], res => ([], res, [])
  | t :: rest, res =>
    if t.value ≤ value then
      let ev_cb : List Event := match t.callback with
        | some cb => [Event.callback cb]
        | none => []
      if t.dependent ≠ 0 then
        let old := ((mfind t.dependent res).getD default).dependency_count
        let res1 := mupdate t.dependent
          (fun i => { i with dependency_count := wrapDec i.dependency_count }) res
        let out2 := check_delete (res1.length + 1) t.dependent res1
        let out3 := fire_triggers value rest out2.1
        (out3.1, out3.2.1, ev_cb ++ (Event.decrement t.dependent old :: out2.2) ++ out3.2.2)
      else
        let out3 := fire_triggers value rest res
        (out3.1, out3.2.1, ev_cb ++ out3.2.2)
    else (t :: rest, res, [])

/-- The per-semaphore loop of `collect` (vkgc.cc:75-100): query the counter,
drain ready triggers, then destroy-and-erase the semaphore iff the queue is
empty and `should_destroy` is set. -/
def collect_sems (q : Nat → Nat) : SMap → RMap → SMap × RMap × List Event
  | [], res => ([], res, [])
  | (sid, sinfo) :: rest, res =>
    let out := fire_triggers (q sid) sinfo.triggers res
    if out.1.isEmpty && sinfo.should_destroy then
      let outr := collect_sems q rest out.2.1
      (outr.1, outr.2.1, out.2.2 ++ (Event.destroy_sem sid :: outr.2.2))
    else
      let outr := collect_sems q rest out.2.1
      ((sid, { triggers := out.1, should_destroy := sinfo.should_destroy }) :: outr.1,
       outr.2.1, out.2.2 ++ outr.2.2)

/-- `garbage_collector::collect` (vkgc.cc:72-101); `q` is the device's
`vkGetSemaphoreCounterValue`. -/
def collect (q : Nat → Nat) (g : GC) : GC × List Event :=
  let out := collect_sems q g.semaphore_dependencies g.resources
  (⟨out.2.1, out.1⟩, out.2.2)

/-- `garbage_collector::wait_collect` (vkgc.cc:103-113): collect; if any
records remain, `vkDeviceWaitIdle` and collect again.  `q1` and `q2` are the
counter values observed by the two collect passes. -/
def wait_collect (q1 q2 : Nat → Nat) (g : GC) : GC × List Event :=
  let out1 := collect q1 g
  if out1.1.resources.length ≠ 0 ∨ out1.1.semaphore_dependencies.length ≠ 0 then
    let out2 := collect q2 out1.1
    (out2.1, out1.2 ++ (Event.wait_idle :: out2.2))
  else out1

/-- A public operation of the collector; `collect` carries the counter values
the device would report during that call. -/
inductive Op where
  | release (r c : Nat)
  | release_sem (s : Nat)
  | depend (used user : Nat)
  | depend_many (used : List Nat) (user : Nat)
  | depend_sem (used s v : Nat)
  | add_trigger (s v cb : Nat)
  | collect (q : Nat → Nat)
  | wait_collect (q1 q2 : Nat → Nat)

/-- Apply one public operation. -/
def apply_op (g : GC) : Op → GC × List Event
  | .release r c => release r c g
  | .release_sem s => (release_sem s g, [])
  | .depend used user => (depend used user g, [])
  | .depend_many used user => (depend_many used user g, [])
  | .depend_sem used s v => (depend_sem used s v g, [])
  | .add_trigger s v cb => (add_trigger s v cb g, [])
  | .collect q => collect q g
  | .wait_collect q1 q2 => wait_collect q1 q2 g

/-- Run a sequence of public operations, accumulating the event log. -/
def run (g : GC) : List Op → GC × List Event
  | [] => (g, [])
  | op :: rest =>
    let out1 := apply_op g op
    let out2 := run out1.1 rest
    (out2.1, out1.2 ++ out2.2)

/-- The freshly constructed collector (vkgc.cc:32-35): empty registries. -/
def gc0 : GC := ⟨[], []⟩

/-- Run from the freshly constructed collector. -/
def run0 (ops : List Op) : GC × List Event := run gc0 ops

/-! ### Derived definitions used by the specification statements -/

/-- The keys of an association list, in order. -/
def keysOf (m : List (Nat × α)) : List Nat := m.map Prod.fst

/-- Well-formedness of an association list: keys are pairwise distinct. -/
def NoDupKeys (m : List (Nat × α)) : Prop := (keysOf m).Nodup

instance (m : List (Nat × α)) : Decidable (NoDupKeys m) :=
  inferInstanceAs (Decidable (keysOf m).Nodup)

/-- Ids of resources whose cleanup ran, in firing order. -/
def cleanedIds (ev : List Event) : List Nat :=
  ev.filterMap (fun e => match e with
    | Event.cleanup r _ => some r
    | _ => none)

/-- The events that the resource-side cascade (`check_delete`) may emit. -/
def cascadeEvent (e : Event) : Prop :=
  match e with
  | Event.cleanup _ _ => True
  | Event.decrement _ _ => True
  | Event.miss _ => True
  | _ => False

/-- The callback events of a log, in order. -/
def callbackEvents (ev : List Event) : List Event :=
  ev.filter (fun e => match e with
    | Event.callback _ => true
    | _ => false)

/-- The callback events a trigger list would emit if fired in order. -/
def firedCallbacks (ts : List trigger) : List Event :=
  ts.filterMap (fun t => t.callback.map Event.callback)

/-- `check_delete`'s deletion guard (vkgc.cc:133):
`dependency_count == 0 && cleanup`. -/
def eligible (r : Nat) (m : RMap) : Prop :=
  ∃ i, mfind r m = some i ∧ i.dependency_count = 0 ∧ i.cleanup.isSome

/-- The stored dependency count of `x` (`0` when the record is absent, as for
a freshly default-constructed record). -/
def countOf (x : Nat) (m : RMap) : Nat := ((mfind x m).getD default).dependency_count

/-- The number of dependents-list entries naming `x` across all records: the
unresolved resource-to-resource edges into `x`. -/
def depsTo (x : Nat) (m : RMap) : Nat := (m.map (fun p => p.2.dependents.count x)).sum

/-- All pending triggers of all counters, in registry order. -/
def trigsOf : SMap → List trigger
  | [] => []
  | p :: rest => p.2.triggers ++ trigsOf rest

/-- The number of pending triggers whose dependent is `x`: the unresolved
counter edges into `x`. -/
def trigsTo (x : Nat) (sems : SMap) : Nat :=
  (trigsOf sems).countP (fun t => decide (t.dependent = x))

/-- The total of all stored dependency counts. -/
def sumCounts (m : RMap) : Nat := (m.map (fun p => p.2.dependency_count)).sum

/-- All dependents-list entries of all records. -/
def allDeps : RMap → List Nat
  | [] => []
  | p :: rest => p.2.dependents ++ allDeps rest

/-- Every id mentioned by a state: keys, dependents entries and trigger
dependents.  `countOf`, `depsTo` and `trigsTo` vanish outside this list. -/
def relIds (m : RMap) (sems : SMap) : List Nat :=
  keysOf m ++ allDeps m ++ (trigsOf sems).map trigger.dependent

/-- A ghost stack frame of the recursive `check_delete`: the id of the record
being deleted and its not-yet-processed dependents entries. -/
structure Frame where
  fid : Nat
  remL : List Nat
deriving Repr, DecidableEq

/-- The record ids of the open frames. -/
def frameIds (stk : List Frame) : List Nat := stk.map Frame.fid

/-- The full dependents list of a frame's record in the current map. -/
def fullOf (m : RMap) (fr : Frame) : List Nat := ((mfind fr.fid m).getD default).dependents

/-- Entries naming `x` already processed by open frames whose owner records
are still present (the "debt" of the accounting balance). -/
def debtOf (x : Nat) (m : RMap) (stk : List Frame) : Nat :=
  (stk.map (fun fr => (fullOf m fr).count x - fr.remL.count x)).sum

/-- Entries naming `x` still awaiting processing in open frames. -/
def remOf (x : Nat) (stk : List Frame) : Nat := (stk.map (fun fr => fr.remL.count x)).sum

/-- All entries naming `x` owned by records with an open frame. -/
def claimOf (x : Nat) (m : RMap) (stk : List Frame) : Nat :=
  (stk.map (fun fr => (fullOf m fr).count x)).sum

/-- Invariant bundle threaded through `check_delete`/`cascade`: well-formed
keys, machine-bounded counts, a well-formed ghost stack of open frames (ids
distinct, each record present with count `0` and its remaining entries a
suffix of its dependents list), and the edge-accounting balance: for every
non-null id, stored count plus debt equals pending dependents entries plus
the pending trigger weight `tw`; for the null id the count only dominates. -/
structure IB (tw : Nat → Nat) (m : RMap) (stk : List Frame) : Prop where
  nodup : NoDupKeys m
  bounded : ∀ x, countOf x m < U64
  fnodup : (frameIds stk).Nodup
  fok : ∀ fr ∈ stk, ∃ i, mfind fr.fid m = some i ∧ fr.remL.IsSuffix i.dependents ∧
    i.dependency_count = 0
  balance : ∀ x, x ≠ 0 → countOf x m + debtOf x m stk = depsTo x m + tw x
  balance0 : depsTo 0 m ≤ countOf 0 m + debtOf 0 m stk

/-- Postcondition bundle of a cascade segment from map `m` to map `m'`
emitting `ev`: keys only disappear, surviving records keep their dependents
and cleanup (only counts change), cleaned ids were present and are gone,
each id is cleaned at most once, every logged decrement found a positive
count, and any still-deletable record is one of the open frames `ids`. -/
def CascadePost (m : RMap) (ids : List Nat) (m' : RMap) (ev : List Event) : Prop :=
  keysOf m' ⊆ keysOf m ∧
  m'.length ≤ m.length ∧
  (∀ x i', mfind x m' = some i' → ∃ i, mfind x m = some i ∧
    i'.dependents = i.dependents ∧ i'.cleanup = i.cleanup) ∧
  (∀ x ∈ cleanedIds ev, x ∈ keysOf m ∧ x ∉ keysOf m') ∧
  (cleanedIds ev).Nodup ∧
  (∀ x old, Event.decrement x old ∈ ev → 1 ≤ old) ∧
  (∀ x i, mfind x m' = some i → i.dependency_count = 0 → i.cleanup.isSome = true → x ∈ ids)

/-- Triggers sorted by ascending target value (the min-heap invariant of the
modelled `std::priority_queue`). -/
def trigSorted (ts : List trigger) : Prop := ts.Pairwise (fun a b => a.value ≤ b.value)

/-- The quiescent-state invariant maintained by every public operation:
well-formed registries, machine-bounded counts, counts equal to the number of
unresolved incoming edges (dominating them, for the null id), no record left
in the deletable state, and sorted trigger queues. -/
structure GoodState (g : GC) : Prop where
  rnodup : NoDupKeys g.resources
  snodup : NoDupKeys g.semaphore_dependencies
  bounded : ∀ x, countOf x g.resources < U64
  balance : ∀ x, x ≠ 0 → countOf x g.resources =
    depsTo x g.resources + trigsTo x g.semaphore_dependencies
  balance0 : depsTo 0 g.resources ≤ countOf 0 g.resources
  noElig : ∀ p ∈ g.resources, ¬(p.2.dependency_count = 0 ∧ p.2.cleanup.isSome)
  sorted : ∀ p ∈ g.semaphore_dependencies, trigSorted p.2.triggers

/-- The trigger weight of a pending-trigger list: how many of its triggers
have `x` as their dependent. -/
def twOf (ts : List trigger) (x : Nat) : Nat :=
  ts.countP (fun t => decide (t.dependent = x))

/-- No record or dependents entry uses the null identity: the discipline of a
caller that passes only real object addresses to the resource API. -/
def NonNullState (g : GC) : Prop :=
  0 ∉ keysOf g.resources ∧ ∀ x ∈ allDeps g.resources, x ≠ 0

/-- Total number of registered, unresolved edges and triggers. -/
def totalEdges (g : GC) : Nat :=
  (allDeps g.resources).length + (trigsOf g.semaphore_dependencies).length

/-- An operation that passes only non-null resource identities. -/
def opOK : Op → Prop
  | .release r _ => r ≠ 0
  | .depend used user => used ≠ 0 ∧ user ≠ 0
  | .depend_many used user => (∀ u ∈ used, u ≠ 0) ∧ user ≠ 0
  | .depend_sem used _ _ => used ≠ 0
  | _ => True

/-- Every logged `dependency_count--` found a positive count. -/
def decsPositive (ev : List Event) : Prop :=
  ∀ x old, Event.decrement x old ∈ ev → 1 ≤ old

/-- The registration weight of an operation: how many edges or triggers it
registers (bounding the growth of `totalEdges`). -/
def opWeight : Op → Nat
  | .depend _ _ => 1
  | .depend_many used _ => used.length
  | .depend_sem _ _ _ => 1
  | .add_trigger _ _ _ => 1
  | _ => 0

/-- Total registration weight of an operation sequence. -/
def runWeight (ops : List Op) : Nat := (ops.map opWeight).sum

/-- Fire every trigger of a list unconditionally: the body of the drain loop
of `collect`, applied to the ready prefix. -/
def fire_list : List trigger → RMap → RMap × List Event
  | [], res => (res, [])
  | t :: rest, res =>
    let ev_cb : List Event := match t.callback with
      | some cb => [Event.callback cb]
      | none => []
    if t.dependent ≠ 0 then
      let old := ((mfind t.dependent res).getD default).dependency_count
      let res1 := mupdate t.dependent
        (fun i => { i with dependency_count := wrapDec i.dependency_count }) res
      let out2 := check_delete (res1.length + 1) t.dependent res1
      let out3 := fire_list rest out2.1
      (out3.1, ev_cb ++ (Event.decrement t.dependent old :: out2.2) ++ out3.2)
    else
      let out3 := fire_list rest res
      (out3.1, ev_cb ++ out3.2)

/-- The count-bumping phase of `depend_many` (vkgc.cc:59-61): the fold that
increments each used resource's `dependency_count`. -/
def bumpAll (used : List Nat) (m : RMap) : RMap :=
  used.foldl
    (fun m u => mupdate u (fun i => { i with dependency_count := wrapInc i.dependency_count }) m)
    m

/-- Lock-related actions, for the locking discipline of `wait_collect`. -/
inductive LockEv where
  | lock
  | unlock
  | wait_idle_ev
deriving Repr, DecidableEq

/-- The mutex trace of one `collect()` call (vkgc.cc:72-101): the
`unique_lock` is held for the whole body and released on return. -/
def collect_lock_trace : List LockEv := [LockEv.lock, LockEv.unlock]

/-- The mutex trace of `wait_collect` (vkgc.cc:103-113), line by line:
`collect()`; `std::unique_lock lk(mutex)`; if any records remain,
`vkDeviceWaitIdle(dev)` — still under `lk` — then `lk.unlock()`, then
`collect()`; otherwise `lk` unlocks at scope exit. -/
def wait_collect_lock_trace (q1 : Nat → Nat) (g : GC) : List LockEv :=
  collect_lock_trace ++ [LockEv.lock] ++
    (if (collect q1 g).1.resources.length ≠ 0 ∨
        (collect q1 g).1.semaphore_dependencies.length ≠ 0 then
      [LockEv.wait_idle_ev, LockEv.unlock] ++ collect_lock_trace
    else [LockEv.unlock])

/-- Net number of mutex acquisitions in a trace (the lock depth after it). -/
def lockDepth : List LockEv → Int
  | [] => 0
  | LockEv.lock :: rest => 1 + lockDepth rest
  | LockEv.unlock :: rest => lockDepth rest - 1
  | LockEv.wait_idle_ev :: rest => lockDepth rest

end Vkgc

namespace Vkgc

/-! ### Association-list lemmas -/

theorem keysOf_nil : keysOf ([] : List (Nat × α)) = [] := rfl

theorem keysOf_cons (p : Nat × α) (m : List (Nat × α)) :
    keysOf (p :: m) = p.1 :: keysOf m := rfl

theorem mfind_cons (k k' : Nat) (v : α) (m : List (Nat × α)) :
    mfind k ((k', v) :: m) = if k' = k then some v else mfind k m := rfl

theorem mfind_eq_none_of_not_mem (k : Nat) (m : List (Nat × α)) (h : k ∉ keysOf m) :
    mfind k m = none := by
  induction m with
  | nil => rfl
  | cons p rest ih =>
    cases p with
    | mk k' v =>
      simp only [keysOf_cons, List.mem_cons] at h
      push_neg at h
      rw [mfind_cons, if_neg (fun hk => h.1 hk.symm)]
      exact ih h.2

theorem mem_keys_of_mfind (k : Nat) (m : List (Nat × α)) (v : α) (h : mfind k m = some v) :
    k ∈ keysOf m := by
  induction m with
  | nil => simp [mfind] at h
  | cons p rest ih =>
    cases p with
    | mk k' w =>
      rw [mfind_cons] at h
      by_cases hk : k' = k
      · simp [keysOf_cons, hk]
      · rw [if_neg hk] at h
        rw [keysOf_cons, List.mem_cons]
        exact Or.inr (ih h)

theorem mfind_of_mem_keys (k : Nat) (m : List (Nat × α)) (h : k ∈ keysOf m) :
    ∃ v, mfind k m = some v := by
  induction m with
  | nil => simp [keysOf] at h
  | cons p rest ih =>
    cases p with
    | mk k' v =>
      rw [mfind_cons]
      by_cases hk : k' = k
      · exact ⟨v, if_pos hk⟩
      · rw [if_neg hk]
        rw [keysOf_cons, List.mem_cons] at h
        rcases h with h1 | h2
        · exact absurd h1.symm hk
        · exact ih h2

theorem mfind_mupdate_self [Inhabited α] (k : Nat) (f : α → α) (m : List (Nat × α)) :
    mfind k (mupdate k f m) = some (f ((mfind k m).getD default)) := by
  induction m with
  | nil => simp [mfind, mupdate]
  | cons p rest ih =>
    cases p with
    | mk k' v =>
      simp only [mupdate]
      by_cases hk : k' = k
      · rw [if_pos hk, mfind_cons, if_pos hk, mfind_cons, if_pos hk]
        rfl
      · rw [if_neg hk, mfind_cons, if_neg hk, mfind_cons, if_neg hk]
        exact ih

theorem mfind_mupdate_ne [Inhabited α] (k k' : Nat) (f : α → α) (m : List (Nat × α))
    (h : k' ≠ k) : mfind k' (mupdate k f m) = mfind k' m := by
  induction m with
  | nil =>
    show mfind k' [(k, f default)] = none
    rw [mfind_cons, if_neg (fun hc => h hc.symm)]
    rfl
  | cons p rest ih =>
    cases p with
    | mk k'' v =>
      simp only [mupdate]
      by_cases hk : k'' = k
      · subst hk
        rw [if_pos rfl, mfind_cons, mfind_cons, if_neg (fun hc : k'' = k' => h hc.symm),
          if_neg (fun hc : k'' = k' => h hc.symm)]
      · rw [if_neg hk, mfind_cons, mfind_cons]
        by_cases hk' : k'' = k'
        · rw [if_pos hk', if_pos hk']
        · rw [if_neg hk', if_neg hk']
          exact ih

theorem mfind_merase_ne (k k' : Nat) (m : List (Nat × α)) (h : k' ≠ k) :
    mfind k' (merase k m) = mfind k' m := by
  induction m with
  | nil => rfl
  | cons p rest ih =>
    cases p with
    | mk k'' v =>
      simp only [merase]
      by_cases hk : k'' = k
      · subst hk
        rw [if_pos rfl, mfind_cons, if_neg (fun hc : k'' = k' => h hc.symm)]
      · rw [if_neg hk, mfind_cons, mfind_cons]
        by_cases hk' : k'' = k'
        · rw [if_pos hk', if_pos hk']
        · rw [if_neg hk', if_neg hk']
          exact ih

theorem merase_sublist (k : Nat) (m : List (Nat × α)) : (merase k m).Sublist m := by
  induction m with
  | nil => simp [merase]
  | cons p rest ih =>
    cases p with
    | mk k' v =>
      simp only [merase]
      by_cases hk : k' = k
      · rw [if_pos hk]
        exact List.sublist_cons_of_sublist _ (List.Sublist.refl rest)
      · rw [if_neg hk]
        exact List.Sublist.cons₂ _ ih

theorem keysOf_merase_sublist (k : Nat) (m : List (Nat × α)) :
    (keysOf (merase k m)).Sublist (keysOf m) :=
  List.Sublist.map Prod.fst (merase_sublist k m)

theorem NoDupKeys_merase (k : Nat) (m : List (Nat × α)) (h : NoDupKeys m) :
    NoDupKeys (merase k m) :=
  List.Nodup.sublist (keysOf_merase_sublist k m) h

theorem nodupkeys_cons_iff (k : Nat) (v : α) (m : List (Nat × α)) :
    NoDupKeys ((k, v) :: m) ↔ k ∉ keysOf m ∧ NoDupKeys m := by
  simp [NoDupKeys, keysOf_cons, List.nodup_cons]

theorem mfind_merase_self (k : Nat) (m : List (Nat × α)) (h : NoDupKeys m) :
    mfind k (merase k m) = none := by
  induction m with
  | nil => rfl
  | cons p rest ih =>
    cases p with
    | mk k' v =>
      rw [nodupkeys_cons_iff] at h
      simp only [merase]
      by_cases hk : k' = k
      · subst hk
        rw [if_pos rfl]
        exact mfind_eq_none_of_not_mem k' rest h.1
      · rw [if_neg hk, mfind_cons, if_neg hk]
        exact ih h.2

theorem keysOf_mupdate_present [Inhabited α] (k : Nat) (f : α → α) (m : List (Nat × α))
    (h : k ∈ keysOf m) : keysOf (mupdate k f m) = keysOf m := by
  induction m with
  | nil => simp [keysOf] at h
  | cons p rest ih =>
    cases p with
    | mk k' v =>
      simp only [mupdate]
      by_cases hk : k' = k
      · rw [if_pos hk, keysOf_cons, keysOf_cons]
      · rw [if_neg hk, keysOf_cons, keysOf_cons]
        rw [keysOf_cons, List.mem_cons] at h
        rcases h with h1 | h2
        · exact absurd h1.symm hk
        · rw [ih h2]

theorem keysOf_mupdate_absent [Inhabited α] (k : Nat) (f : α → α) (m : List (Nat × α))
    (h : k ∉ keysOf m) : keysOf (mupdate k f m) = keysOf m ++ [k] := by
  induction m with
  | nil => simp [keysOf, mupdate]
  | cons p rest ih =>
    cases p with
    | mk k' v =>
      rw [keysOf_cons, List.mem_cons] at h
      push_neg at h
      simp only [mupdate]
      rw [if_neg (fun hc => h.1 hc.symm), keysOf_cons, keysOf_cons, List.cons_append,
        ih h.2]

theorem NoDupKeys_mupdate [Inhabited α] (k : Nat) (f : α → α) (m : List (Nat × α))
    (h : NoDupKeys m) : NoDupKeys (mupdate k f m) := by
  by_cases hk : k ∈ keysOf m
  · unfold NoDupKeys
    rw [keysOf_mupdate_present k f m hk]
    exact h
  · unfold NoDupKeys
    rw [keysOf_mupdate_absent k f m hk]
    simpa [List.nodup_append] using ⟨h, hk⟩

theorem length_mupdate_present [Inhabited α] (k : Nat) (f : α → α) (m : List (Nat × α))
    (h : k ∈ keysOf m) : (mupdate k f m).length = m.length := by
  have := congrArg List.length (keysOf_mupdate_present k f m h)
  simpa [keysOf] using this

theorem length_merase_le (k : Nat) (m : List (Nat × α)) : (merase k m).length ≤ m.length :=
  List.Sublist.length_le (merase_sublist k m)

theorem keysOf_subset_of_sublist (m m' : List (Nat × α)) (h : m'.Sublist m) :
    keysOf m' ⊆ keysOf m :=
  List.Sublist.subset (List.Sublist.map Prod.fst h)

end Vkgc

namespace Vkgc

/-! ### Unfolding equations for `check_delete` -/

theorem cascade_eq_foldl (fuel : Nat) (deps : List Nat) (res : RMap) (ev : List Event) :
    deps.foldl
      (fun acc dep =>
        let old := ((mfind dep acc.1).getD default).dependency_count
        let res1 := mupdate dep
          (fun i => { i with dependency_count := wrapDec i.dependency_count }) acc.1
        let out2 := check_delete fuel dep res1
        (out2.1, acc.2 ++ Event.decrement dep old :: out2.2))
      (res, ev) =
    ((cascade fuel deps res).1, ev ++ (cascade fuel deps res).2) := by
  induction deps generalizing res ev with
  | nil => simp [cascade]
  | cons dep rest ih =>
    simp only [List.foldl_cons, cascade]
    rw [ih]
    simp

theorem check_delete_zero (r : Nat) (res : RMap) : check_delete 0 r res = (res, []) := rfl

theorem check_delete_succ (fuel r : Nat) (res : RMap) :
    check_delete (fuel + 1) r res =
      match mfind r res with
      | none => (res, [Event.miss r])
      | some info =>
        if info.dependency_count = 0 ∧ info.cleanup.isSome then
          (merase r (cascade fuel info.dependents res).1,
           Event.cleanup r (info.cleanup.getD 0) :: (cascade fuel info.dependents res).2)
        else (res, []) := by
  cases hf : mfind r res with
  | none => simp [check_delete, hf]
  | some info =>
    by_cases hcond : info.dependency_count = 0 ∧ info.cleanup.isSome
    · simp only [check_delete]
      rw [hf]
      simp only [if_pos hcond]
      rw [cascade_eq_foldl]
      simp
    · simp only [check_delete]
      rw [hf]
      simp only [if_neg hcond]

theorem check_delete_absent (fuel r : Nat) (res : RMap) (h : mfind r res = none) :
    check_delete (fuel + 1) r res = (res, [Event.miss r]) := by
  rw [check_delete_succ, h]

theorem check_delete_not_eligible (fuel r : Nat) (res : RMap) (info : dependency_info)
    (h : mfind r res = some info)
    (hne : ¬(info.dependency_count = 0 ∧ info.cleanup.isSome)) :
    check_delete (fuel + 1) r res = (res, []) := by
  rw [check_delete_succ, h]
  simp only [if_neg hne]

theorem check_delete_eligible (fuel r : Nat) (res : RMap) (info : dependency_info)
    (h : mfind r res = some info)
    (hc : info.dependency_count = 0 ∧ info.cleanup.isSome) :
    check_delete (fuel + 1) r res =
      (merase r (cascade fuel info.dependents res).1,
       Event.cleanup r (info.cleanup.getD 0) :: (cascade fuel info.dependents res).2) := by
  rw [check_delete_succ, h]
  simp only [if_pos hc]

end Vkgc

namespace Vkgc

/-! ### Event-shape lemmas for the cascade -/

theorem cb_events_mem (o : Option Nat) (e : Event)
    (h : e ∈ (match o with | some cb => [Event.callback cb] | none => ([] : List Event))) :
    ∃ cb, e = Event.callback cb := by
  cases o with
  | none => simp at h
  | some cb =>
    rw [List.mem_singleton] at h
    exact ⟨cb, h⟩

theorem check_cascade_events_shape (fuel : Nat) :
    (∀ r m, ∀ e ∈ (check_delete fuel r m).2, cascadeEvent e) ∧
    (∀ deps m, ∀ e ∈ (cascade fuel deps m).2, cascadeEvent e) := by
  induction fuel with
  | zero =>
    constructor
    · intro r m e he
      simp [check_delete_zero] at he
    · intro deps
      induction deps with
      | nil => intro m e he; simp [cascade] at he
      | cons dep rest ih =>
        intro m e he
        simp only [cascade, check_delete_zero, List.nil_append] at he
        rw [List.mem_cons] at he
        rcases he with he | he
        · subst he; trivial
        · exact ih _ e he
  | succ fuel ih =>
    have hcd : ∀ r m, ∀ e ∈ (check_delete (fuel + 1) r m).2, cascadeEvent e := by
      intro r m e he
      cases hf : mfind r m with
      | none =>
        rw [check_delete_absent fuel r m hf] at he
        rw [List.mem_singleton] at he
        subst he; trivial
      | some info =>
        by_cases hcond : info.dependency_count = 0 ∧ info.cleanup.isSome
        · rw [check_delete_eligible fuel r m info hf hcond] at he
          rw [List.mem_cons] at he
          rcases he with he | he
          · subst he; trivial
          · exact ih.2 _ _ e he
        · rw [check_delete_not_eligible fuel r m info hf hcond] at he
          simp at he
    refine ⟨hcd, ?_⟩
    intro deps
    induction deps with
    | nil => intro m e he; simp [cascade] at he
    | cons dep rest ihl =>
      intro m e he
      simp only [cascade] at he
      rw [List.mem_cons] at he
      rcases he with he | he
      · subst he; trivial
      · rw [List.mem_append] at he
        rcases he with he | he
        · exact hcd _ _ e he
        · exact ihl _ e he

theorem cascade_events_shape (fuel : Nat) (deps : List Nat) (m : RMap) :
    ∀ e ∈ (cascade fuel deps m).2, cascadeEvent e :=
  (check_cascade_events_shape fuel).2 deps m

theorem check_delete_events_shape (fuel : Nat) (r : Nat) (m : RMap) :
    ∀ e ∈ (check_delete fuel r m).2, cascadeEvent e :=
  (check_cascade_events_shape fuel).1 r m

/-! ### No lookup miss (C10 machinery) -/

theorem check_cascade_noMiss (fuel : Nat) :
    (∀ r m, (mfind r m).isSome = true → ∀ x, Event.miss x ∉ (check_delete fuel r m).2) ∧
    (∀ deps m x, Event.miss x ∉ (cascade fuel deps m).2) := by
  induction fuel with
  | zero =>
    constructor
    · intro r m _ x hx
      simp [check_delete_zero] at hx
    · intro deps
      induction deps with
      | nil => intro m x hx; simp [cascade] at hx
      | cons dep rest ih =>
        intro m x hx
        simp only [cascade, check_delete_zero, List.nil_append] at hx
        rw [List.mem_cons] at hx
        rcases hx with hx | hx
        · exact Event.noConfusion hx
        · exact ih _ x hx
  | succ fuel ih =>
    have hcd : ∀ r m, (mfind r m).isSome = true →
        ∀ x, Event.miss x ∉ (check_delete (fuel + 1) r m).2 := by
      intro r m hsome x hx
      cases hf : mfind r m with
      | none => rw [hf] at hsome; simp at hsome
      | some info =>
        by_cases hcond : info.dependency_count = 0 ∧ info.cleanup.isSome
        · rw [check_delete_eligible fuel r m info hf hcond] at hx
          rw [List.mem_cons] at hx
          rcases hx with hx | hx
          · exact Event.noConfusion hx
          · exact ih.2 _ _ x hx
        · rw [check_delete_not_eligible fuel r m info hf hcond] at hx
          simp at hx
    refine ⟨hcd, ?_⟩
    intro deps
    induction deps with
    | nil => intro m x hx; simp [cascade] at hx
    | cons dep rest ihl =>
      intro m x hx
      simp only [cascade] at hx
      rw [List.mem_cons] at hx
      rcases hx with hx | hx
      · exact Event.noConfusion hx
      · rw [List.mem_append] at hx
        rcases hx with hx | hx
        · refine hcd dep _ ?_ x hx
          rw [mfind_mupdate_self]
          rfl
        · exact ihl _ x hx

theorem release_noMiss (r c : Nat) (g : GC) (x : Nat) : Event.miss x ∉ (release r c g).2 := by
  intro hx
  refine (check_cascade_noMiss _).1 r _ ?_ x hx
  rw [mfind_mupdate_self]
  rfl

theorem fire_triggers_noMiss (v : Nat) (ts : List trigger) (res : RMap) (x : Nat) :
    Event.miss x ∉ (fire_triggers v ts res).2.2 := by
  induction ts generalizing res with
  | nil => simp [fire_triggers]
  | cons t rest ih =>
    intro hx
    simp only [fire_triggers] at hx
    by_cases hv : t.value ≤ v
    · rw [if_pos hv] at hx
      by_cases hd : t.dependent ≠ 0
      · rw [if_pos hd] at hx
        rw [List.mem_append, List.mem_append] at hx
        rcases hx with (hx | hx) | hx
        · obtain ⟨cb, hcb⟩ := cb_events_mem t.callback _ hx
          exact Event.noConfusion hcb
        · rw [List.mem_cons] at hx
          rcases hx with hx | hx
          · exact Event.noConfusion hx
          · refine (check_cascade_noMiss _).1 _ _ ?_ x hx
            rw [mfind_mupdate_self]
            rfl
        · exact ih _ hx
      · rw [if_neg hd] at hx
        rw [List.mem_append] at hx
        rcases hx with hx | hx
        · obtain ⟨cb, hcb⟩ := cb_events_mem t.callback _ hx
          exact Event.noConfusion hcb
        · exact ih _ hx
    · rw [if_neg hv] at hx
      simp at hx

theorem collect_sems_noMiss (q : Nat → Nat) (sems : SMap) (res : RMap) (x : Nat) :
    Event.miss x ∉ (collect_sems q sems res).2.2 := by
  induction sems generalizing res with
  | nil => simp [collect_sems]
  | cons p rest ih =>
    intro hx
    cases p with
    | mk sid sinfo =>
      simp only [collect_sems] at hx
      by_cases hb : ((fire_triggers (q sid) sinfo.triggers res).1.isEmpty
          && sinfo.should_destroy) = true
      · rw [if_pos hb] at hx
        rw [List.mem_append] at hx
        rcases hx with hx | hx
        · exact fire_triggers_noMiss _ _ _ x hx
        · rw [List.mem_cons] at hx
          rcases hx with hx | hx
          · exact Event.noConfusion hx
          · exact ih _ hx
      · rw [if_neg hb] at hx
        rw [List.mem_append] at hx
        rcases hx with hx | hx
        · exact fire_triggers_noMiss _ _ _ x hx
        · exact ih _ hx

theorem collect_noMiss (q : Nat → Nat) (g : GC) (x : Nat) :
    Event.miss x ∉ (collect q g).2 :=
  collect_sems_noMiss q g.semaphore_dependencies g.resources x

theorem wait_collect_noMiss (q1 q2 : Nat → Nat) (g : GC) (x : Nat) :
    Event.miss x ∉ (wait_collect q1 q2 g).2 := by
  intro hx
  simp only [wait_collect] at hx
  by_cases hc : (collect q1 g).1.resources.length ≠ 0 ∨
      (collect q1 g).1.semaphore_dependencies.length ≠ 0
  · rw [if_pos hc] at hx
    rw [List.mem_append] at hx
    rcases hx with hx | hx
    · exact collect_noMiss q1 g x hx
    · rw [List.mem_cons] at hx
      rcases hx with hx | hx
      · exact Event.noConfusion hx
      · exact collect_noMiss q2 _ x hx
  · rw [if_neg hc] at hx
    exact collect_noMiss q1 g x hx

theorem apply_op_noMiss (g : GC) (op : Op) (x : Nat) : Event.miss x ∉ (apply_op g op).2 := by
  cases op with
  | release r c => exact release_noMiss r c g x
  | release_sem s => simp [apply_op]
  | depend used user => simp [apply_op]
  | depend_many used user => simp [apply_op]
  | depend_sem used s v => simp [apply_op]
  | add_trigger s v cb => simp [apply_op]
  | collect q => exact collect_noMiss q g x
  | wait_collect q1 q2 => exact wait_collect_noMiss q1 q2 g x

theorem run_noMiss (ops : List Op) (g : GC) (x : Nat) : Event.miss x ∉ (run g ops).2 := by
  induction ops generalizing g with
  | nil => simp [run]
  | cons op rest ih =>
    intro hx
    simp only [run] at hx
    rw [List.mem_append] at hx
    rcases hx with hx | hx
    · exact apply_op_noMiss g op x hx
    · exact ih _ hx

/-- C10: every internal `check_delete(resource)` call happens on an identity
just materialized in the resource map by `operator[]` (in `release`, the
trigger-firing path of `collect`, and the cascade), so the unguarded map
lookup at the start of `check_delete` always succeeds: over every sequence of
public operations the `none` branch of the lookup — logged as `Event.miss` in
this total embedding — is never taken. -/
theorem C10_no_lookup_miss (ops : List Op) (x : Nat) : Event.miss x ∉ (run0 ops).2 :=
  run_noMiss ops gc0 x

/-! ### Concrete scenarios: the dependency chain and the trigger lifecycle -/

/-- C3: after `depend(A,B)`, `depend(B,C)` and releases of cleanups on all
three (A=1, B=2, C=3 with cleanup labels 11, 12, 13), releasing `C` cascades
within that single pass; the whole run's event log is exactly: C's cleanup,
B's count decremented from 1 (to 0), B's cleanup, A's count decremented from
1 (to 0), A's cleanup — each cleanup exactly once, in the order C, B, A — and
all three records are removed. -/
theorem C3_chain_cascade :
    run0 [Op.depend 1 2, Op.depend 2 3, Op.release 1 11, Op.release 2 12, Op.release 3 13] =
      (⟨[], []⟩,
       [Event.cleanup 3 13, Event.decrement 2 1, Event.cleanup 2 12,
        Event.decrement 1 1, Event.cleanup 1 11]) := by
  rfl

/-- C5: `collect()` on the empty registries is a no-op with no events; for
`add_trigger(T=1, 5, callback 7)`: a `collect` that reads the counter at 3
runs nothing, a following `collect` at 5 runs the callback exactly once, and
any further sequence of `collect` calls (whatever values they report) emits
no further events — a fired trigger is never re-fired. -/
theorem C5_no_refire :
    (∀ q : Nat → Nat, collect q gc0 = (gc0, [])) ∧
    (run0 [Op.add_trigger 1 5 7, Op.collect (fun _ => 3)]).2 = [] ∧
    run0 [Op.add_trigger 1 5 7, Op.collect (fun _ => 3), Op.collect (fun _ => 5)] =
      (⟨[], [(1, ⟨[], false⟩)]⟩, [Event.callback 7]) ∧
    (∀ qs : List (Nat → Nat),
      (run (⟨[], [(1, ⟨[], false⟩)]⟩ : GC) (qs.map Op.collect)).2 = []) := by
  refine ⟨fun q => rfl, rfl, rfl, fun qs => ?_⟩
  induction qs with
  | nil => rfl
  | cons q rest ih =>
    show (run _ (Op.collect q :: rest.map Op.collect)).2 = []
    simp only [run]
    have hstep : apply_op (⟨[], [(1, ⟨[], false⟩)]⟩ : GC) (Op.collect q) =
        ((⟨[], [(1, ⟨[], false⟩)]⟩ : GC), []) := rfl
    rw [hstep]
    simpa using ih

end Vkgc

namespace Vkgc

/-! ### Locking discipline of `wait_collect` (C9) -/

/-- C9 counterexample: on a state with a live resource record, the mutex
trace of `wait_collect` reaches `vkDeviceWaitIdle` (position 3) with the lock
depth of the preceding prefix equal to 1, not 0: `wait_collect` invokes the
blocking wait while still holding the collector's lock
(vkgc.cc:106-110 — `lk.unlock()` only comes after `vkDeviceWaitIdle(dev)`),
refuting the claim that the lock is released before the blocking wait. -/
theorem C9_counterexample :
    (wait_collect_lock_trace (fun _ => 0) ⟨[(1, ⟨1, [], none⟩)], []⟩).get? 3 =
      some LockEv.wait_idle_ev ∧
    lockDepth ((wait_collect_lock_trace (fun _ => 0) ⟨[(1, ⟨1, [], none⟩)], []⟩).take 3) = 1 := by
  constructor
  · rfl
  · rfl

/-- C9 (amended): `wait_collect` holds the collector's lock across the
blocking full-device wait: wherever `vkDeviceWaitIdle` occurs in the mutex
trace, the preceding prefix has lock depth 1, and the wait is followed
immediately by the unlock and then by the fresh `collect()` (which
re-acquires and releases the lock). -/
theorem C9_amended_lock (q1 : Nat → Nat) (g : GC) (pre post : List LockEv)
    (h : wait_collect_lock_trace q1 g = pre ++ LockEv.wait_idle_ev :: post) :
    lockDepth pre = 1 ∧ post = LockEv.unlock :: collect_lock_trace := by
  by_cases hc : (collect q1 g).1.resources.length ≠ 0 ∨
      (collect q1 g).1.semaphore_dependencies.length ≠ 0
  · rw [wait_collect_lock_trace, if_pos hc] at h
    simp only [collect_lock_trace, List.cons_append, List.nil_append, List.append_assoc] at h
    rcases pre with _ | ⟨e0, pre⟩
    · simp at h
    rcases pre with _ | ⟨e1, pre⟩
    · simp at h
    rcases pre with _ | ⟨e2, pre⟩
    · simp at h
    rcases pre with _ | ⟨e3, pre⟩
    · simp only [List.cons_append, List.nil_append, List.cons.injEq] at h
      obtain ⟨he0, he1, he2, _, hpost⟩ := h
      subst he0; subst he1; subst he2; subst hpost
      constructor
      · rfl
      · rfl
    rcases pre with _ | ⟨e4, pre⟩
    · simp at h
    rcases pre with _ | ⟨e5, pre⟩
    · simp at h
    rcases pre with _ | ⟨e6, pre⟩
    · simp at h
    · exfalso
      have hlen := congrArg List.length h
      simp [List.length_append] at hlen
  · rw [wait_collect_lock_trace, if_neg hc] at h
    simp only [collect_lock_trace, List.cons_append, List.nil_append, List.append_assoc] at h
    rcases pre with _ | ⟨e0, pre⟩
    · simp at h
    rcases pre with _ | ⟨e1, pre⟩
    · simp at h
    rcases pre with _ | ⟨e2, pre⟩
    · simp at h
    rcases pre with _ | ⟨e3, pre⟩
    · simp at h
    · exfalso
      have hlen := congrArg List.length h
      simp [List.length_append] at hlen

theorem C9_amended_lock_witness :
    lockDepth [LockEv.lock, LockEv.unlock, LockEv.lock] = 1 ∧
      [LockEv.unlock, LockEv.lock, LockEv.unlock] = LockEv.unlock :: collect_lock_trace :=
  C9_amended_lock (fun _ => 0) ⟨[(1, ⟨1, [], none⟩)], []⟩
    [LockEv.lock, LockEv.unlock, LockEv.lock]
    [LockEv.unlock, LockEv.lock, LockEv.unlock] (by decide)

end Vkgc

namespace Vkgc

/-! ### The drain loop: remaining triggers and event shapes -/

theorem fire_triggers_fst (v : Nat) (ts : List trigger) (res : RMap) :
    (fire_triggers v ts res).1 = ts.dropWhile (fun t => decide (t.value ≤ v)) := by
  induction ts generalizing res with
  | nil => rfl
  | cons t rest ih =>
    simp only [fire_triggers]
    by_cases hv : t.value ≤ v
    · rw [if_pos hv]
      by_cases hdep : t.dependent ≠ 0
      · rw [if_pos hdep]
        dsimp only
        rw [ih, List.dropWhile_cons, if_pos (by simpa using hv)]
      · rw [if_neg hdep]
        dsimp only
        rw [ih, List.dropWhile_cons, if_pos (by simpa using hv)]
    · rw [if_neg hv]
      dsimp only
      rw [List.dropWhile_cons, if_neg (by simpa using hv)]

theorem fire_triggers_events_shape (v : Nat) (ts : List trigger) (res : RMap) :
    ∀ e ∈ (fire_triggers v ts res).2.2, cascadeEvent e ∨ ∃ cb, e = Event.callback cb := by
  induction ts generalizing res with
  | nil => intro e he; simp [fire_triggers] at he
  | cons t rest ih =>
    intro e he
    simp only [fire_triggers] at he
    by_cases hv : t.value ≤ v
    · rw [if_pos hv] at he
      by_cases hdep : t.dependent ≠ 0
      · rw [if_pos hdep] at he
        rw [List.mem_append, List.mem_append] at he
        rcases he with (he | he) | he
        · exact Or.inr (cb_events_mem t.callback e he)
        · rw [List.mem_cons] at he
          rcases he with he | he
          · subst he; exact Or.inl trivial
          · exact Or.inl (check_delete_events_shape _ _ _ e he)
        · exact ih _ e he
      · rw [if_neg hdep] at he
        rw [List.mem_append] at he
        rcases he with he | he
        · exact Or.inr (cb_events_mem t.callback e he)
        · exact ih _ e he
    · rw [if_neg hv] at he
      simp at he

theorem fire_triggers_no_destroy (v : Nat) (ts : List trigger) (res : RMap) (x : Nat) :
    Event.destroy_sem x ∉ (fire_triggers v ts res).2.2 := by
  intro hx
  rcases fire_triggers_events_shape v ts res _ hx with h | ⟨cb, hcb⟩
  · exact h
  · exact Event.noConfusion hcb

theorem collect_sems_keys_sub (q : Nat → Nat) (sems : SMap) (res : RMap) :
    keysOf (collect_sems q sems res).1 ⊆ keysOf sems := by
  induction sems generalizing res with
  | nil => simp [collect_sems, keysOf]
  | cons p rest ih =>
    cases p with
    | mk sid sinfo =>
      simp only [collect_sems]
      by_cases hb : ((fire_triggers (q sid) sinfo.triggers res).1.isEmpty
          && sinfo.should_destroy) = true
      · rw [if_pos hb]
        intro x hx
        rw [keysOf_cons, List.mem_cons]
        exact Or.inr (ih _ hx)
      · rw [if_neg hb]
        intro x hx
        rw [keysOf_cons] at hx ⊢
        rw [List.mem_cons] at hx ⊢
        rcases hx with hx | hx
        · exact Or.inl hx
        · exact Or.inr (ih _ hx)

theorem collect_sems_destroys_sub (q : Nat → Nat) (sems : SMap) (res : RMap) (x : Nat)
    (hx : Event.destroy_sem x ∈ (collect_sems q sems res).2.2) : x ∈ keysOf sems := by
  induction sems generalizing res with
  | nil => simp [collect_sems] at hx
  | cons p rest ih =>
    cases p with
    | mk sid sinfo =>
      simp only [collect_sems] at hx
      by_cases hb : ((fire_triggers (q sid) sinfo.triggers res).1.isEmpty
          && sinfo.should_destroy) = true
      · rw [if_pos hb] at hx
        rw [List.mem_append] at hx
        rcases hx with hx | hx
        · exact absurd hx (fire_triggers_no_destroy _ _ _ x)
        · rw [List.mem_cons] at hx
          rcases hx with hx | hx
          · have hxs : x = sid := by injection hx
            rw [keysOf_cons, List.mem_cons]
            exact Or.inl hxs
          · rw [keysOf_cons, List.mem_cons]
            exact Or.inr (ih _ hx)
      · rw [if_neg hb] at hx
        rw [List.mem_append] at hx
        rcases hx with hx | hx
        · exact absurd hx (fire_triggers_no_destroy _ _ _ x)
        · rw [keysOf_cons, List.mem_cons]
          exact Or.inr (ih _ hx)

end Vkgc

namespace Vkgc

/-! ### Counter record lifecycle (C4) -/

theorem collect_sems_spec (q : Nat → Nat) (sems : SMap) (res : RMap) (s : Nat)
    (si : semaphore_info) (hnd : NoDupKeys sems) (hs : mfind s sems = some si) :
    (mfind s (collect_sems q sems res).1 =
      (if ((si.triggers.dropWhile (fun t => decide (t.value ≤ q s))).isEmpty &&
          si.should_destroy) = true then none
       else some ⟨si.triggers.dropWhile (fun t => decide (t.value ≤ q s)),
         si.should_destroy⟩)) ∧
    ((Event.destroy_sem s ∈ (collect_sems q sems res).2.2) ↔
      ((si.triggers.dropWhile (fun t => decide (t.value ≤ q s))).isEmpty &&
        si.should_destroy) = true) := by
  induction sems generalizing res with
  | nil => simp [mfind] at hs
  | cons p rest ih =>
    cases p with
    | mk k ki =>
      rw [nodupkeys_cons_iff] at hnd
      rw [mfind_cons] at hs
      by_cases hk : k = s
      · subst hk
        rw [if_pos rfl] at hs
        injection hs with hs
        subst hs
        simp only [collect_sems]
        by_cases hb : ((fire_triggers (q k) ki.triggers res).1.isEmpty &&
            ki.should_destroy) = true
        · rw [if_pos hb]
          rw [fire_triggers_fst] at hb
          rw [if_pos hb]
          constructor
          · apply mfind_eq_none_of_not_mem
            intro hmem
            exact hnd.1 (collect_sems_keys_sub q rest _ hmem)
          · constructor
            · intro _; exact hb
            · intro _
              rw [List.mem_append, List.mem_cons]
              exact Or.inr (Or.inl rfl)
        · rw [if_neg hb]
          rw [fire_triggers_fst] at hb
          rw [if_neg hb]
          constructor
          · rw [mfind_cons, if_pos rfl, fire_triggers_fst]
          · constructor
            · intro hmem
              rw [List.mem_append] at hmem
              rcases hmem with hmem | hmem
              · exact absurd hmem (fire_triggers_no_destroy _ _ _ k)
              · exact absurd (collect_sems_destroys_sub q rest _ k hmem) hnd.1
            · intro hb'
              exact absurd hb' hb
      · rw [if_neg hk] at hs
        simp only [collect_sems]
        by_cases hb : ((fire_triggers (q k) ki.triggers res).1.isEmpty &&
            ki.should_destroy) = true
        · rw [if_pos hb]
          have hrec := ih ((fire_triggers (q k) ki.triggers res).2.1) hnd.2 hs
          constructor
          · exact hrec.1
          · constructor
            · intro hmem
              rw [List.mem_append, List.mem_cons] at hmem
              rcases hmem with hmem | hmem | hmem
              · exact absurd hmem (fire_triggers_no_destroy _ _ _ s)
              · exact absurd (by injection hmem) (fun hc : s = k => hk hc.symm)
              · exact hrec.2.mp hmem
            · intro hb'
              rw [List.mem_append, List.mem_cons]
              exact Or.inr (Or.inr (hrec.2.mpr hb'))
        · rw [if_neg hb]
          have hrec := ih ((fire_triggers (q k) ki.triggers res).2.1) hnd.2 hs
          constructor
          · rw [mfind_cons, if_neg hk]
            exact hrec.1
          · constructor
            · intro hmem
              rw [List.mem_append] at hmem
              rcases hmem with hmem | hmem
              · exact absurd hmem (fire_triggers_no_destroy _ _ _ s)
              · exact hrec.2.mp hmem
            · intro hb'
              rw [List.mem_append]
              exact Or.inr (hrec.2.mpr hb')

/-- C4: `release(counter)` only sets `should_destroy` — the record stays in
the registry with its triggers intact and the resource registry untouched —
and a `collect` pass destroys (emits `destroy_sem`) and removes a counter
record if and only if, after draining its ready triggers, the remaining
trigger queue is empty and `should_destroy` is set; otherwise the record is
retained with exactly the undrained triggers. -/
theorem C4_counter_lifecycle (g : GC) (q : Nat → Nat) (s : Nat) (si : semaphore_info)
    (hnd : NoDupKeys g.semaphore_dependencies)
    (hs : mfind s g.semaphore_dependencies = some si) :
    (mfind s (release_sem s g).semaphore_dependencies = some ⟨si.triggers, true⟩ ∧
      (release_sem s g).resources = g.resources) ∧
    (mfind s (collect q g).1.semaphore_dependencies =
      (if ((si.triggers.dropWhile (fun t => decide (t.value ≤ q s))).isEmpty &&
          si.should_destroy) = true then none
       else some ⟨si.triggers.dropWhile (fun t => decide (t.value ≤ q s)),
         si.should_destroy⟩)) ∧
    ((Event.destroy_sem s ∈ (collect q g).2) ↔
      ((si.triggers.dropWhile (fun t => decide (t.value ≤ q s))).isEmpty &&
        si.should_destroy) = true) := by
  refine ⟨⟨?_, rfl⟩, ?_, ?_⟩
  · show mfind s (mupdate s _ g.semaphore_dependencies) = _
    rw [mfind_mupdate_self, hs]
    rfl
  · exact (collect_sems_spec q g.semaphore_dependencies g.resources s si hnd hs).1
  · exact (collect_sems_spec q g.semaphore_dependencies g.resources s si hnd hs).2

theorem C4_witness :
    (mfind 2 (release_sem 2 ⟨[], [(2, ⟨[⟨5, 0, some 7⟩], true⟩)]⟩).semaphore_dependencies =
        some ⟨[⟨5, 0, some 7⟩], true⟩ ∧
      (release_sem 2 ⟨[], [(2, ⟨[⟨5, 0, some 7⟩], true⟩)]⟩).resources = []) ∧
    (mfind 2 (collect (fun _ => 9) ⟨[], [(2, ⟨[⟨5, 0, some 7⟩], true⟩)]⟩).1.semaphore_dependencies =
      (if (([⟨5, 0, some 7⟩] :
            List trigger).dropWhile (fun t => decide (t.value ≤ (fun _ => 9) 2))).isEmpty &&
          true = true then none
       else some ⟨([⟨5, 0, some 7⟩] :
         List trigger).dropWhile (fun t => decide (t.value ≤ (fun _ => 9) 2)), true⟩)) ∧
    ((Event.destroy_sem 2 ∈ (collect (fun _ => 9) ⟨[], [(2, ⟨[⟨5, 0, some 7⟩], true⟩)]⟩).2) ↔
      (([⟨5, 0, some 7⟩] :
          List trigger).dropWhile (fun t => decide (t.value ≤ (fun _ => 9) 2))).isEmpty &&
        true = true) :=
  C4_counter_lifecycle ⟨[], [(2, ⟨[⟨5, 0, some 7⟩], true⟩)]⟩ (fun _ => 9) 2
    ⟨[⟨5, 0, some 7⟩], true⟩ (by decide) (by decide)

end Vkgc

namespace Vkgc

/-! ### Trigger ordering (C2) -/

theorem sorted_takeWhile_filter (v : Nat) (ts : List trigger) (hs : trigSorted ts) :
    ts.takeWhile (fun t => decide (t.value ≤ v)) = ts.filter (fun t => decide (t.value ≤ v)) ∧
    ts.dropWhile (fun t => decide (t.value ≤ v)) = ts.filter (fun t => !decide (t.value ≤ v)) := by
  induction ts with
  | nil => exact ⟨rfl, rfl⟩
  | cons t rest ih =>
    simp only [trigSorted, List.pairwise_cons] at hs
    obtain ⟨hall, hrest⟩ := hs
    have ihr := ih hrest
    by_cases hv : t.value ≤ v
    · have h1 := ihr.1
      have h2 := ihr.2
      simp [List.takeWhile_cons, List.dropWhile_cons, List.filter_cons, hv, h1, h2]
    · have hall' : ∀ u ∈ rest, ¬u.value ≤ v := fun u hu hc => hv (le_trans (hall u hu) hc)
      have h1 : List.filter (fun t => decide (t.value ≤ v)) rest = [] := by
        rw [List.filter_eq_nil_iff]
        intro u hu
        simpa using hall' u hu
      have h2 : List.filter (fun t => !decide (t.value ≤ v)) rest = rest := by
        rw [List.filter_eq_self]
        intro u hu
        simpa using hall' u hu
      simp [List.takeWhile_cons, List.dropWhile_cons, List.filter_cons, hv, h1, h2]

theorem fire_triggers_eq_fire_list (v : Nat) (ts : List trigger) (res : RMap) :
    (fire_triggers v ts res).2.1 =
      (fire_list (ts.takeWhile (fun t => decide (t.value ≤ v))) res).1 ∧
    (fire_triggers v ts res).2.2 =
      (fire_list (ts.takeWhile (fun t => decide (t.value ≤ v))) res).2 := by
  induction ts generalizing res with
  | nil => exact ⟨rfl, rfl⟩
  | cons t rest ih =>
    by_cases hv : t.value ≤ v
    · rw [List.takeWhile_cons, if_pos (by simpa using hv)]
      simp only [fire_triggers, fire_list, if_pos hv]
      by_cases hdep : t.dependent ≠ 0
      · rw [if_pos hdep, if_pos hdep]
        dsimp only
        refine ⟨(ih _).1, ?_⟩
        rw [(ih _).2]
      · rw [if_neg hdep, if_neg hdep]
        dsimp only
        refine ⟨(ih _).1, ?_⟩
        rw [(ih _).2]
    · rw [List.takeWhile_cons, if_neg (by simpa using hv)]
      simp only [fire_triggers, fire_list, if_neg hv]
      constructor
      · first | rfl | trivial
      · first | rfl | trivial

theorem callbackEvents_nil : callbackEvents [] = [] := rfl

theorem callbackEvents_append (a b : List Event) :
    callbackEvents (a ++ b) = callbackEvents a ++ callbackEvents b := by
  simp [callbackEvents]

theorem callbackEvents_cons_dec (r o : Nat) (l : List Event) :
    callbackEvents (Event.decrement r o :: l) = callbackEvents l := by
  simp [callbackEvents]

theorem callbackEvents_cons_destroy (s : Nat) (l : List Event) :
    callbackEvents (Event.destroy_sem s :: l) = callbackEvents l := by
  simp [callbackEvents]

theorem callbackEvents_cons_cb (cb : Nat) (l : List Event) :
    callbackEvents (Event.callback cb :: l) = Event.callback cb :: callbackEvents l := by
  simp [callbackEvents]

theorem callbackEvents_check_delete (fuel r : Nat) (m : RMap) :
    callbackEvents (check_delete fuel r m).2 = [] := by
  simp only [callbackEvents]
  rw [List.filter_eq_nil_iff]
  intro e he
  have hshape := check_delete_events_shape fuel r m e he
  cases e with
  | callback cb => exact absurd hshape (by simp [cascadeEvent])
  | cleanup a b => simp
  | decrement a b => simp
  | destroy_sem a => simp
  | wait_idle => simp
  | miss a => simp

theorem fire_list_callbackEvents (ts : List trigger) (res : RMap) :
    callbackEvents (fire_list ts res).2 = firedCallbacks ts := by
  induction ts generalizing res with
  | nil => rfl
  | cons t rest ih =>
    simp only [fire_list]
    by_cases hdep : t.dependent ≠ 0
    · rw [if_pos hdep]
      dsimp only
      rw [callbackEvents_append, callbackEvents_append, callbackEvents_cons_dec,
        callbackEvents_check_delete, ih]
      cases hcb : t.callback with
      | none =>
        show callbackEvents [] ++ [] ++ firedCallbacks rest = firedCallbacks (t :: rest)
        simp [callbackEvents, firedCallbacks, hcb]
      | some cb =>
        show callbackEvents [Event.callback cb] ++ [] ++ firedCallbacks rest =
          firedCallbacks (t :: rest)
        simp [callbackEvents, firedCallbacks, hcb]
    · rw [if_neg hdep]
      dsimp only
      rw [callbackEvents_append, ih]
      cases hcb : t.callback with
      | none =>
        show callbackEvents [] ++ firedCallbacks rest = firedCallbacks (t :: rest)
        simp [callbackEvents, firedCallbacks, hcb]
      | some cb =>
        show callbackEvents [Event.callback cb] ++ firedCallbacks rest =
          firedCallbacks (t :: rest)
        simp [callbackEvents, firedCallbacks, hcb]

theorem fire_list_decrement_mem (ts : List trigger) :
    ∀ (res : RMap) (t : trigger), t ∈ ts → t.dependent ≠ 0 →
      ∃ old, Event.decrement t.dependent old ∈ (fire_list ts res).2 := by
  induction ts with
  | nil => intro res t ht; simp at ht
  | cons u rest ih =>
    intro res t ht hdep
    simp only [fire_list]
    rcases List.mem_cons.mp ht with ht | ht
    · subst ht
      rw [if_pos hdep]
      dsimp only
      refine ⟨((mfind t.dependent res).getD default).dependency_count, ?_⟩
      rw [List.mem_append, List.mem_append]
      exact Or.inl (Or.inr (List.mem_cons_self _ _))
    · by_cases hu : u.dependent ≠ 0
      · rw [if_pos hu]
        dsimp only
        obtain ⟨old, hmem⟩ := ih _ t ht hdep
        refine ⟨old, ?_⟩
        rw [List.mem_append]
        exact Or.inr hmem
      · rw [if_neg hu]
        dsimp only
        obtain ⟨old, hmem⟩ := ih _ t ht hdep
        refine ⟨old, ?_⟩
        rw [List.mem_append]
        exact Or.inr hmem

end Vkgc

namespace Vkgc

/-- C2: for a single counter `s` whose sorted trigger queue is `ts`, one
`collect` pass polling value `q s` removes from the queue exactly the
triggers with `target_value ≤ q s` (the ready prefix, which under sortedness
is precisely the filter), retaining exactly the others; the ready triggers
are processed in non-decreasing target order — their callbacks run in
exactly that order — and every ready trigger with an attached dependent has
that dependent's `dependency_count` decremented and its deletion eligibility
re-checked (`fire_list` interleaves the `check_delete` call after each
decrement).  In particular a trigger whose target is already at or below the
counter's current value is in the ready filter and fires on this very
`collect`. -/
theorem C2_trigger_order (q : Nat → Nat) (s : Nat) (sd : Bool) (ts : List trigger)
    (rm : RMap) (hs : trigSorted ts) :
    (fire_triggers (q s) ts rm).1 = ts.filter (fun t => !decide (t.value ≤ q s)) ∧
    ts.takeWhile (fun t => decide (t.value ≤ q s)) =
      ts.filter (fun t => decide (t.value ≤ q s)) ∧
    trigSorted (ts.takeWhile (fun t => decide (t.value ≤ q s))) ∧
    (collect q ⟨rm, [(s, ⟨ts, sd⟩)]⟩).1.resources =
      (fire_list (ts.takeWhile (fun t => decide (t.value ≤ q s))) rm).1 ∧
    callbackEvents (collect q ⟨rm, [(s, ⟨ts, sd⟩)]⟩).2 =
      firedCallbacks (ts.takeWhile (fun t => decide (t.value ≤ q s))) ∧
    (∀ t ∈ ts.takeWhile (fun t => decide (t.value ≤ q s)), t.dependent ≠ 0 →
      ∃ old, Event.decrement t.dependent old ∈ (collect q ⟨rm, [(s, ⟨ts, sd⟩)]⟩).2) := by
  have hres : (collect q ⟨rm, [(s, ⟨ts, sd⟩)]⟩).1.resources =
      (fire_triggers (q s) ts rm).2.1 := by
    simp only [collect, collect_sems]
    by_cases hb : ((fire_triggers (q s) ts rm).1.isEmpty && sd) = true
    · rw [if_pos hb]
    · rw [if_neg hb]
  have hev : callbackEvents (collect q ⟨rm, [(s, ⟨ts, sd⟩)]⟩).2 =
      callbackEvents (fire_triggers (q s) ts rm).2.2 := by
    simp only [collect, collect_sems]
    by_cases hb : ((fire_triggers (q s) ts rm).1.isEmpty && sd) = true
    · rw [if_pos hb]
      dsimp only
      rw [callbackEvents_append, callbackEvents_cons_destroy, callbackEvents_nil,
        List.append_nil]
    · rw [if_neg hb]
      dsimp only
      rw [callbackEvents_append, callbackEvents_nil, List.append_nil]
  have hmem : ∀ e, e ∈ (fire_triggers (q s) ts rm).2.2 →
      e ∈ (collect q ⟨rm, [(s, ⟨ts, sd⟩)]⟩).2 := by
    intro e he
    simp only [collect, collect_sems]
    by_cases hb : ((fire_triggers (q s) ts rm).1.isEmpty && sd) = true
    · rw [if_pos hb]
      dsimp only
      rw [List.mem_append]
      exact Or.inl he
    · rw [if_neg hb]
      dsimp only
      rw [List.mem_append]
      exact Or.inl he
  refine ⟨?_, (sorted_takeWhile_filter (q s) ts hs).1, ?_, ?_, ?_, ?_⟩
  · rw [fire_triggers_fst]
    exact (sorted_takeWhile_filter (q s) ts hs).2
  · exact List.Pairwise.sublist (List.takeWhile_sublist _) hs
  · rw [hres]
    exact (fire_triggers_eq_fire_list (q s) ts rm).1
  · rw [hev, (fire_triggers_eq_fire_list (q s) ts rm).2]
    exact fire_list_callbackEvents _ rm
  · intro t ht hdep
    obtain ⟨old, hold⟩ := fire_list_decrement_mem _ rm t ht hdep
    refine ⟨old, hmem _ ?_⟩
    rw [(fire_triggers_eq_fire_list (q s) ts rm).2]
    exact hold

theorem C2_trigger_order_witness :
    ((fire_triggers ((fun _ => 3) 1) [⟨1, 0, some 4⟩, ⟨3, 5, none⟩, ⟨7, 0, some 6⟩]
        [(5, ⟨1, [], none⟩)]).1 =
      ([⟨1, 0, some 4⟩, ⟨3, 5, none⟩, ⟨7, 0, some 6⟩] :
        List trigger).filter (fun t => !decide (t.value ≤ (fun _ => 3) 1)) ∧
    ([⟨1, 0, some 4⟩, ⟨3, 5, none⟩, ⟨7, 0, some 6⟩] :
        List trigger).takeWhile (fun t => decide (t.value ≤ (fun _ => 3) 1)) =
      ([⟨1, 0, some 4⟩, ⟨3, 5, none⟩, ⟨7, 0, some 6⟩] :
        List trigger).filter (fun t => decide (t.value ≤ (fun _ => 3) 1)) ∧
    trigSorted (([⟨1, 0, some 4⟩, ⟨3, 5, none⟩, ⟨7, 0, some 6⟩] :
        List trigger).takeWhile (fun t => decide (t.value ≤ (fun _ => 3) 1))) ∧
    (collect (fun _ => 3) ⟨[(5, ⟨1, [], none⟩)],
        [(1, ⟨[⟨1, 0, some 4⟩, ⟨3, 5, none⟩, ⟨7, 0, some 6⟩], false⟩)]⟩).1.resources =
      (fire_list (([⟨1, 0, some 4⟩, ⟨3, 5, none⟩, ⟨7, 0, some 6⟩] :
        List trigger).takeWhile (fun t => decide (t.value ≤ (fun _ => 3) 1)))
        [(5, ⟨1, [], none⟩)]).1 ∧
    callbackEvents (collect (fun _ => 3) ⟨[(5, ⟨1, [], none⟩)],
        [(1, ⟨[⟨1, 0, some 4⟩, ⟨3, 5, none⟩, ⟨7, 0, some 6⟩], false⟩)]⟩).2 =
      firedCallbacks (([⟨1, 0, some 4⟩, ⟨3, 5, none⟩, ⟨7, 0, some 6⟩] :
        List trigger).takeWhile (fun t => decide (t.value ≤ (fun _ => 3) 1))) ∧
    (∀ t ∈ ([⟨1, 0, some 4⟩, ⟨3, 5, none⟩, ⟨7, 0, some 6⟩] :
        List trigger).takeWhile (fun t => decide (t.value ≤ (fun _ => 3) 1)),
      t.dependent ≠ 0 → ∃ old, Event.decrement t.dependent old ∈
        (collect (fun _ => 3) ⟨[(5, ⟨1, [], none⟩)],
          [(1, ⟨[⟨1, 0, some 4⟩, ⟨3, 5, none⟩, ⟨7, 0, some 6⟩], false⟩)]⟩).2)) :=
  C2_trigger_order (fun _ => 3) 1 false [⟨1, 0, some 4⟩, ⟨3, 5, none⟩, ⟨7, 0, some 6⟩]
    [(5, ⟨1, [], none⟩)] (by simp [trigSorted])

end Vkgc

namespace Vkgc

/-! ### Arithmetic of wrapped counters -/

theorem U64_pos : 0 < U64 := by
  rw [U64]
  exact Nat.pos_pow_of_pos 64 (by decide)

theorem wrapDec_eq (c : Nat) (h1 : 1 ≤ c) (h2 : c < U64) : wrapDec c = c - 1 := by
  rw [wrapDec]
  have : c + (U64 - 1) = (c - 1) + U64 := by omega
  rw [this, Nat.add_mod_right, Nat.mod_eq_of_lt (by omega)]

theorem wrapDec_lt (c : Nat) : wrapDec c < U64 :=
  Nat.mod_lt _ U64_pos

theorem wrapInc_lt (c : Nat) : wrapInc c < U64 :=
  Nat.mod_lt _ U64_pos

theorem wrapInc_eq (c : Nat) (h : c + 1 < U64) : wrapInc c = c + 1 := by
  rw [wrapInc, Nat.mod_eq_of_lt h]

/-! ### Cardinality of key lists -/

theorem nodup_subset_length_le (l1 l2 : List Nat) (h1 : l1.Nodup) (h2 : l1 ⊆ l2) :
    l1.length ≤ l2.length := by
  classical
  calc l1.length = l1.toFinset.card := (List.toFinset_card_of_nodup h1).symm
  _ ≤ l2.toFinset.card := Finset.card_le_card (by
      intro a ha
      rw [List.mem_toFinset] at ha ⊢
      exact h2 ha)
  _ ≤ l2.length := l2.toFinset_card_le

theorem keysOf_length (m : List (Nat × α)) : (keysOf m).length = m.length := by
  simp [keysOf]

/-! ### Accounting lemmas: `countOf`, `depsTo`, debt and claims -/

theorem countOf_eq_zero_of_not_mem (x : Nat) (m : RMap) (h : x ∉ keysOf m) :
    countOf x m = 0 := by
  rw [countOf, mfind_eq_none_of_not_mem x m h]
  rfl

theorem mem_keys_of_countOf_pos (x : Nat) (m : RMap) (h : 1 ≤ countOf x m) :
    x ∈ keysOf m := by
  by_contra hc
  rw [countOf_eq_zero_of_not_mem x m hc] at h
  omega

theorem countOf_mupdate_self (k : Nat) (f : dependency_info → dependency_info) (m : RMap) :
    countOf k (mupdate k f m) = (f ((mfind k m).getD default)).dependency_count := by
  rw [countOf, mfind_mupdate_self]
  rfl

theorem countOf_mupdate_ne (k x : Nat) (f : dependency_info → dependency_info) (m : RMap)
    (h : x ≠ k) : countOf x (mupdate k f m) = countOf x m := by
  rw [countOf, mfind_mupdate_ne k x f m h, countOf]

theorem countOf_merase_ne (k x : Nat) (m : RMap) (h : x ≠ k) :
    countOf x (merase k m) = countOf x m := by
  rw [countOf, mfind_merase_ne k x m h, countOf]

theorem countOf_merase_self (k : Nat) (m : RMap) (h : NoDupKeys m) :
    countOf k (merase k m) = 0 := by
  rw [countOf, mfind_merase_self k m h]
  rfl

theorem merase_of_not_mem (k : Nat) (m : List (Nat × α)) (h : k ∉ keysOf m) :
    merase k m = m := by
  induction m with
  | nil => rfl
  | cons p rest ih =>
    cases p with
    | mk k' v =>
      rw [keysOf_cons, List.mem_cons] at h
      push_neg at h
      simp only [merase]
      rw [if_neg (fun hc => h.1 hc.symm), ih h.2]

theorem depsTo_cons (x : Nat) (p : Nat × dependency_info) (m : RMap) :
    depsTo x (p :: m) = p.2.dependents.count x + depsTo x m := by
  simp [depsTo]

theorem depsTo_mupdate (k x : Nat) (f : dependency_info → dependency_info) (m : RMap)
    (hf : ∀ i, (f i).dependents = i.dependents) :
    depsTo x (mupdate k f m) = depsTo x m := by
  induction m with
  | nil =>
    show depsTo x [(k, f default)] = depsTo x []
    rw [depsTo_cons]
    show (f default).dependents.count x + 0 = 0
    rw [hf]
    rfl
  | cons p rest ih =>
    cases p with
    | mk k' v =>
      simp only [mupdate]
      by_cases hk : k' = k
      · rw [if_pos hk, depsTo_cons, depsTo_cons, hf]
      · rw [if_neg hk, depsTo_cons, depsTo_cons, ih]

theorem depsTo_merase (k x : Nat) (m : RMap) (i : dependency_info)
    (h : mfind k m = some i) :
    depsTo x (merase k m) + i.dependents.count x = depsTo x m := by
  induction m with
  | nil => simp [mfind] at h
  | cons p rest ih =>
    cases p with
    | mk k' v =>
      rw [mfind_cons] at h
      simp only [merase]
      by_cases hk : k' = k
      · rw [if_pos hk]
        rw [if_pos hk] at h
        injection h with h
        subst h
        rw [depsTo_cons]
        dsimp only
        omega
      · rw [if_neg hk]
        rw [if_neg hk] at h
        rw [depsTo_cons, depsTo_cons]
        dsimp only
        have := ih h
        omega

theorem mem_keys_merase_ne (k x : Nat) (m : List (Nat × α)) (h : x ≠ k) :
    x ∈ keysOf (merase k m) ↔ x ∈ keysOf m := by
  constructor
  · intro hx
    obtain ⟨v, hv⟩ := mfind_of_mem_keys x _ hx
    rw [mfind_merase_ne k x m h] at hv
    exact mem_keys_of_mfind x m v hv
  · intro hx
    obtain ⟨v, hv⟩ := mfind_of_mem_keys x _ hx
    rw [← mfind_merase_ne k x m h] at hv
    exact mem_keys_of_mfind x _ v hv

theorem fullOf_mupdate (k : Nat) (f : dependency_info → dependency_info) (m : RMap)
    (fr : Frame) (hf : ∀ i, (f i).dependents = i.dependents) :
    fullOf (mupdate k f m) fr = fullOf m fr := by
  by_cases hk : fr.fid = k
  · rw [fullOf, fullOf, hk, mfind_mupdate_self]
    cases hm : mfind k m with
    | none => simp [hf]
    | some i => simp [hf]
  · rw [fullOf, fullOf, mfind_mupdate_ne k fr.fid f m hk]

theorem fullOf_merase_ne (k : Nat) (m : RMap) (fr : Frame) (h : fr.fid ≠ k) :
    fullOf (merase k m) fr = fullOf m fr := by
  rw [fullOf, fullOf, mfind_merase_ne k fr.fid m h]

theorem debtOf_congr (x : Nat) (m m' : RMap) (stk : List Frame)
    (h : ∀ fr ∈ stk, fullOf m' fr = fullOf m fr) :
    debtOf x m' stk = debtOf x m stk := by
  rw [debtOf, debtOf]
  congr 1
  exact List.map_congr_left (fun fr hfr => by rw [h fr hfr])

theorem claimOf_congr (x : Nat) (m m' : RMap) (stk : List Frame)
    (h : ∀ fr ∈ stk, fullOf m' fr = fullOf m fr) :
    claimOf x m' stk = claimOf x m stk := by
  rw [claimOf, claimOf]
  congr 1
  exact List.map_congr_left (fun fr hfr => by rw [h fr hfr])

theorem debtOf_cons (x : Nat) (m : RMap) (fr : Frame) (stk : List Frame) :
    debtOf x m (fr :: stk) = ((fullOf m fr).count x - fr.remL.count x) + debtOf x m stk := by
  simp [debtOf]

theorem remOf_cons (x : Nat) (fr : Frame) (stk : List Frame) :
    remOf x (fr :: stk) = fr.remL.count x + remOf x stk := by
  simp [remOf]

theorem claimOf_cons (x : Nat) (m : RMap) (fr : Frame) (stk : List Frame) :
    claimOf x m (fr :: stk) = (fullOf m fr).count x + claimOf x m stk := by
  simp [claimOf]

theorem debt_add_rem (x : Nat) (m : RMap) (stk : List Frame)
    (h : ∀ fr ∈ stk, fr.remL.count x ≤ (fullOf m fr).count x) :
    debtOf x m stk + remOf x stk = claimOf x m stk := by
  induction stk with
  | nil => rfl
  | cons fr rest ih =>
    rw [debtOf_cons, remOf_cons, claimOf_cons]
    have h1 := h fr (List.mem_cons_self fr rest)
    have h2 := ih (fun f hf => h f (List.mem_cons_of_mem fr hf))
    omega

theorem claim_le_depsTo (x : Nat) (m : RMap) (stk : List Frame)
    (hnd : NoDupKeys m) (hfn : (frameIds stk).Nodup)
    (hpres : ∀ fr ∈ stk, fr.fid ∈ keysOf m) :
    claimOf x m stk ≤ depsTo x m := by
  induction stk generalizing m with
  | nil => simp [claimOf, depsTo]
  | cons fr rest ih =>
    rw [claimOf_cons]
    obtain ⟨i, hi⟩ := mfind_of_mem_keys fr.fid m (hpres fr (List.mem_cons_self fr rest))
    have hfull : fullOf m fr = i.dependents := by rw [fullOf, hi]; rfl
    rw [frameIds, List.map_cons, List.nodup_cons] at hfn
    have hcongr : claimOf x m rest = claimOf x (merase fr.fid m) rest := by
      refine (claimOf_congr x m _ rest (fun f hf => ?_)).symm
      exact fullOf_merase_ne fr.fid m f
        (fun hc => hfn.1 (hc ▸ List.mem_map_of_mem Frame.fid hf))
    have hrec : claimOf x (merase fr.fid m) rest ≤ depsTo x (merase fr.fid m) := by
      refine ih (merase fr.fid m) (NoDupKeys_merase fr.fid m hnd) hfn.2 (fun f hf => ?_)
      have hne : f.fid ≠ fr.fid := fun hc => hfn.1 (hc ▸ List.mem_map_of_mem Frame.fid hf)
      exact (mem_keys_merase_ne fr.fid f.fid m hne).mpr
        (hpres f (List.mem_cons_of_mem fr hf))
    have hdm := depsTo_merase fr.fid x m i hi
    rw [hfull, hcongr]
    omega

end Vkgc

namespace Vkgc

/-! ### Invariant-bundle helper lemmas -/

theorem frameIds_cons (fr : Frame) (stk : List Frame) :
    frameIds (fr :: stk) = fr.fid :: frameIds stk := rfl

theorem cleanedIds_nil : cleanedIds [] = [] := rfl

theorem cleanedIds_append (a b : List Event) :
    cleanedIds (a ++ b) = cleanedIds a ++ cleanedIds b := by
  simp [cleanedIds]

theorem cleanedIds_cons_cleanup (r c : Nat) (l : List Event) :
    cleanedIds (Event.cleanup r c :: l) = r :: cleanedIds l := by
  simp [cleanedIds]

theorem cleanedIds_cons_dec (r o : Nat) (l : List Event) :
    cleanedIds (Event.decrement r o :: l) = cleanedIds l := by
  simp [cleanedIds]

theorem IB_frames_present (tw : Nat → Nat) (m : RMap) (stk : List Frame) (h : IB tw m stk) :
    ∀ fr ∈ stk, fr.fid ∈ keysOf m := by
  intro fr hfr
  obtain ⟨i, hi, _, _⟩ := h.fok fr hfr
  exact mem_keys_of_mfind fr.fid m i hi

theorem IB_stk_length_le (tw : Nat → Nat) (m : RMap) (stk : List Frame) (h : IB tw m stk) :
    stk.length ≤ m.length := by
  have h1 : (frameIds stk).length = stk.length := by simp [frameIds]
  have h2 : frameIds stk ⊆ keysOf m := by
    intro x hx
    rw [frameIds] at hx
    obtain ⟨fr, hfr, rfl⟩ := List.mem_map.mp hx
    exact IB_frames_present tw m stk h fr hfr
  have := nodup_subset_length_le (frameIds stk) (keysOf m) h.fnodup h2
  rw [h1, keysOf_length] at this
  exact this

theorem IB_rem_le_full (tw : Nat → Nat) (m : RMap) (stk : List Frame) (h : IB tw m stk) :
    ∀ fr ∈ stk, ∀ x, fr.remL.count x ≤ (fullOf m fr).count x := by
  intro fr hfr x
  obtain ⟨i, hi, hsuf, _⟩ := h.fok fr hfr
  have : fullOf m fr = i.dependents := by rw [fullOf, hi]; rfl
  rw [this]
  exact List.Sublist.count_le hsuf.sublist x

theorem IB_count_pos_of_rem (tw : Nat → Nat) (m : RMap) (stk : List Frame) (dep : Nat)
    (h : IB tw m stk) (hrem : 1 ≤ remOf dep stk) : 1 ≤ countOf dep m := by
  have hdr := debt_add_rem dep m stk (fun fr hfr => IB_rem_le_full tw m stk h fr hfr dep)
  have hcl := claim_le_depsTo dep m stk h.nodup h.fnodup (IB_frames_present tw m stk h)
  by_cases h0 : dep = 0
  · subst h0
    have := h.balance0
    omega
  · have := h.balance dep h0
    omega

theorem IB_frame_count_zero (tw : Nat → Nat) (m : RMap) (stk : List Frame) (fr : Frame)
    (h : IB tw m stk) (hfr : fr ∈ stk) : countOf fr.fid m = 0 := by
  obtain ⟨i, hi, _, hc⟩ := h.fok fr hfr
  rw [countOf, hi]
  exact hc

theorem suffix_of_cons_suffix (a : Nat) (l1 l2 : List Nat) (h : (a :: l1).IsSuffix l2) :
    l1.IsSuffix l2 :=
  (List.suffix_cons a l1).trans h

end Vkgc

namespace Vkgc

theorem Frame_fid_mk (a : Nat) (l : List Nat) : (Frame.mk a l).fid = a := rfl

theorem Frame_remL_mk (a : Nat) (l : List Nat) : (Frame.mk a l).remL = l := rfl

theorem debt_step (x dep : Nat) (m : RMap) (cur : Nat) (rest : List Nat) (stk : List Frame)
    (hc : (dep :: rest).count x ≤ (fullOf m ⟨cur, dep :: rest⟩).count x) :
    debtOf x m (⟨cur, rest⟩ :: stk) =
      debtOf x m (⟨cur, dep :: rest⟩ :: stk) + (if x = dep then 1 else 0) := by
  rw [debtOf_cons, debtOf_cons]
  have hfull : fullOf m ⟨cur, rest⟩ = fullOf m ⟨cur, dep :: rest⟩ := rfl
  rw [hfull]
  simp only [Frame_remL_mk]
  by_cases hx : x = dep
  · subst hx
    rw [if_pos rfl]
    have hcc : (x :: rest).count x = rest.count x + 1 := List.count_cons_self x rest
    omega
  · rw [if_neg hx]
    have hcc : (dep :: rest).count x = rest.count x := List.count_cons_of_ne hx rest
    omega

theorem mupdate_count_stable (dep x : Nat) (m : RMap) (j : dependency_info)
    (hpres : dep ∈ keysOf m)
    (h : mfind x (mupdate dep
      (fun i => { i with dependency_count := wrapDec i.dependency_count }) m) = some j) :
    ∃ j0, mfind x m = some j0 ∧ j.dependents = j0.dependents ∧ j.cleanup = j0.cleanup := by
  by_cases hx : x = dep
  · subst hx
    obtain ⟨j0, hj0⟩ := mfind_of_mem_keys x m hpres
    rw [mfind_mupdate_self, hj0] at h
    injection h with h
    subst h
    exact ⟨j0, hj0, rfl, rfl⟩
  · rw [mfind_mupdate_ne dep x _ m hx] at h
    exact ⟨j, h, rfl, rfl⟩

end Vkgc

namespace Vkgc

/-! ### The cascade preserves the accounting invariant

The joint induction over the deletion recursion: under the invariant bundle
`IB`, `check_delete` fires a record's cleanup exactly when it is eligible,
erases exactly the cleaned records, never decrements a zero count, and
re-establishes the bundle; the dependents loop (`cascade`) does the same for
the frame being processed. -/

theorem check_cascade_invariant (fuel : Nat) :
    (∀ d m stk tw, IB tw m stk →
      m.length + 1 ≤ fuel + stk.length →
      d ∈ keysOf m →
      d ∉ frameIds stk →
      (∀ x i, mfind x m = some i → i.dependency_count = 0 → i.cleanup.isSome = true →
        x = d ∨ x ∈ frameIds stk) →
      IB tw (check_delete fuel d m).1 stk ∧
      CascadePost m (frameIds stk) (check_delete fuel d m).1 (check_delete fuel d m).2 ∧
      (eligible d m → mfind d (check_delete fuel d m).1 = none ∧
        ∃ c rest, (check_delete fuel d m).2 = Event.cleanup d c :: rest) ∧
      (¬eligible d m → check_delete fuel d m = (m, []))) ∧
    (∀ cur deps m stk tw, IB tw m (⟨cur, deps⟩ :: stk) →
      m.length + 1 ≤ fuel + (stk.length + 1) →
      (∀ x i, mfind x m = some i → i.dependency_count = 0 → i.cleanup.isSome = true →
        x = cur ∨ x ∈ frameIds stk) →
      IB tw (cascade fuel deps m).1 (⟨cur, []⟩ :: stk) ∧
      CascadePost m (cur :: frameIds stk) (cascade fuel deps m).1 (cascade fuel deps m).2) := by
  induction fuel with
  | zero =>
    constructor
    · intro d m stk tw hIB hfuel _ _ _
      exfalso
      have := IB_stk_length_le tw m stk hIB
      omega
    · intro cur deps m stk tw hIB hfuel _
      exfalso
      have := IB_stk_length_le tw m _ hIB
      rw [List.length_cons] at this
      omega
  | succ fuel ih =>
    have hcd : ∀ d m stk tw, IB tw m stk →
        m.length + 1 ≤ (fuel + 1) + stk.length →
        d ∈ keysOf m →
        d ∉ frameIds stk →
        (∀ x i, mfind x m = some i → i.dependency_count = 0 → i.cleanup.isSome = true →
          x = d ∨ x ∈ frameIds stk) →
        IB tw (check_delete (fuel + 1) d m).1 stk ∧
        CascadePost m (frameIds stk) (check_delete (fuel + 1) d m).1
          (check_delete (fuel + 1) d m).2 ∧
        (eligible d m → mfind d (check_delete (fuel + 1) d m).1 = none ∧
          ∃ c rest, (check_delete (fuel + 1) d m).2 = Event.cleanup d c :: rest) ∧
        (¬eligible d m → check_delete (fuel + 1) d m = (m, [])) := by
      intro d m stk tw hIB hfuel hpres hnotin hinv0
      obtain ⟨i, hi⟩ := mfind_of_mem_keys d m hpres
      by_cases helig : i.dependency_count = 0 ∧ i.cleanup.isSome
      · have heligd : eligible d m := ⟨i, hi, helig.1, helig.2⟩
        rw [check_delete_eligible fuel d m i hi helig]
        have hfullm : fullOf m ⟨d, i.dependents⟩ = i.dependents := by
          rw [fullOf, Frame_fid_mk, hi]
          rfl
        have hIBopen : IB tw m (⟨d, i.dependents⟩ :: stk) := by
          refine ⟨hIB.nodup, hIB.bounded, ?_, ?_, ?_, ?_⟩
          · rw [frameIds_cons, Frame_fid_mk]
            exact List.nodup_cons.mpr ⟨hnotin, hIB.fnodup⟩
          · intro fr hfr
            rcases List.mem_cons.mp hfr with hfr | hfr
            · subst hfr
              exact ⟨i, by rw [Frame_fid_mk]; exact hi, List.suffix_refl _, helig.1⟩
            · exact hIB.fok fr hfr
          · intro x hx
            have hd : debtOf x m (⟨d, i.dependents⟩ :: stk) = debtOf x m stk := by
              rw [debtOf_cons, hfullm, Frame_remL_mk]
              simp
            rw [hd]
            exact hIB.balance x hx
          · have hd : debtOf 0 m (⟨d, i.dependents⟩ :: stk) = debtOf 0 m stk := by
              rw [debtOf_cons, hfullm, Frame_remL_mk]
              simp
            rw [hd]
            exact hIB.balance0
        have hcas := ih.2 d i.dependents m stk tw hIBopen (by omega) hinv0
        obtain ⟨hIBc, hkeys1, hlen1, hstable1, hclean1, hnodupc1, hdec1, hinv01⟩ := hcas
        obtain ⟨i1, hi1, _, hc1⟩ := hIBc.fok ⟨d, []⟩ (List.mem_cons_self _ _)
        rw [Frame_fid_mk] at hi1
        have hfrne : ∀ fr ∈ stk, fr.fid ≠ d := by
          intro fr hfr hcx
          exact hnotin (hcx ▸ List.mem_map_of_mem Frame.fid hfr)
        have hdnone : mfind d (merase d (cascade fuel i.dependents m).1) = none :=
          mfind_merase_self d _ hIBc.nodup
        have hIBfin : IB tw (merase d (cascade fuel i.dependents m).1) stk := by
          refine ⟨NoDupKeys_merase d _ hIBc.nodup, ?_, hIB.fnodup, ?_, ?_, ?_⟩
          · intro x
            by_cases hx : x = d
            · subst hx
              rw [countOf_merase_self x _ hIBc.nodup]
              exact U64_pos
            · rw [countOf_merase_ne d x _ hx]
              exact hIBc.bounded x
          · intro fr hfr
            obtain ⟨j, hj, hsuf, hcnt⟩ := hIBc.fok fr (List.mem_cons_of_mem _ hfr)
            exact ⟨j, by rw [mfind_merase_ne d fr.fid _ (hfrne fr hfr)]; exact hj, hsuf, hcnt⟩
          · intro x hx
            have hbal := hIBc.balance x hx
            have hdm := depsTo_merase d x (cascade fuel i.dependents m).1 i1 hi1
            have hdebt : debtOf x (merase d (cascade fuel i.dependents m).1) stk =
                debtOf x (cascade fuel i.dependents m).1 stk :=
              debtOf_congr x _ _ stk (fun fr hfr => fullOf_merase_ne d _ fr (hfrne fr hfr))
            have hdc : debtOf x (cascade fuel i.dependents m).1 (⟨d, []⟩ :: stk) =
                i1.dependents.count x + debtOf x (cascade fuel i.dependents m).1 stk := by
              rw [debtOf_cons, Frame_remL_mk]
              have : fullOf (cascade fuel i.dependents m).1 ⟨d, []⟩ = i1.dependents := by
                rw [fullOf, Frame_fid_mk, hi1]
                rfl
              rw [this]
              simp
            rw [hdc] at hbal
            have hcnt' : countOf x (merase d (cascade fuel i.dependents m).1) =
                countOf x (cascade fuel i.dependents m).1 := by
              by_cases hx' : x = d
              · subst hx'
                rw [countOf_merase_self _ _ hIBc.nodup, countOf, hi1]
                exact hc1.symm
              · exact countOf_merase_ne d x _ hx'
            rw [hcnt', hdebt]
            omega
          · have hbal := hIBc.balance0
            have hdm := depsTo_merase d 0 (cascade fuel i.dependents m).1 i1 hi1
            have hdebt : debtOf 0 (merase d (cascade fuel i.dependents m).1) stk =
                debtOf 0 (cascade fuel i.dependents m).1 stk :=
              debtOf_congr 0 _ _ stk (fun fr hfr => fullOf_merase_ne d _ fr (hfrne fr hfr))
            have hdc : debtOf 0 (cascade fuel i.dependents m).1 (⟨d, []⟩ :: stk) =
                i1.dependents.count 0 + debtOf 0 (cascade fuel i.dependents m).1 stk := by
              rw [debtOf_cons, Frame_remL_mk]
              have : fullOf (cascade fuel i.dependents m).1 ⟨d, []⟩ = i1.dependents := by
                rw [fullOf, Frame_fid_mk, hi1]
                rfl
              rw [this]
              simp
            rw [hdc] at hbal
            have hcnt' : countOf 0 (merase d (cascade fuel i.dependents m).1) =
                countOf 0 (cascade fuel i.dependents m).1 := by
              by_cases hx' : (0 : Nat) = d
              · rw [← hx'] at hi1 hdnone ⊢
                rw [countOf_merase_self _ _ hIBc.nodup, countOf, hi1]
                exact hc1.symm
              · exact countOf_merase_ne d 0 _ hx'
            rw [hcnt', hdebt]
            omega
        refine ⟨hIBfin, ⟨?_, ?_, ?_, ?_, ?_, ?_, ?_⟩, ?_, ?_⟩
        · intro x hx
          exact hkeys1 (keysOf_subset_of_sublist _ _ (merase_sublist d _) hx)
        · exact le_trans (length_merase_le d _) hlen1
        · intro x i'' hx
          have hxd : x ≠ d := by
            intro hcx
            subst hcx
            rw [hdnone] at hx
            exact Option.noConfusion hx
          rw [mfind_merase_ne d x _ hxd] at hx
          exact hstable1 x i'' hx
        · intro x hx
          rw [cleanedIds_cons_cleanup] at hx
          rcases List.mem_cons.mp hx with hx | hx
          · subst hx
            refine ⟨hpres, fun hc => ?_⟩
            obtain ⟨v, hv⟩ := mfind_of_mem_keys _ _ hc
            rw [hdnone] at hv
            exact Option.noConfusion hv
          · obtain ⟨hin, hout⟩ := hclean1 x hx
            exact ⟨hin, fun hc =>
              hout (keysOf_subset_of_sublist _ _ (merase_sublist d _) hc)⟩
        · rw [cleanedIds_cons_cleanup]
          refine List.nodup_cons.mpr ⟨fun hc => ?_, hnodupc1⟩
          exact (hclean1 d hc).2 (mem_keys_of_mfind d _ i1 hi1)
        · intro x old hx
          rw [List.mem_cons] at hx
          rcases hx with hx | hx
          · exact Event.noConfusion hx
          · exact hdec1 x old hx
        · intro x j hx h0 hc
          have hxd : x ≠ d := by
            intro hcx
            subst hcx
            rw [hdnone] at hx
            exact Option.noConfusion hx
          rw [mfind_merase_ne d x _ hxd] at hx
          rcases List.mem_cons.mp (hinv01 x j hx h0 hc) with hx' | hx'
          · exact absurd hx' hxd
          · exact hx'
        · intro _
          exact ⟨hdnone, i.cleanup.getD 0, (cascade fuel i.dependents m).2, rfl⟩
        · intro h
          exact absurd heligd h
      · rw [check_delete_not_eligible fuel d m i hi helig]
        have hnel : ¬eligible d m := by
          rintro ⟨j, hj, h0, hc⟩
          rw [hi] at hj
          injection hj with hj
          subst hj
          exact helig ⟨h0, hc⟩
        refine ⟨hIB, ⟨fun x hx => hx, le_refl _, ?_, ?_, ?_, ?_, ?_⟩, ?_, fun _ => rfl⟩
        · intro x i'' hx
          exact ⟨i'', hx, rfl, rfl⟩
        · intro x hx
          rw [cleanedIds_nil] at hx
          exact absurd hx (List.not_mem_nil x)
        · rw [cleanedIds_nil]
          exact List.nodup_nil
        · intro x old hx
          exact absurd hx (List.not_mem_nil _)
        · intro x j hx h0 hc
          rcases hinv0 x j hx h0 hc with hx' | hx'
          · subst hx'
            rw [hi] at hx
            injection hx with hx
            subst hx
            exact absurd ⟨h0, hc⟩ helig
          · exact hx'
        · intro he
          exact absurd he hnel
    refine ⟨hcd, ?_⟩
    intro cur deps
    induction deps with
    | nil =>
      intro m stk tw hIB hfuel hinv0
      have hc : cascade (fuel + 1) [] m = (m, []) := rfl
      rw [hc]
      refine ⟨hIB, fun x hx => hx, le_refl _, ?_, ?_, ?_, ?_, ?_⟩
      · intro x i'' hx
        exact ⟨i'', hx, rfl, rfl⟩
      · intro x hx
        rw [cleanedIds_nil] at hx
        exact absurd hx (List.not_mem_nil x)
      · rw [cleanedIds_nil]
        exact List.nodup_nil
      · intro x old hx
        exact absurd hx (List.not_mem_nil _)
      · intro x j hx h0 hc'
        rcases hinv0 x j hx h0 hc' with hx' | hx'
        · exact hx' ▸ List.mem_cons_self _ _
        · exact List.mem_cons_of_mem _ hx'
    | cons dep rest ihl =>
      intro m stk tw hIB hfuel hinv0
      have hrem : 1 ≤ remOf dep (⟨cur, dep :: rest⟩ :: stk) := by
        rw [remOf_cons, Frame_remL_mk]
        have := List.count_cons_self dep rest
        omega
      have hcnt1 : 1 ≤ countOf dep m := IB_count_pos_of_rem tw m _ dep hIB hrem
      have hdep_pres : dep ∈ keysOf m := mem_keys_of_countOf_pos dep m hcnt1
      have hcurdep : cur ≠ dep := by
        intro hcx
        have h0 := IB_frame_count_zero tw m _ ⟨cur, dep :: rest⟩ hIB (List.mem_cons_self _ _)
        rw [Frame_fid_mk, hcx] at h0
        omega
      have hdep_notin : dep ∉ frameIds (⟨cur, rest⟩ :: stk) := by
        intro hcx
        rw [frameIds_cons, Frame_fid_mk] at hcx
        rcases List.mem_cons.mp hcx with hcx | hcx
        · exact hcurdep hcx.symm
        · obtain ⟨fr, hfr, hfid⟩ := List.mem_map.mp hcx
          have h0 := IB_frame_count_zero tw m _ fr hIB (List.mem_cons_of_mem _ hfr)
          rw [hfid] at h0
          omega
      have hfdep : ∀ i : dependency_info,
          ((fun (i : dependency_info) =>
            { i with dependency_count := wrapDec i.dependency_count }) i).dependents =
            i.dependents := fun i => rfl
      have hcdep : countOf dep
          (mupdate dep (fun i => { i with dependency_count := wrapDec i.dependency_count }) m) =
          countOf dep m - 1 := by
        rw [countOf_mupdate_self]
        show wrapDec ((mfind dep m).getD default).dependency_count = countOf dep m - 1
        exact wrapDec_eq _ hcnt1 (hIB.bounded dep)
      have hcne : ∀ x, x ≠ dep → countOf x
          (mupdate dep (fun i => { i with dependency_count := wrapDec i.dependency_count }) m) =
          countOf x m := fun x hx => countOf_mupdate_ne dep x _ m hx
      have hdeps1 : ∀ x, depsTo x
          (mupdate dep (fun i => { i with dependency_count := wrapDec i.dependency_count }) m) =
          depsTo x m := fun x => depsTo_mupdate dep x _ m hfdep
      have hfull1 : ∀ fr, fullOf
          (mupdate dep (fun i => { i with dependency_count := wrapDec i.dependency_count }) m) fr =
          fullOf m fr := fun fr => fullOf_mupdate dep _ m fr hfdep
      have hsufc : ∀ x, (dep :: rest).count x ≤ (fullOf m ⟨cur, dep :: rest⟩).count x := by
        intro x
        have := IB_rem_le_full tw m _ hIB ⟨cur, dep :: rest⟩ (List.mem_cons_self _ _) x
        rw [Frame_remL_mk] at this
        exact this
      have hdebt1 : ∀ x, debtOf x
          (mupdate dep (fun i => { i with dependency_count := wrapDec i.dependency_count }) m)
          (⟨cur, rest⟩ :: stk) =
          debtOf x m (⟨cur, dep :: rest⟩ :: stk) + (if x = dep then 1 else 0) := by
        intro x
        rw [debtOf_congr x m _ (⟨cur, rest⟩ :: stk) (fun fr _ => hfull1 fr)]
        exact debt_step x dep m cur rest stk (hsufc x)
      have hIB1 : IB tw
          (mupdate dep (fun i => { i with dependency_count := wrapDec i.dependency_count }) m)
          (⟨cur, rest⟩ :: stk) := by
        refine ⟨NoDupKeys_mupdate _ _ _ hIB.nodup, ?_, ?_, ?_, ?_, ?_⟩
        · intro x
          by_cases hx : x = dep
          · subst hx
            rw [hcdep]
            have := hIB.bounded x
            omega
          · rw [hcne x hx]
            exact hIB.bounded x
        · have he : frameIds (⟨cur, rest⟩ :: stk) = frameIds (⟨cur, dep :: rest⟩ :: stk) := rfl
          rw [he]
          exact hIB.fnodup
        · intro fr hfr
          rcases List.mem_cons.mp hfr with hfr | hfr
          · subst hfr
            obtain ⟨j, hj, hsuf, hcnt⟩ := hIB.fok ⟨cur, dep :: rest⟩ (List.mem_cons_self _ _)
            rw [Frame_fid_mk] at hj
            rw [Frame_remL_mk] at hsuf
            refine ⟨j, ?_, ?_, hcnt⟩
            · rw [Frame_fid_mk, mfind_mupdate_ne dep cur _ m hcurdep]
              exact hj
            · rw [Frame_remL_mk]
              exact suffix_of_cons_suffix dep rest _ hsuf
          · obtain ⟨j, hj, hsuf, hcnt⟩ := hIB.fok fr (List.mem_cons_of_mem _ hfr)
            have hne : fr.fid ≠ dep := by
              intro hcx
              refine hdep_notin ?_
              rw [frameIds_cons]
              exact List.mem_cons_of_mem _ (hcx ▸ List.mem_map_of_mem Frame.fid hfr)
            refine ⟨j, ?_, hsuf, hcnt⟩
            rw [mfind_mupdate_ne dep fr.fid _ m hne]
            exact hj
        · intro x hx
          have hold := hIB.balance x hx
          rw [hdebt1 x, hdeps1 x]
          by_cases hxd : x = dep
          · subst hxd
            rw [hcdep, if_pos rfl]
            omega
          · rw [hcne x hxd, if_neg hxd]
            omega
        · have hold := hIB.balance0
          rw [hdebt1 0, hdeps1 0]
          by_cases hxd : (0 : Nat) = dep
          · subst hxd
            rw [hcdep, if_pos rfl]
            omega
          · rw [hcne 0 hxd, if_neg hxd]
            omega
      have hdep_pres1 : dep ∈ keysOf
          (mupdate dep (fun i => { i with dependency_count := wrapDec i.dependency_count }) m) := by
        rw [keysOf_mupdate_present dep _ m hdep_pres]
        exact hdep_pres
      have hlen1 : (mupdate dep
          (fun i => { i with dependency_count := wrapDec i.dependency_count }) m).length =
          m.length := length_mupdate_present dep _ m hdep_pres
      have hinv0step : ∀ x j, mfind x
          (mupdate dep (fun i => { i with dependency_count := wrapDec i.dependency_count }) m) =
            some j →
          j.dependency_count = 0 → j.cleanup.isSome = true →
          x = dep ∨ x ∈ frameIds (⟨cur, rest⟩ :: stk) := by
        intro x j hx h0 hc
        by_cases hxd : x = dep
        · exact Or.inl hxd
        · rw [mfind_mupdate_ne dep x _ m hxd] at hx
          rcases hinv0 x j hx h0 hc with hx' | hx'
          · refine Or.inr ?_
            rw [frameIds_cons, Frame_fid_mk]
            exact hx' ▸ List.mem_cons_self _ _
          · refine Or.inr ?_
            rw [frameIds_cons, Frame_fid_mk]
            exact List.mem_cons_of_mem _ hx'
      have hstep := hcd dep
        (mupdate dep (fun i => { i with dependency_count := wrapDec i.dependency_count }) m)
        (⟨cur, rest⟩ :: stk) tw hIB1 (by rw [hlen1]; rw [List.length_cons]; omega)
        hdep_pres1 hdep_notin hinv0step
      obtain ⟨hIB2, ⟨hkeys2, hlen2, hstable2, hclean2, hnodupc2, hdec2, hinv02⟩, _, _⟩ := hstep
      have hrec := ihl
        (check_delete (fuel + 1) dep
          (mupdate dep (fun i => { i with dependency_count := wrapDec i.dependency_count }) m)).1
        stk tw hIB2
        (by
          have h2 := hlen2
          rw [hlen1] at h2
          omega)
        (by
          intro x j hx h0 hc
          have := hinv02 x j hx h0 hc
          rw [frameIds_cons, Frame_fid_mk] at this
          exact List.mem_cons.mp this)
      obtain ⟨hIB3, hkeys3, hlen3, hstable3, hclean3, hnodupc3, hdec3, hinv03⟩ := hrec
      have hunf : cascade (fuel + 1) (dep :: rest) m =
          ((cascade (fuel + 1) rest
            (check_delete (fuel + 1) dep
              (mupdate dep
                (fun i => { i with dependency_count := wrapDec i.dependency_count }) m)).1).1,
           Event.decrement dep ((mfind dep m).getD default).dependency_count ::
            ((check_delete (fuel + 1) dep
              (mupdate dep
                (fun i => { i with dependency_count := wrapDec i.dependency_count }) m)).2 ++
             (cascade (fuel + 1) rest
              (check_delete (fuel + 1) dep
                (mupdate dep
                  (fun i => { i with dependency_count := wrapDec i.dependency_count }) m)).1).2)) :=
        rfl
      rw [hunf]
      dsimp only
      have hkeys1e : keysOf (mupdate dep
          (fun i => { i with dependency_count := wrapDec i.dependency_count }) m) = keysOf m :=
        keysOf_mupdate_present dep _ m hdep_pres
      refine ⟨hIB3, ?_, ?_, ?_, ?_, ?_, ?_, ?_⟩
      · intro x hx
        have := hkeys2 (hkeys3 hx)
        rw [hkeys1e] at this
        exact this
      · rw [hlen1] at hlen2
        omega
      · intro x i'' hx
        obtain ⟨j2, hj2, hd2, hc2⟩ := hstable3 x i'' hx
        obtain ⟨j1, hj1, hd1, hc1⟩ := hstable2 x j2 hj2
        obtain ⟨j0, hj0, hd0, hc0⟩ := mupdate_count_stable dep x m j1 hdep_pres hj1
        exact ⟨j0, hj0, by rw [hd2, hd1, hd0], by rw [hc2, hc1, hc0]⟩
      · intro x hx
        rw [cleanedIds_cons_dec, cleanedIds_append] at hx
        rcases List.mem_append.mp hx with hx | hx
        · obtain ⟨hin, hout⟩ := hclean2 x hx
          rw [hkeys1e] at hin
          exact ⟨hin, fun hc => hout (hkeys3 hc)⟩
        · obtain ⟨hin, hout⟩ := hclean3 x hx
          have := hkeys2 hin
          rw [hkeys1e] at this
          exact ⟨this, hout⟩
      · rw [cleanedIds_cons_dec, cleanedIds_append]
        refine List.Nodup.append hnodupc2 hnodupc3 ?_
        intro x hx2 hx3
        exact (hclean2 x hx2).2 (hclean3 x hx3).1
      · intro x old hx
        rcases List.mem_cons.mp hx with hx | hx
        · injection hx with h1 h2
          subst h1
          subst h2
          exact hcnt1
        · rcases List.mem_append.mp hx with hx | hx
          · exact hdec2 x old hx
          · exact hdec3 x old hx
      · exact hinv03

end Vkgc

namespace Vkgc

/-- C1: in a quiescent state whose counts match the unresolved incoming
edges (the balance every public operation maintains) and with no other
record already in the deletable state, `check_delete r` invokes a cleanup
for `r` if and only if `r`'s record is eligible — `dependency_count == 0`
and a cleanup has been set by `release` — and when it does, `r`'s record is
removed in the same deletion, each id's cleanup is invoked at most once
anywhere in the cascade, and an ineligible `r` leaves the map unchanged.
`check_delete` is re-invoked at exactly the events that change either side
of the condition: `release` (after storing the cleanup), a trigger firing in
`collect`, and each cascade decrement. -/
theorem C1_delete_iff_eligible (m : RMap) (sems : SMap) (r : Nat)
    (hnd : NoDupKeys m)
    (hbound : ∀ x, countOf x m < U64)
    (hbal : ∀ x, x ≠ 0 → countOf x m = depsTo x m + trigsTo x sems)
    (hbal0 : depsTo 0 m ≤ countOf 0 m)
    (hinv0 : ∀ x i, mfind x m = some i → i.dependency_count = 0 →
      i.cleanup.isSome = true → x = r) :
    ((∃ c, Event.cleanup r c ∈ (check_delete (m.length + 1) r m).2) ↔ eligible r m) ∧
    (cleanedIds (check_delete (m.length + 1) r m).2).Nodup ∧
    (eligible r m → mfind r (check_delete (m.length + 1) r m).1 = none) ∧
    (¬eligible r m → (check_delete (m.length + 1) r m).1 = m) := by
  by_cases hpres : r ∈ keysOf m
  · have hIB : IB (fun x => trigsTo x sems) m [] := by
      refine ⟨hnd, hbound, List.nodup_nil, ?_, ?_, ?_⟩
      · intro fr hfr
        exact absurd hfr (List.not_mem_nil fr)
      · intro x hx
        show countOf x m + debtOf x m [] = depsTo x m + trigsTo x sems
        have hd : debtOf x m [] = 0 := rfl
        rw [hd, Nat.add_zero]
        exact hbal x hx
      · show depsTo 0 m ≤ countOf 0 m + debtOf 0 m []
        have hd : debtOf 0 m [] = 0 := rfl
        rw [hd, Nat.add_zero]
        exact hbal0
    have hmain := (check_cascade_invariant (m.length + 1)).1 r m []
      (fun x => trigsTo x sems) hIB (by simp) hpres (List.not_mem_nil r)
      (fun x i hx h0 hc => Or.inl (hinv0 x i hx h0 hc))
    obtain ⟨_, ⟨_, _, _, _, hnodupc, _, _⟩, helig, hnelig⟩ := hmain
    refine ⟨?_, hnodupc, ?_, ?_⟩
    · constructor
      · rintro ⟨c, hc⟩
        by_cases he : eligible r m
        · exact he
        · rw [hnelig he] at hc
          exact absurd hc (List.not_mem_nil _)
      · intro he
        obtain ⟨_, c, rest, hev⟩ := helig he
        exact ⟨c, by rw [hev]; exact List.mem_cons_self _ _⟩
    · intro he
      exact (helig he).1
    · intro he
      rw [hnelig he]
  · have hnone : mfind r m = none := mfind_eq_none_of_not_mem r m hpres
    have hne : ¬eligible r m := by
      rintro ⟨i, hi, _, _⟩
      rw [hnone] at hi
      exact Option.noConfusion hi
    rw [check_delete_absent m.length r m hnone]
    refine ⟨?_, ?_, ?_, ?_⟩
    · constructor
      · rintro ⟨c, hc⟩
        rw [List.mem_singleton] at hc
        exact absurd hc (fun hcx => Event.noConfusion hcx)
      · intro he
        exact absurd he hne
    · show (cleanedIds [Event.miss r]).Nodup
      have : cleanedIds [Event.miss r] = [] := rfl
      rw [this]
      exact List.nodup_nil
    · intro he
      exact absurd he hne
    · intro _
      rfl

theorem C1_delete_iff_eligible_witness :
    ((∃ c, Event.cleanup 5 c ∈
        (check_delete (([(5, ⟨0, [], some 9⟩)] : RMap).length + 1) 5
          [(5, ⟨0, [], some 9⟩)]).2) ↔ eligible 5 [(5, ⟨0, [], some 9⟩)]) ∧
    (cleanedIds (check_delete (([(5, ⟨0, [], some 9⟩)] : RMap).length + 1) 5
      [(5, ⟨0, [], some 9⟩)]).2).Nodup ∧
    (eligible 5 [(5, ⟨0, [], some 9⟩)] →
      mfind 5 (check_delete (([(5, ⟨0, [], some 9⟩)] : RMap).length + 1) 5
        [(5, ⟨0, [], some 9⟩)]).1 = none) ∧
    (¬eligible 5 [(5, ⟨0, [], some 9⟩)] →
      (check_delete (([(5, ⟨0, [], some 9⟩)] : RMap).length + 1) 5
        [(5, ⟨0, [], some 9⟩)]).1 = [(5, ⟨0, [], some 9⟩)]) :=
  C1_delete_iff_eligible [(5, ⟨0, [], some 9⟩)] [] 5
    (by decide)
    (by
      intro x
      by_cases h : (5 : Nat) = x
      · simp [countOf, mfind, h, U64]
      · simp [countOf, mfind, h, U64]
        decide)
    (by
      intro x hx
      by_cases h : (5 : Nat) = x
      · simp [countOf, depsTo, trigsTo, trigsOf, mfind, h]
      · simp [countOf, depsTo, trigsTo, trigsOf, mfind, h]
        decide)
    (by simp [countOf, depsTo, mfind])
    (by
      intro x i hx h0 hc
      by_cases h : (5 : Nat) = x
      · exact h.symm
      · rw [mfind_cons, if_neg h] at hx
        exact absurd hx (fun hcx => Option.noConfusion hcx))

end Vkgc

namespace Vkgc

/-! ### Helper lemmas for the operation-level invariant -/

theorem debtOf_nil (x : Nat) (m : RMap) : debtOf x m [] = 0 := rfl

theorem IB_nil (tw : Nat → Nat) (m : RMap)
    (h1 : NoDupKeys m) (h2 : ∀ x, countOf x m < U64)
    (h3 : ∀ x, x ≠ 0 → countOf x m = depsTo x m + tw x)
    (h4 : depsTo 0 m ≤ countOf 0 m) : IB tw m [] := by
  refine ⟨h1, h2, ?_, ?_, ?_, ?_⟩
  · simp [frameIds]
  · intro fr hfr
    simp at hfr
  · intro x hx
    rw [debtOf_nil, Nat.add_zero]
    exact h3 x hx
  · rw [debtOf_nil, Nat.add_zero]
    exact h4

theorem IB_nil_balance (tw : Nat → Nat) (m : RMap) (h : IB tw m []) (x : Nat) (hx : x ≠ 0) :
    countOf x m = depsTo x m + tw x := by
  have hb := h.balance x hx
  rw [debtOf_nil, Nat.add_zero] at hb
  exact hb

theorem IB_nil_balance0 (tw : Nat → Nat) (m : RMap) (h : IB tw m []) :
    depsTo 0 m ≤ countOf 0 m := by
  have hb := h.balance0
  rw [debtOf_nil, Nat.add_zero] at hb
  exact hb

theorem IB_congr_tw (tw1 tw2 : Nat → Nat) (m : RMap) (stk : List Frame)
    (h12 : ∀ x, tw1 x = tw2 x) (h : IB tw1 m stk) : IB tw2 m stk :=
  ⟨h.nodup, h.bounded, h.fnodup, h.fok,
    fun x hx => by rw [← h12 x]; exact h.balance x hx, h.balance0⟩

theorem mfind_of_mem_nodup (m : List (Nat × α)) (p : Nat × α) (hnd : NoDupKeys m)
    (hp : p ∈ m) : mfind p.1 m = some p.2 := by
  induction m with
  | nil => simp at hp
  | cons q rest ih =>
    cases q with
    | mk k v =>
      rw [nodupkeys_cons_iff] at hnd
      rcases List.mem_cons.mp hp with h1 | h2
      · subst h1
        show mfind k ((k, v) :: rest) = some v
        rw [mfind_cons, if_pos rfl]
      · rw [mfind_cons]
        by_cases hk : k = p.1
        · exfalso
          apply hnd.1
          rw [hk]
          exact List.mem_map_of_mem Prod.fst h2
        · rw [if_neg hk]
          exact ih hnd.2 h2

theorem mem_of_mfind (k : Nat) (m : List (Nat × α)) (v : α) (h : mfind k m = some v) :
    (k, v) ∈ m := by
  induction m with
  | nil => simp [mfind] at h
  | cons p rest ih =>
    cases p with
    | mk k' w =>
      rw [mfind_cons] at h
      by_cases hk : k' = k
      · rw [if_pos hk] at h
        injection h with h
        subst hk
        subst h
        exact List.mem_cons_self _ _
      · rw [if_neg hk] at h
        exact List.mem_cons_of_mem _ (ih h)

theorem allDeps_nil : allDeps [] = [] := rfl

theorem allDeps_cons (p : Nat × dependency_info) (m : RMap) :
    allDeps (p :: m) = p.2.dependents ++ allDeps m := rfl

theorem mem_allDeps_of_mfind (x y : Nat) (m : RMap) (i : dependency_info)
    (h : mfind x m = some i) (hy : y ∈ i.dependents) : y ∈ allDeps m := by
  induction m with
  | nil => simp [mfind] at h
  | cons p rest ih =>
    cases p with
    | mk k v =>
      rw [mfind_cons] at h
      rw [allDeps_cons, List.mem_append]
      by_cases hk : k = x
      · rw [if_pos hk] at h
        injection h with h
        subst h
        exact Or.inl hy
      · rw [if_neg hk] at h
        exact Or.inr (ih h)

theorem exists_of_mem_allDeps (y : Nat) (m : RMap) (h : y ∈ allDeps m) :
    ∃ p ∈ m, y ∈ p.2.dependents := by
  induction m with
  | nil => simp [allDeps] at h
  | cons p rest ih =>
    rw [allDeps_cons, List.mem_append] at h
    rcases h with h1 | h2
    · exact ⟨p, List.mem_cons_self _ _, h1⟩
    · obtain ⟨q, hq, hy⟩ := ih h2
      exact ⟨q, List.mem_cons_of_mem _ hq, hy⟩

theorem allDeps_merase_length (k : Nat) (m : RMap) (i : dependency_info)
    (h : mfind k m = some i) :
    (allDeps (merase k m)).length + i.dependents.length = (allDeps m).length := by
  induction m with
  | nil => simp [mfind] at h
  | cons p rest ih =>
    cases p with
    | mk k' v =>
      rw [mfind_cons] at h
      simp only [merase]
      by_cases hk : k' = k
      · rw [if_pos hk] at h
        injection h with h
        subst h
        rw [if_pos hk, allDeps_cons]
        dsimp only
        rw [List.length_append]
        omega
      · rw [if_neg hk] at h
        rw [if_neg hk, allDeps_cons, allDeps_cons, List.length_append, List.length_append]
        have := ih h
        omega

theorem allDeps_length_le_of_embed (mm' mm : RMap) (hnd' : NoDupKeys mm')
    (hemb : ∀ x i', mfind x mm' = some i' → ∃ i, mfind x mm = some i ∧
      i'.dependents = i.dependents) :
    (allDeps mm').length ≤ (allDeps mm).length := by
  induction mm' generalizing mm with
  | nil => simp [allDeps]
  | cons p rest ih =>
    cases p with
    | mk k i' =>
      rw [nodupkeys_cons_iff] at hnd'
      have hk' : mfind k ((k, i') :: rest) = some i' := by rw [mfind_cons, if_pos rfl]
      obtain ⟨i, hi, hdeps⟩ := hemb k i' hk'
      rw [allDeps_cons]
      dsimp only
      rw [List.length_append]
      have hrest : (allDeps rest).length ≤ (allDeps (merase k mm)).length := by
        apply ih (merase k mm) hnd'.2
        intro x j hx
        have hxk : x ≠ k := fun hc => hnd'.1 (by
          rw [← hc]
          exact mem_keys_of_mfind x rest j hx)
        have hx' : mfind x ((k, i') :: rest) = some j := by
          rw [mfind_cons, if_neg (fun hc => hxk hc.symm)]
          exact hx
        obtain ⟨i2, hi2, hd2⟩ := hemb x j hx'
        refine ⟨i2, ?_, hd2⟩
        rw [mfind_merase_ne k x mm hxk]
        exact hi2
      have hm := allDeps_merase_length k mm i hi
      rw [hdeps]
      omega

theorem mem_allDeps_of_embed (mm' mm : RMap) (hnd' : NoDupKeys mm')
    (hemb : ∀ x i', mfind x mm' = some i' → ∃ i, mfind x mm = some i ∧
      i'.dependents = i.dependents) (y : Nat) (hy : y ∈ allDeps mm') : y ∈ allDeps mm := by
  obtain ⟨p, hp, hyp⟩ := exists_of_mem_allDeps y mm' hy
  have hfind := mfind_of_mem_nodup mm' p hnd' hp
  obtain ⟨i, hi, hd⟩ := hemb p.1 p.2 hfind
  apply mem_allDeps_of_mfind p.1 y mm i hi
  rw [← hd]
  exact hyp

theorem depsTo_eq_count_allDeps (x : Nat) (m : RMap) :
    depsTo x m = (allDeps m).count x := by
  induction m with
  | nil => rfl
  | cons p rest ih =>
    rw [depsTo_cons, allDeps_cons, List.count_append, ih]

theorem depsTo_le_allDeps (x : Nat) (m : RMap) : depsTo x m ≤ (allDeps m).length := by
  rw [depsTo_eq_count_allDeps]
  exact List.count_le_length _ _

theorem depsTo_zero_of_no0 (m : RMap) (h : ∀ y ∈ allDeps m, y ≠ 0) : depsTo 0 m = 0 := by
  rw [depsTo_eq_count_allDeps]
  exact List.count_eq_zero.mpr (fun hc => h 0 hc rfl)

theorem trigsOf_nil : trigsOf [] = [] := rfl

theorem trigsOf_cons (p : Nat × semaphore_info) (sems : SMap) :
    trigsOf (p :: sems) = p.2.triggers ++ trigsOf sems := rfl

theorem twOf_nil (x : Nat) : twOf [] x = 0 := rfl

theorem twOf_cons (t : trigger) (ts : List trigger) (x : Nat) :
    twOf (t :: ts) x = twOf ts x + (if t.dependent = x then 1 else 0) := by
  simp [twOf, List.countP_cons]

theorem twOf_append (a b : List trigger) (x : Nat) :
    twOf (a ++ b) x = twOf a x + twOf b x := by
  simp [twOf, List.countP_append]

theorem twOf_le_length (ts : List trigger) (x : Nat) : twOf ts x ≤ ts.length :=
  List.countP_le_length _

theorem trigsTo_eq_twOf (x : Nat) (sems : SMap) :
    trigsTo x sems = twOf (trigsOf sems) x := rfl

theorem mem_trig_insert (t u : trigger) (l : List trigger) :
    u ∈ trig_insert t l ↔ u = t ∨ u ∈ l := by
  induction l with
  | nil => simp [trig_insert]
  | cons v rest ih =>
    simp only [trig_insert]
    by_cases h : t.value < v.value
    · rw [if_pos h]
      simp
    · rw [if_neg h]
      simp only [List.mem_cons, ih]
      tauto

theorem trig_insert_countP (t : trigger) (l : List trigger) (p : trigger → Bool) :
    (trig_insert t l).countP p = l.countP p + (if p t then 1 else 0) := by
  induction l with
  | nil => simp [trig_insert, List.countP_cons]
  | cons v rest ih =>
    simp only [trig_insert]
    by_cases h : t.value < v.value
    · rw [if_pos h]
      simp only [List.countP_cons]
    · rw [if_neg h]
      simp only [List.countP_cons, ih]
      omega

theorem length_trig_insert (t : trigger) (l : List trigger) :
    (trig_insert t l).length = l.length + 1 := by
  induction l with
  | nil => rfl
  | cons v rest ih =>
    simp only [trig_insert]
    by_cases h : t.value < v.value
    · rw [if_pos h]
      simp
    · rw [if_neg h]
      simp only [List.length_cons, ih]

theorem trigSorted_insert (t : trigger) (l : List trigger) (h : trigSorted l) :
    trigSorted (trig_insert t l) := by
  induction l with
  | nil => simp [trig_insert, trigSorted]
  | cons v rest ih =>
    have h' := List.pairwise_cons.mp h
    simp only [trig_insert]
    by_cases hv : t.value < v.value
    · rw [if_pos hv]
      apply List.pairwise_cons.mpr
      constructor
      · intro u hu
        rcases List.mem_cons.mp hu with h1 | h2
        · subst h1
          omega
        · have := h'.1 u h2
          omega
      · exact List.pairwise_cons.mpr ⟨h'.1, h'.2⟩
    · rw [if_neg hv]
      apply List.pairwise_cons.mpr
      constructor
      · intro u hu
        rcases (mem_trig_insert t u rest).mp hu with h1 | h2
        · subst h1
          omega
        · exact h'.1 u h2
      · exact ih h'.2

theorem twOf_trig_insert (t : trigger) (l : List trigger) (x : Nat) :
    twOf (trig_insert t l) x = twOf l x + (if t.dependent = x then 1 else 0) := by
  have h := trig_insert_countP t l (fun u => decide (u.dependent = x))
  simp only [twOf]
  rw [h]
  by_cases hd : t.dependent = x
  · simp [hd]
  · simp [hd]

theorem countOf_mupdate_keep (k : Nat) (f : dependency_info → dependency_info) (m : RMap)
    (hf : ∀ i, (f i).dependency_count = i.dependency_count) (x : Nat) :
    countOf x (mupdate k f m) = countOf x m := by
  by_cases hx : x = k
  · subst hx
    rw [countOf_mupdate_self, hf]
    rfl
  · exact countOf_mupdate_ne k x f m hx

theorem keysOf_mupdate_sub [Inhabited α] (k k' : Nat) (f : α → α) (m : List (Nat × α))
    (h : k' ∈ keysOf (mupdate k f m)) : k' ∈ keysOf m ∨ k' = k := by
  by_cases hk : k ∈ keysOf m
  · rw [keysOf_mupdate_present k f m hk] at h
    exact Or.inl h
  · rw [keysOf_mupdate_absent k f m hk] at h
    rcases List.mem_append.mp h with h1 | h2
    · exact Or.inl h1
    · simp at h2
      exact Or.inr h2

theorem allDeps_mupdate_keep_length (k : Nat) (f : dependency_info → dependency_info)
    (m : RMap) (hf : ∀ i, (f i).dependents = i.dependents) :
    (allDeps (mupdate k f m)).length = (allDeps m).length := by
  induction m with
  | nil =>
    show (allDeps [(k, f default)]).length = (allDeps []).length
    rw [allDeps_cons]
    dsimp only
    rw [hf]
    rfl
  | cons p rest ih =>
    cases p with
    | mk k' v =>
      simp only [mupdate]
      by_cases hk : k' = k
      · rw [if_pos hk, allDeps_cons, allDeps_cons]
        dsimp only
        rw [hf, List.length_append]
      · rw [if_neg hk, allDeps_cons, allDeps_cons, List.length_append, List.length_append, ih]

theorem mem_allDeps_mupdate_keep (k : Nat) (f : dependency_info → dependency_info)
    (m : RMap) (hf : ∀ i, (f i).dependents = i.dependents) (y : Nat)
    (hy : y ∈ allDeps (mupdate k f m)) : y ∈ allDeps m := by
  induction m with
  | nil =>
    have h0 : (default : dependency_info).dependents = ([] : List Nat) := rfl
    simp only [mupdate, allDeps_cons, allDeps_nil] at hy
    rw [hf, h0] at hy
    simp at hy
  | cons p rest ih =>
    cases p with
    | mk k' v =>
      simp only [mupdate] at hy
      by_cases hk : k' = k
      · rw [if_pos hk, allDeps_cons] at hy
        rw [allDeps_cons]
        dsimp only at hy
        rw [hf] at hy
        exact hy
      · rw [if_neg hk, allDeps_cons] at hy
        rw [allDeps_cons]
        rw [List.mem_append] at hy ⊢
        rcases hy with h1 | h2
        · exact Or.inl h1
        · exact Or.inr (ih h2)

theorem allDeps_mupdate_append_length (k : Nat) (L : List Nat) (m : RMap) :
    (allDeps (mupdate k (fun i => { i with dependents := i.dependents ++ L }) m)).length =
      (allDeps m).length + L.length := by
  induction m with
  | nil =>
    have h0 : (default : dependency_info).dependents = ([] : List Nat) := rfl
    simp only [mupdate, allDeps_cons, allDeps_nil]
    rw [h0]
    simp
  | cons p rest ih =>
    cases p with
    | mk k' v =>
      simp only [mupdate]
      by_cases hk : k' = k
      · rw [if_pos hk, allDeps_cons, allDeps_cons]
        dsimp only
        simp only [List.length_append]
        omega
      · rw [if_neg hk, allDeps_cons, allDeps_cons]
        simp only [List.length_append, ih]
        omega

theorem mem_allDeps_mupdate_append (k : Nat) (L : List Nat) (m : RMap) (y : Nat)
    (hy : y ∈ allDeps (mupdate k (fun i => { i with dependents := i.dependents ++ L }) m)) :
    y ∈ allDeps m ∨ y ∈ L := by
  induction m with
  | nil =>
    have h0 : (default : dependency_info).dependents = ([] : List Nat) := rfl
    simp only [mupdate, allDeps_cons, allDeps_nil] at hy
    rw [h0] at hy
    simp at hy
    exact Or.inr hy
  | cons p rest ih =>
    cases p with
    | mk k' v =>
      simp only [mupdate] at hy
      by_cases hk : k' = k
      · rw [if_pos hk, allDeps_cons] at hy
        dsimp only at hy
        rw [allDeps_cons]
        rcases List.mem_append.mp hy with h1 | h2
        · rcases List.mem_append.mp h1 with ha | hb
          · exact Or.inl (List.mem_append.mpr (Or.inl ha))
          · exact Or.inr hb
        · exact Or.inl (List.mem_append.mpr (Or.inr h2))
      · rw [if_neg hk, allDeps_cons] at hy
        rw [allDeps_cons]
        rcases List.mem_append.mp hy with h1 | h2
        · exact Or.inl (List.mem_append.mpr (Or.inl h1))
        · rcases ih h2 with ha | hb
          · exact Or.inl (List.mem_append.mpr (Or.inr ha))
          · exact Or.inr hb

theorem depsTo_mupdate_append (k : Nat) (L : List Nat) (m : RMap) (x : Nat) :
    depsTo x (mupdate k (fun i => { i with dependents := i.dependents ++ L }) m) =
      depsTo x m + L.count x := by
  induction m with
  | nil =>
    have h0 : (default : dependency_info).dependents = ([] : List Nat) := rfl
    simp only [mupdate]
    rw [depsTo_cons]
    rw [h0]
    simp [List.count_append, depsTo]
  | cons p rest ih =>
    cases p with
    | mk k' v =>
      simp only [mupdate]
      by_cases hk : k' = k
      · rw [if_pos hk, depsTo_cons, depsTo_cons]
        dsimp only
        rw [List.count_append]
        omega
      · rw [if_neg hk, depsTo_cons, depsTo_cons, ih]
        omega

theorem trigsOf_mupdate_keep (k : Nat) (f : semaphore_info → semaphore_info) (sems : SMap)
    (hf : ∀ s, (f s).triggers = s.triggers) :
    trigsOf (mupdate k f sems) = trigsOf sems := by
  induction sems with
  | nil =>
    simp only [mupdate, trigsOf_cons, trigsOf_nil]
    rw [hf]
    rfl
  | cons p rest ih =>
    cases p with
    | mk k' s =>
      simp only [mupdate]
      by_cases hk : k' = k
      · rw [if_pos hk, trigsOf_cons, trigsOf_cons]
        dsimp only
        rw [hf]
      · rw [if_neg hk, trigsOf_cons, trigsOf_cons, ih]

theorem twOf_trigsOf_mupdate_insert (k : Nat) (t : trigger) (sems : SMap) (x : Nat) :
    twOf (trigsOf (mupdate k (fun s => { s with triggers := trig_insert t s.triggers }) sems)) x
      = twOf (trigsOf sems) x + (if t.dependent = x then 1 else 0) := by
  induction sems with
  | nil =>
    have h0 : (default : semaphore_info).triggers = ([] : List trigger) := rfl
    simp only [mupdate, trigsOf_cons, trigsOf_nil, List.append_nil]
    rw [h0]
    simp [trig_insert, twOf_cons, twOf_nil, trigsOf_nil]
  | cons p rest ih =>
    cases p with
    | mk k' s =>
      simp only [mupdate]
      by_cases hk : k' = k
      · rw [if_pos hk, trigsOf_cons, trigsOf_cons]
        dsimp only
        rw [twOf_append, twOf_append, twOf_trig_insert]
        omega
      · rw [if_neg hk, trigsOf_cons, trigsOf_cons, twOf_append, twOf_append, ih]
        omega

theorem trigsOf_length_mupdate_insert (k : Nat) (t : trigger) (sems : SMap) :
    (trigsOf (mupdate k
      (fun s => { s with triggers := trig_insert t s.triggers }) sems)).length
      = (trigsOf sems).length + 1 := by
  induction sems with
  | nil =>
    have h0 : (default : semaphore_info).triggers = ([] : List trigger) := rfl
    simp only [mupdate, trigsOf_cons, trigsOf_nil, List.append_nil]
    rw [h0]
    rfl
  | cons p rest ih =>
    cases p with
    | mk k' s =>
      simp only [mupdate]
      by_cases hk : k' = k
      · rw [if_pos hk, trigsOf_cons, trigsOf_cons]
        dsimp only
        rw [List.length_append, List.length_append, length_trig_insert]
        omega
      · rw [if_neg hk, trigsOf_cons, trigsOf_cons, List.length_append, List.length_append, ih]
        omega

theorem sorted_mupdate (k : Nat) (f : semaphore_info → semaphore_info) (sems : SMap)
    (hf : ∀ s, trigSorted s.triggers → trigSorted (f s).triggers)
    (hfd : trigSorted (f default).triggers)
    (hs : ∀ p ∈ sems, trigSorted p.2.triggers) :
    ∀ p ∈ mupdate k f sems, trigSorted p.2.triggers := by
  induction sems with
  | nil =>
    intro p hp
    simp only [mupdate] at hp
    simp at hp
    subst hp
    exact hfd
  | cons q rest ih =>
    cases q with
    | mk k' s =>
      intro p hp
      simp only [mupdate] at hp
      by_cases hk : k' = k
      · rw [if_pos hk] at hp
        rcases List.mem_cons.mp hp with h1 | h2
        · subst h1
          exact hf s (hs (k', s) (List.mem_cons_self _ _))
        · exact hs p (List.mem_cons_of_mem _ h2)
      · rw [if_neg hk] at hp
        rcases List.mem_cons.mp hp with h1 | h2
        · subst h1
          exact hs (k', s) (List.mem_cons_self _ _)
        · exact ih (fun r hr => hs r (List.mem_cons_of_mem _ hr)) p h2

theorem countOf_le_totalEdges (g : GC) (hG : GoodState g) (hN : NonNullState g) (x : Nat) :
    countOf x g.resources ≤ totalEdges g := by
  by_cases hx : x = 0
  · subst hx
    rw [countOf_eq_zero_of_not_mem _ _ hN.1]
    exact Nat.zero_le _
  · rw [hG.balance x hx]
    have h1 := depsTo_le_allDeps x g.resources
    have h2 : trigsTo x g.semaphore_dependencies ≤
        (trigsOf g.semaphore_dependencies).length := by
      rw [trigsTo_eq_twOf]
      exact twOf_le_length _ _
    show depsTo x g.resources + trigsTo x g.semaphore_dependencies ≤
      (allDeps g.resources).length + (trigsOf g.semaphore_dependencies).length
    omega

theorem bumpAll_nil (m : RMap) : bumpAll [] m = m := rfl

theorem bumpAll_cons (u : Nat) (rest : List Nat) (m : RMap) :
    bumpAll (u :: rest) m = bumpAll rest
      (mupdate u (fun i => { i with dependency_count := wrapInc i.dependency_count }) m) := rfl

theorem bumpAll_spec (used : List Nat) (m : RMap) (hnd : NoDupKeys m)
    (hB : ∀ x, countOf x m + used.count x < U64) :
    NoDupKeys (bumpAll used m) ∧
    (∀ x, countOf x (bumpAll used m) = countOf x m + used.count x) ∧
    (∀ x, depsTo x (bumpAll used m) = depsTo x m) ∧
    (allDeps (bumpAll used m)).length = (allDeps m).length ∧
    (∀ y, y ∈ allDeps (bumpAll used m) → y ∈ allDeps m) ∧
    (∀ k, k ∈ keysOf (bumpAll used m) → k ∈ keysOf m ∨ k ∈ used) ∧
    (∀ x i', mfind x (bumpAll used m) = some i' →
      (∃ i, mfind x m = some i ∧ i'.dependents = i.dependents ∧ i'.cleanup = i.cleanup) ∨
      (i'.dependents = [] ∧ i'.cleanup = none)) := by
  induction used generalizing m with
  | nil =>
    refine ⟨hnd, ?_, ?_, rfl, ?_, ?_, ?_⟩
    · intro x
      simp [bumpAll_nil]
    · intro x
      rfl
    · intro y hy
      exact hy
    · intro k hk
      exact Or.inl hk
    · intro x i' h
      exact Or.inl ⟨i', h, rfl, rfl⟩
  | cons u rest ih =>
    have hnd1 : NoDupKeys
        (mupdate u (fun i => { i with dependency_count := wrapInc i.dependency_count }) m) :=
      NoDupKeys_mupdate _ _ _ hnd
    have hcnt1 : ∀ x, countOf x
        (mupdate u (fun i => { i with dependency_count := wrapInc i.dependency_count }) m) =
        countOf x m + (if x = u then 1 else 0) := by
      intro x
      by_cases hx : x = u
      · subst hx
        have hb : countOf x m + 1 < U64 := by
          have h1 := hB x
          have hc : (x :: rest).count x = rest.count x + 1 := by
            simp [List.count_cons]
          omega
        rw [countOf_mupdate_self]
        show wrapInc (countOf x m) = countOf x m + if x = x then 1 else 0
        rw [if_pos rfl]
        exact wrapInc_eq _ hb
      · rw [countOf_mupdate_ne _ _ _ _ hx, if_neg hx]
        omega
    have hcx : ∀ x, (u :: rest).count x = rest.count x + (if x = u then 1 else 0) := by
      intro x
      by_cases hx : x = u
      · subst hx
        simp [List.count_cons]
      · simp [List.count_cons, hx]
    have hB1 : ∀ x, countOf x
        (mupdate u (fun i => { i with dependency_count := wrapInc i.dependency_count }) m) +
        rest.count x < U64 := by
      intro x
      have h1 := hB x
      have h2 := hcx x
      rw [hcnt1 x]
      omega
    obtain ⟨h1, h2, h3, h4, h5, h6, h7⟩ := ih _ hnd1 hB1
    rw [bumpAll_cons]
    refine ⟨h1, ?_, ?_, ?_, ?_, ?_, ?_⟩
    · intro x
      rw [h2 x, hcnt1 x, hcx x]
      omega
    · intro x
      rw [h3 x, depsTo_mupdate u x
        (fun i => { i with dependency_count := wrapInc i.dependency_count }) m
        (fun i => rfl)]
    · rw [h4, allDeps_mupdate_keep_length u
        (fun i => { i with dependency_count := wrapInc i.dependency_count }) m
        (fun i => rfl)]
    · intro y hy
      exact mem_allDeps_mupdate_keep u
        (fun i => { i with dependency_count := wrapInc i.dependency_count }) m
        (fun i => rfl) y (h5 y hy)
    · intro k hk
      rcases h6 k hk with hk1 | hk2
      · rcases keysOf_mupdate_sub _ _ _ _ hk1 with ha | hb
        · exact Or.inl ha
        · refine Or.inr ?_
          rw [hb]
          exact List.mem_cons_self _ _
      · exact Or.inr (List.mem_cons_of_mem _ hk2)
    · intro x i' hx
      rcases h7 x i' hx with ⟨i1, hi1, hd, hc⟩ | hfresh
      · by_cases hxu : x = u
        · subst hxu
          rw [mfind_mupdate_self] at hi1
          injection hi1 with hi1
          cases hfind : mfind x m with
          | none =>
            right
            rw [hfind] at hi1
            constructor
            · rw [hd, ← hi1]
              rfl
            · rw [hc, ← hi1]
              rfl
          | some j =>
            left
            refine ⟨j, rfl, ?_, ?_⟩
            · rw [hd, ← hi1, hfind]
              rfl
            · rw [hc, ← hi1, hfind]
              rfl
        · rw [mfind_mupdate_ne _ _ _ _ hxu] at hi1
          exact Or.inl ⟨i1, hi1, hd, hc⟩
      · exact Or.inr hfresh

end Vkgc

namespace Vkgc

/-! ### Invariant preservation through the trigger-draining loop -/

theorem fire_triggers_invariant (v : Nat) (ts : List trigger) (res : RMap) (twX : Nat → Nat)
    (hIB : IB (fun x => twOf ts x + twX x) res [])
    (hinv0 : ∀ x i, mfind x res = some i → i.dependency_count = 0 →
      i.cleanup.isSome = true → False) :
    IB (fun x => twOf (fire_triggers v ts res).1 x + twX x) (fire_triggers v ts res).2.1 [] ∧
    (∀ x i, mfind x (fire_triggers v ts res).2.1 = some i → i.dependency_count = 0 →
      i.cleanup.isSome = true → False) ∧
    keysOf (fire_triggers v ts res).2.1 ⊆ keysOf res ∧
    (∀ x i', mfind x (fire_triggers v ts res).2.1 = some i' → ∃ i, mfind x res = some i ∧
      i'.dependents = i.dependents ∧ i'.cleanup = i.cleanup) ∧
    decsPositive (fire_triggers v ts res).2.2 := by
  induction ts generalizing res with
  | nil =>
    refine ⟨hIB, hinv0, fun k hk => hk, ?_, ?_⟩
    · intro x i' h
      exact ⟨i', h, rfl, rfl⟩
    · intro x old h
      simp [fire_triggers] at h
  | cons t rest ih =>
    by_cases hv : t.value ≤ v
    · by_cases hd : t.dependent = 0
      · -- fired trigger with null dependent: callback only, map unchanged
        have hIB' : IB (fun x => twOf rest x + twX x) res [] := by
          refine IB_nil _ _ hIB.nodup hIB.bounded ?_ (IB_nil_balance0 _ _ hIB)
          intro x hx
          have hb := IB_nil_balance _ _ hIB x hx
          have htw0 : twOf (t :: rest) x = twOf rest x := by
            rw [twOf_cons, hd, if_neg (fun hc : (0 : Nat) = x => hx hc.symm)]
            omega
          omega
        obtain ⟨g1, g2, g3, g4, g5⟩ := ih res hIB' hinv0
        have hdn : ¬t.dependent ≠ 0 := fun hc => hc hd
        simp only [fire_triggers]
        rw [if_pos hv, if_neg hdn]
        dsimp only
        refine ⟨g1, g2, g3, g4, ?_⟩
        intro x old h
        rcases List.mem_append.mp h with h1 | h2
        · obtain ⟨cb, hcb⟩ := cb_events_mem t.callback _ h1
          exact Event.noConfusion hcb
        · exact g5 x old h2
      · -- fired trigger with a real dependent: decrement, cascade, recurse
        have hdne : t.dependent ≠ 0 := hd
        have hold1 : 1 ≤ countOf t.dependent res := by
          have hb := IB_nil_balance _ _ hIB t.dependent hd
          have htw1 : twOf (t :: rest) t.dependent = twOf rest t.dependent + 1 := by
            rw [twOf_cons, if_pos rfl]
          omega
        have hmemd : t.dependent ∈ keysOf res := mem_keys_of_countOf_pos _ _ hold1
        obtain ⟨j, hj⟩ := mfind_of_mem_keys _ _ hmemd
        simp only [fire_triggers]
        rw [if_pos hv, if_pos hdne]
        dsimp only
        set res1 := mupdate t.dependent
          (fun i => { i with dependency_count := wrapDec i.dependency_count }) res with hres1
        set fuel := res1.length + 1 with hfuel
        have hnd1 : NoDupKeys res1 := by
          rw [hres1]
          exact NoDupKeys_mupdate _ _ _ hIB.nodup
        have hkeys1 : keysOf res1 = keysOf res := by
          rw [hres1]
          exact keysOf_mupdate_present _ _ _ hmemd
        have hcnt1d : countOf t.dependent res1 = wrapDec (countOf t.dependent res) := by
          rw [hres1, countOf_mupdate_self]
          rfl
        have hcnt1o : ∀ x, x ≠ t.dependent → countOf x res1 = countOf x res := by
          intro x hx
          rw [hres1]
          exact countOf_mupdate_ne _ _ _ _ hx
        have hdeps1 : ∀ x, depsTo x res1 = depsTo x res := by
          intro x
          rw [hres1]
          exact depsTo_mupdate t.dependent x
            (fun i => { i with dependency_count := wrapDec i.dependency_count }) res
            (fun i => rfl)
        have hwd : wrapDec (countOf t.dependent res) = countOf t.dependent res - 1 :=
          wrapDec_eq _ hold1 (hIB.bounded _)
        have hIB1 : IB (fun x => twOf rest x + twX x) res1 [] := by
          refine IB_nil _ _ hnd1 ?_ ?_ ?_
          · intro x
            by_cases hx : x = t.dependent
            · subst hx
              rw [hcnt1d]
              exact wrapDec_lt _
            · rw [hcnt1o x hx]
              exact hIB.bounded x
          · intro x hx
            have hb := IB_nil_balance _ _ hIB x hx
            rw [hdeps1 x]
            by_cases hxd : x = t.dependent
            · subst hxd
              rw [hcnt1d, hwd]
              have htw1 : twOf (t :: rest) t.dependent = twOf rest t.dependent + 1 := by
                rw [twOf_cons, if_pos rfl]
              omega
            · rw [hcnt1o x hxd]
              have htw0 : twOf (t :: rest) x = twOf rest x := by
                rw [twOf_cons, if_neg (fun hc : t.dependent = x => hxd hc.symm)]
                omega
              omega
          · have hb0 := IB_nil_balance0 _ _ hIB
            rw [hdeps1 0, hcnt1o 0 (fun hc => hd hc.symm)]
            exact hb0
        have hstable1 : ∀ x i', mfind x res1 = some i' → ∃ i, mfind x res = some i ∧
            i'.dependents = i.dependents ∧ i'.cleanup = i.cleanup := by
          intro x i' hx
          by_cases hxd : x = t.dependent
          · subst hxd
            rw [hres1, mfind_mupdate_self] at hx
            injection hx with hx
            refine ⟨j, hj, ?_, ?_⟩
            · rw [← hx, hj]
              rfl
            · rw [← hx, hj]
              rfl
          · rw [hres1, mfind_mupdate_ne _ _ _ _ hxd] at hx
            exact ⟨i', hx, rfl, rfl⟩
        have hinv1 : ∀ x i, mfind x res1 = some i → i.dependency_count = 0 →
            i.cleanup.isSome = true → x = t.dependent ∨ x ∈ frameIds ([] : List Frame) := by
          intro x i hx hc0 hcs
          by_cases hxd : x = t.dependent
          · exact Or.inl hxd
          · exfalso
            rw [hres1, mfind_mupdate_ne _ _ _ _ hxd] at hx
            exact hinv0 x i hx hc0 hcs
        have hpres1 : t.dependent ∈ keysOf res1 := by
          rw [hkeys1]
          exact hmemd
        have hnotin : t.dependent ∉ frameIds ([] : List Frame) := by simp [frameIds]
        have hfb : res1.length + 1 ≤ fuel + ([] : List Frame).length := by
          rw [hfuel]
          simp
        obtain ⟨hIB2, hpost, _, _⟩ :=
          (check_cascade_invariant fuel).1 t.dependent res1 []
            (fun x => twOf rest x + twX x) hIB1 hfb hpres1 hnotin hinv1
        obtain ⟨hk2, hl2, hst2, hcl2, hcn2, hdec2, hin2⟩ := hpost
        have hinv2 : ∀ x i, mfind x (check_delete fuel t.dependent res1).1 = some i →
            i.dependency_count = 0 → i.cleanup.isSome = true → False := by
          intro x i hx h0 hs
          have := hin2 x i hx h0 hs
          simp [frameIds] at this
        obtain ⟨g1, g2, g3, g4, g5⟩ := ih (check_delete fuel t.dependent res1).1 hIB2 hinv2
        refine ⟨g1, g2, ?_, ?_, ?_⟩
        · intro k hk
          have h2 := g3 hk
          have h3 := hk2 h2
          rw [hkeys1] at h3
          exact h3
        · intro x i' hx
          obtain ⟨i2, hi2, hd2, hc2⟩ := g4 x i' hx
          obtain ⟨i3, hi3, hd3, hc3⟩ := hst2 x i2 hi2
          obtain ⟨i4, hi4, hd4, hc4⟩ := hstable1 x i3 hi3
          refine ⟨i4, hi4, ?_, ?_⟩
          · rw [hd2, hd3, hd4]
          · rw [hc2, hc3, hc4]
        · intro x old hmem
          rcases List.mem_append.mp hmem with h1 | h2
          · rcases List.mem_append.mp h1 with ha | hb
            · obtain ⟨cb, hcb⟩ := cb_events_mem t.callback _ ha
              exact Event.noConfusion hcb
            · rcases List.mem_cons.mp hb with hc | hcc
              · injection hc with hx1 hx2
                subst hx2
                exact hold1
              · exact hdec2 x old hcc
          · exact g5 x old h2
    · simp only [fire_triggers]
      rw [if_neg hv]
      dsimp only
      refine ⟨hIB, hinv0, fun k hk => hk, ?_, ?_⟩
      · intro x i' h
        exact ⟨i', h, rfl, rfl⟩
      · intro x old h
        simp at h

end Vkgc

namespace Vkgc

/-! ### Invariant preservation through the per-counter loop of collect -/

theorem collect_sems_keys_sublist (q : Nat → Nat) (sems : SMap) (res : RMap) :
    (keysOf (collect_sems q sems res).1).Sublist (keysOf sems) := by
  induction sems generalizing res with
  | nil => simp [collect_sems, keysOf]
  | cons p rest ih =>
    cases p with
    | mk sid si =>
      simp only [collect_sems]
      by_cases hb : ((fire_triggers (q sid) si.triggers res).1.isEmpty &&
          si.should_destroy) = true
      · rw [if_pos hb]
        dsimp only
        rw [keysOf_cons]
        exact List.sublist_cons_of_sublist _ (ih _)
      · rw [if_neg hb]
        dsimp only
        rw [keysOf_cons, keysOf_cons]
        exact List.Sublist.cons₂ _ (ih _)

theorem collect_sems_entry_stable (q : Nat → Nat) (sems : SMap) (res : RMap)
    (hnds : NoDupKeys sems) :
    ∀ p ∈ (collect_sems q sems res).1, ∃ si, mfind p.1 sems = some si ∧
      p.2.should_destroy = si.should_destroy ∧ p.2.triggers.Sublist si.triggers := by
  induction sems generalizing res with
  | nil =>
    intro p hp
    simp [collect_sems] at hp
  | cons pp rest ih =>
    cases pp with
    | mk sid si =>
      have hnd' := (nodupkeys_cons_iff _ _ _).mp hnds
      intro p hp
      simp only [collect_sems] at hp
      by_cases hb : ((fire_triggers (q sid) si.triggers res).1.isEmpty &&
          si.should_destroy) = true
      · rw [if_pos hb] at hp
        dsimp only at hp
        obtain ⟨si2, hsi2, hsd, htr⟩ := ih _ hnd'.2 p hp
        refine ⟨si2, ?_, hsd, htr⟩
        rw [mfind_cons, if_neg ?_]
        · exact hsi2
        · intro hc
          apply hnd'.1
          rw [hc]
          exact mem_keys_of_mfind _ _ _ hsi2
      · rw [if_neg hb] at hp
        dsimp only at hp
        rcases List.mem_cons.mp hp with h1 | h2
        · subst h1
          refine ⟨si, ?_, rfl, ?_⟩
          · show mfind sid ((sid, si) :: rest) = some si
            rw [mfind_cons, if_pos rfl]
          · show (fire_triggers (q sid) si.triggers res).1.Sublist si.triggers
            rw [fire_triggers_fst]
            exact List.dropWhile_sublist _
        · obtain ⟨si2, hsi2, hsd, htr⟩ := ih _ hnd'.2 p h2
          refine ⟨si2, ?_, hsd, htr⟩
          rw [mfind_cons, if_neg ?_]
          · exact hsi2
          · intro hc
            apply hnd'.1
            rw [hc]
            exact mem_keys_of_mfind _ _ _ hsi2

theorem trigsOf_merase_length (k : Nat) (ss : SMap) (si : semaphore_info)
    (h : mfind k ss = some si) :
    (trigsOf (merase k ss)).length + si.triggers.length = (trigsOf ss).length := by
  induction ss with
  | nil => simp [mfind] at h
  | cons p rest ih =>
    cases p with
    | mk k' v =>
      rw [mfind_cons] at h
      simp only [merase]
      by_cases hk : k' = k
      · rw [if_pos hk] at h
        injection h with h
        subst h
        rw [if_pos hk, trigsOf_cons]
        dsimp only
        rw [List.length_append]
        omega
      · rw [if_neg hk] at h
        rw [if_neg hk, trigsOf_cons, trigsOf_cons, List.length_append, List.length_append]
        have := ih h
        omega

theorem trigsOf_length_le_of_embed (ss' ss : SMap) (hnd' : NoDupKeys ss')
    (hemb : ∀ p ∈ ss', ∃ si, mfind p.1 ss = some si ∧ p.2.triggers.Sublist si.triggers) :
    (trigsOf ss').length ≤ (trigsOf ss).length := by
  induction ss' generalizing ss with
  | nil => simp [trigsOf]
  | cons p rest ih =>
    cases p with
    | mk k si' =>
      rw [nodupkeys_cons_iff] at hnd'
      obtain ⟨si, hsi, htr⟩ := hemb (k, si') (List.mem_cons_self _ _)
      rw [trigsOf_cons]
      dsimp only
      rw [List.length_append]
      have hlen : si'.triggers.length ≤ si.triggers.length := htr.length_le
      have hrest : (trigsOf rest).length ≤ (trigsOf (merase k ss)).length := by
        apply ih (merase k ss) hnd'.2
        intro p hp
        have hpk : p.1 ≠ k := by
          intro hc
          apply hnd'.1
          rw [← hc]
          exact List.mem_map_of_mem Prod.fst hp
        obtain ⟨si2, hsi2, htr2⟩ := hemb p (List.mem_cons_of_mem _ hp)
        refine ⟨si2, ?_, htr2⟩
        rw [mfind_merase_ne k p.1 ss hpk]
        exact hsi2
      have hm := trigsOf_merase_length k ss si hsi
      omega

theorem collect_sems_invariant (q : Nat → Nat) (sems : SMap) (res : RMap)
    (twAcc : Nat → Nat)
    (hnds : NoDupKeys sems)
    (hIB : IB (fun x => twOf (trigsOf sems) x + twAcc x) res [])
    (hinv0 : ∀ x i, mfind x res = some i → i.dependency_count = 0 →
      i.cleanup.isSome = true → False) :
    IB (fun x => twOf (trigsOf (collect_sems q sems res).1) x + twAcc x)
      (collect_sems q sems res).2.1 [] ∧
    (∀ x i, mfind x (collect_sems q sems res).2.1 = some i → i.dependency_count = 0 →
      i.cleanup.isSome = true → False) ∧
    keysOf (collect_sems q sems res).2.1 ⊆ keysOf res ∧
    (∀ x i', mfind x (collect_sems q sems res).2.1 = some i' → ∃ i, mfind x res = some i ∧
      i'.dependents = i.dependents ∧ i'.cleanup = i.cleanup) ∧
    decsPositive (collect_sems q sems res).2.2 := by
  induction sems generalizing res twAcc with
  | nil =>
    refine ⟨hIB, hinv0, fun k hk => hk, ?_, ?_⟩
    · intro x i' h
      exact ⟨i', h, rfl, rfl⟩
    · intro x old h
      simp [collect_sems] at h
  | cons pp rest ih =>
    cases pp with
    | mk sid si =>
      have hnd' := (nodupkeys_cons_iff _ _ _).mp hnds
      have hIBf : IB (fun x => twOf si.triggers x +
          (twOf (trigsOf rest) x + twAcc x)) res [] := by
        refine IB_congr_tw _ _ _ _ ?_ hIB
        intro x
        rw [trigsOf_cons]
        dsimp only
        rw [twOf_append]
        omega
      obtain ⟨f1, f2, f3, f4, f5⟩ :=
        fire_triggers_invariant (q sid) si.triggers res
          (fun x => twOf (trigsOf rest) x + twAcc x) hIBf hinv0
      simp only [collect_sems]
      by_cases hb : ((fire_triggers (q sid) si.triggers res).1.isEmpty &&
          si.should_destroy) = true
      · rw [if_pos hb]
        dsimp only
        have hem : (fire_triggers (q sid) si.triggers res).1 = [] := by
          have := (Bool.and_eq_true _ _).mp hb
          exact List.isEmpty_iff.mp this.1
        have hIBr : IB (fun x => twOf (trigsOf rest) x + twAcc x)
            (fire_triggers (q sid) si.triggers res).2.1 [] := by
          refine IB_congr_tw _ _ _ _ ?_ f1
          intro x
          rw [hem, twOf_nil]
          omega
        obtain ⟨r1, r2, r3, r4, r5⟩ := ih _ _ hnd'.2 hIBr f2
        refine ⟨r1, r2, ?_, ?_, ?_⟩
        · intro k hk
          exact f3 (r3 hk)
        · intro x i' hx
          obtain ⟨i2, hi2, hd2, hc2⟩ := r4 x i' hx
          obtain ⟨i3, hi3, hd3, hc3⟩ := f4 x i2 hi2
          refine ⟨i3, hi3, ?_, ?_⟩
          · rw [hd2, hd3]
          · rw [hc2, hc3]
        · intro x old hmem
          rcases List.mem_append.mp hmem with h1 | h2
          · exact f5 x old h1
          · rcases List.mem_cons.mp h2 with hc | hcc
            · exact Event.noConfusion hc
            · exact r5 x old hcc
      · rw [if_neg hb]
        dsimp only
        have hIBr : IB (fun x => twOf (trigsOf rest) x +
            (twOf (fire_triggers (q sid) si.triggers res).1 x + twAcc x))
            (fire_triggers (q sid) si.triggers res).2.1 [] := by
          refine IB_congr_tw _ _ _ _ ?_ f1
          intro x
          omega
        obtain ⟨r1, r2, r3, r4, r5⟩ := ih _ _ hnd'.2 hIBr f2
        refine ⟨?_, r2, ?_, ?_, ?_⟩
        · refine IB_congr_tw _ _ _ _ ?_ r1
          intro x
          rw [trigsOf_cons]
          dsimp only
          rw [twOf_append]
          omega
        · intro k hk
          exact f3 (r3 hk)
        · intro x i' hx
          obtain ⟨i2, hi2, hd2, hc2⟩ := r4 x i' hx
          obtain ⟨i3, hi3, hd3, hc3⟩ := f4 x i2 hi2
          refine ⟨i3, hi3, ?_, ?_⟩
          · rw [hd2, hd3]
          · rw [hc2, hc3]
        · intro x old hmem
          rcases List.mem_append.mp hmem with h1 | h2
          · exact f5 x old h1
          · exact r5 x old h2

end Vkgc

namespace Vkgc

/-! ### Invariant preservation by collect, wait_collect, release, release(counter) -/

theorem collect_invariant (q : Nat → Nat) (g : GC) (hG : GoodState g) (hN : NonNullState g) :
    GoodState (collect q g).1 ∧ NonNullState (collect q g).1 ∧
    totalEdges (collect q g).1 ≤ totalEdges g ∧
    decsPositive (collect q g).2 := by
  have hIB0 : IB (fun x => twOf (trigsOf g.semaphore_dependencies) x + 0)
      g.resources [] := by
    refine IB_nil _ _ hG.rnodup hG.bounded ?_ hG.balance0
    intro x hx
    have hb := hG.balance x hx
    rw [trigsTo_eq_twOf] at hb
    omega
  have hinv0 : ∀ x i, mfind x g.resources = some i → i.dependency_count = 0 →
      i.cleanup.isSome = true → False := by
    intro x i hx h0 hs
    exact hG.noElig (x, i) (mem_of_mfind _ _ _ hx) ⟨h0, hs⟩
  obtain ⟨c1, c2, c3, c4, c5⟩ :=
    collect_sems_invariant q g.semaphore_dependencies g.resources (fun _ => 0)
      hG.snodup hIB0 hinv0
  have hnds' : NoDupKeys (collect_sems q g.semaphore_dependencies g.resources).1 :=
    List.Nodup.sublist (collect_sems_keys_sublist q _ _) hG.snodup
  have hentry := collect_sems_entry_stable q g.semaphore_dependencies g.resources hG.snodup
  have hembd : ∀ x i', mfind x (collect_sems q g.semaphore_dependencies g.resources).2.1 =
      some i' → ∃ i, mfind x g.resources = some i ∧ i'.dependents = i.dependents := by
    intro x i' hx
    obtain ⟨i, h1, h2, h3⟩ := c4 x i' hx
    exact ⟨i, h1, h2⟩
  refine ⟨⟨c1.nodup, hnds', c1.bounded, ?_, ?_, ?_, ?_⟩, ⟨?_, ?_⟩, ?_, c5⟩
  · intro x hx
    have hb : countOf x (collect_sems q g.semaphore_dependencies g.resources).2.1 =
        depsTo x (collect_sems q g.semaphore_dependencies g.resources).2.1 +
          (twOf (trigsOf (collect_sems q g.semaphore_dependencies g.resources).1) x + 0) :=
      IB_nil_balance _ _ c1 x hx
    show countOf x (collect_sems q g.semaphore_dependencies g.resources).2.1 =
      depsTo x (collect_sems q g.semaphore_dependencies g.resources).2.1 +
        trigsTo x (collect_sems q g.semaphore_dependencies g.resources).1
    rw [trigsTo_eq_twOf]
    omega
  · exact IB_nil_balance0 _ _ c1
  · intro p hp hcon
    exact c2 p.1 p.2 (mfind_of_mem_nodup _ _ c1.nodup hp) hcon.1 hcon.2
  · intro p hp
    obtain ⟨si, hsi, hsd, htr⟩ := hentry p hp
    exact List.Pairwise.sublist htr (hG.sorted (p.1, si) (mem_of_mfind _ _ _ hsi))
  · intro h0mem
    exact hN.1 (c3 h0mem)
  · intro y hy
    exact hN.2 y (mem_allDeps_of_embed _ _ c1.nodup hembd y hy)
  · have e1 := allDeps_length_le_of_embed _ _ c1.nodup hembd
    have e2 := trigsOf_length_le_of_embed _ _ hnds' (fun p hp => by
      obtain ⟨si, h1, h2, h3⟩ := hentry p hp
      exact ⟨si, h1, h3⟩)
    show (allDeps (collect_sems q g.semaphore_dependencies g.resources).2.1).length +
        (trigsOf (collect_sems q g.semaphore_dependencies g.resources).1).length ≤
      (allDeps g.resources).length + (trigsOf g.semaphore_dependencies).length
    omega

theorem wait_collect_invariant (q1 q2 : Nat → Nat) (g : GC) (hG : GoodState g)
    (hN : NonNullState g) :
    GoodState (wait_collect q1 q2 g).1 ∧ NonNullState (wait_collect q1 q2 g).1 ∧
    totalEdges (wait_collect q1 q2 g).1 ≤ totalEdges g ∧
    decsPositive (wait_collect q1 q2 g).2 := by
  obtain ⟨a1, a2, a3, a4⟩ := collect_invariant q1 g hG hN
  by_cases hc : (collect q1 g).1.resources.length ≠ 0 ∨
      (collect q1 g).1.semaphore_dependencies.length ≠ 0
  · obtain ⟨b1, b2, b3, b4⟩ := collect_invariant q2 (collect q1 g).1 a1 a2
    have heq : wait_collect q1 q2 g = ((collect q2 (collect q1 g).1).1,
        (collect q1 g).2 ++ (Event.wait_idle :: (collect q2 (collect q1 g).1).2)) := by
      simp only [wait_collect]
      rw [if_pos hc]
    rw [heq]
    refine ⟨b1, b2, ?_, ?_⟩
    · dsimp only
      omega
    intro x old hm
    rcases List.mem_append.mp hm with h1 | h2
    · exact a4 x old h1
    · rcases List.mem_cons.mp h2 with hh | ht
      · exact Event.noConfusion hh
      · exact b4 x old ht
  · have heq : wait_collect q1 q2 g = collect q1 g := by
      simp only [wait_collect]
      rw [if_neg hc]
    rw [heq]
    exact ⟨a1, a2, a3, a4⟩

theorem release_invariant (r c : Nat) (g : GC) (hG : GoodState g) (hN : NonNullState g)
    (hr : r ≠ 0) :
    GoodState (release r c g).1 ∧ NonNullState (release r c g).1 ∧
    totalEdges (release r c g).1 ≤ totalEdges g ∧
    decsPositive (release r c g).2 := by
  set m1 := mupdate r (fun i => { i with cleanup := some c }) g.resources with hm1
  set fuel := m1.length + 1 with hfuel
  have hnd1 : NoDupKeys m1 := NoDupKeys_mupdate _ _ _ hG.rnodup
  have hcnt1 : ∀ x, countOf x m1 = countOf x g.resources := by
    intro x
    rw [hm1]
    exact countOf_mupdate_keep r (fun i => { i with cleanup := some c }) g.resources
      (fun i => rfl) x
  have hdeps1 : ∀ x, depsTo x m1 = depsTo x g.resources := by
    intro x
    rw [hm1]
    exact depsTo_mupdate r x (fun i => { i with cleanup := some c }) g.resources
      (fun i => rfl)
  have hIB1 : IB (fun x => trigsTo x g.semaphore_dependencies) m1 [] := by
    refine IB_nil _ _ hnd1 ?_ ?_ ?_
    · intro x
      rw [hcnt1 x]
      exact hG.bounded x
    · intro x hx
      rw [hcnt1 x, hdeps1 x]
      exact hG.balance x hx
    · rw [hcnt1 0, hdeps1 0]
      exact hG.balance0
  have hinv1 : ∀ x i, mfind x m1 = some i → i.dependency_count = 0 →
      i.cleanup.isSome = true → x = r ∨ x ∈ frameIds ([] : List Frame) := by
    intro x i hx h0 hs
    by_cases hxr : x = r
    · exact Or.inl hxr
    · exfalso
      rw [hm1, mfind_mupdate_ne _ _ _ _ hxr] at hx
      exact hG.noElig (x, i) (mem_of_mfind _ _ _ hx) ⟨h0, hs⟩
  have hpres1 : r ∈ keysOf m1 := by
    apply mem_keys_of_mfind r m1 _
    rw [hm1]
    exact mfind_mupdate_self _ _ _
  have hnotin : r ∉ frameIds ([] : List Frame) := by simp [frameIds]
  have hfb : m1.length + 1 ≤ fuel + ([] : List Frame).length := by
    rw [hfuel]
    simp
  obtain ⟨hIB2, hpost, _, _⟩ :=
    (check_cascade_invariant fuel).1 r m1 []
      (fun x => trigsTo x g.semaphore_dependencies) hIB1 hfb hpres1 hnotin hinv1
  obtain ⟨hk2, hl2, hst2, hcl2, hcn2, hdec2, hin2⟩ := hpost
  have hres : (release r c g).1.resources = (check_delete fuel r m1).1 := rfl
  have hsem : (release r c g).1.semaphore_dependencies = g.semaphore_dependencies := rfl
  refine ⟨⟨?_, ?_, ?_, ?_, ?_, ?_, ?_⟩, ⟨?_, ?_⟩, ?_, hdec2⟩
  · rw [hres]
    exact hIB2.nodup
  · rw [hsem]
    exact hG.snodup
  · rw [hres]
    exact hIB2.bounded
  · rw [hres, hsem]
    intro x hx
    exact IB_nil_balance _ _ hIB2 x hx
  · rw [hres]
    exact IB_nil_balance0 _ _ hIB2
  · rw [hres]
    intro p hp hcon
    have hm := hin2 p.1 p.2 (mfind_of_mem_nodup _ _ hIB2.nodup hp) hcon.1 hcon.2
    simp [frameIds] at hm
  · rw [hsem]
    exact hG.sorted
  · intro h0mem
    rw [hres] at h0mem
    have h2 := hk2 h0mem
    rcases keysOf_mupdate_sub _ _ _ _ (by rw [← hm1]; exact h2) with ha | hb
    · exact hN.1 ha
    · exact hr hb.symm
  · intro y hy
    rw [hres] at hy
    have h2 := mem_allDeps_of_embed _ _ hIB2.nodup
      (fun x i' hx => by
        obtain ⟨i, h1, hd, hc⟩ := hst2 x i' hx
        exact ⟨i, h1, hd⟩) y hy
    have h3 : y ∈ allDeps g.resources := by
      apply mem_allDeps_mupdate_keep r (fun i => { i with cleanup := some c }) g.resources
        (fun i => rfl) y
      rw [← hm1]
      exact h2
    exact hN.2 y h3
  · have e1 := allDeps_length_le_of_embed _ _ hIB2.nodup
      (fun x i' hx => by
        obtain ⟨i, h1, hd, hc⟩ := hst2 x i' hx
        exact ⟨i, h1, hd⟩)
    have e2 : (allDeps m1).length = (allDeps g.resources).length := by
      rw [hm1]
      exact allDeps_mupdate_keep_length r (fun i => { i with cleanup := some c })
        g.resources (fun i => rfl)
    show (allDeps (release r c g).1.resources).length +
        (trigsOf (release r c g).1.semaphore_dependencies).length ≤
      (allDeps g.resources).length + (trigsOf g.semaphore_dependencies).length
    rw [hres, hsem]
    omega

theorem release_sem_invariant (s : Nat) (g : GC) (hG : GoodState g) (hN : NonNullState g) :
    GoodState (release_sem s g) ∧ NonNullState (release_sem s g) ∧
    totalEdges (release_sem s g) = totalEdges g := by
  have hres : (release_sem s g).resources = g.resources := rfl
  have hsem : (release_sem s g).semaphore_dependencies =
      mupdate s (fun si => { si with should_destroy := true }) g.semaphore_dependencies := rfl
  have htr : trigsOf (release_sem s g).semaphore_dependencies =
      trigsOf g.semaphore_dependencies := by
    rw [hsem]
    exact trigsOf_mupdate_keep s _ _ (fun si => rfl)
  refine ⟨⟨?_, ?_, ?_, ?_, ?_, ?_, ?_⟩, ⟨?_, ?_⟩, ?_⟩
  · rw [hres]
    exact hG.rnodup
  · rw [hsem]
    exact NoDupKeys_mupdate _ _ _ hG.snodup
  · rw [hres]
    exact hG.bounded
  · rw [hres]
    intro x hx
    rw [trigsTo_eq_twOf, htr, ← trigsTo_eq_twOf]
    exact hG.balance x hx
  · rw [hres]
    exact hG.balance0
  · rw [hres]
    exact hG.noElig
  · rw [hsem]
    exact sorted_mupdate s _ _ (fun si hs => hs) List.Pairwise.nil hG.sorted
  · rw [hres]
    exact hN.1
  · rw [hres]
    exact hN.2
  · rw [totalEdges, totalEdges, hres, htr]

end Vkgc

namespace Vkgc

/-! ### Invariant preservation by the depend family and add_trigger -/

theorem depend_many_invariant (used : List Nat) (user : Nat) (g : GC)
    (hG : GoodState g) (hN : NonNullState g)
    (h0 : ∀ u ∈ used, u ≠ 0) (hu : user ≠ 0)
    (hw : totalEdges g + used.length < U64) :
    GoodState (depend_many used user g) ∧ NonNullState (depend_many used user g) ∧
    totalEdges (depend_many used user g) = totalEdges g + used.length := by
  set m1 := mupdate user (fun i => { i with dependents := i.dependents ++ used })
    g.resources with hm1
  have hr : (depend_many used user g).resources = bumpAll used m1 := rfl
  have hs : (depend_many used user g).semaphore_dependencies =
      g.semaphore_dependencies := rfl
  have hnd1 : NoDupKeys m1 := NoDupKeys_mupdate _ _ _ hG.rnodup
  have hcnt1 : ∀ x, countOf x m1 = countOf x g.resources := by
    intro x
    rw [hm1]
    exact countOf_mupdate_keep user (fun i => { i with dependents := i.dependents ++ used })
      g.resources (fun i => rfl) x
  have hdeps1 : ∀ x, depsTo x m1 = depsTo x g.resources + used.count x := by
    intro x
    rw [hm1]
    exact depsTo_mupdate_append user used g.resources x
  have hle : ∀ x, countOf x g.resources ≤ totalEdges g := countOf_le_totalEdges g hG hN
  have hB : ∀ x, countOf x m1 + used.count x < U64 := by
    intro x
    have h1 := hle x
    have h2 : used.count x ≤ used.length := List.count_le_length _ _
    rw [hcnt1 x]
    omega
  obtain ⟨b1, b2, b3, b4, b5, b6, b7⟩ := bumpAll_spec used m1 hnd1 hB
  have hst1 : ∀ x i', mfind x m1 = some i' →
      (∃ i, mfind x g.resources = some i ∧ i'.dependency_count = i.dependency_count ∧
        i'.cleanup = i.cleanup) ∨
      (i'.dependency_count = 0 ∧ i'.cleanup = none) := by
    intro x i' hx
    by_cases hxu : x = user
    · subst hxu
      rw [hm1, mfind_mupdate_self] at hx
      injection hx with hx
      cases hfind : mfind x g.resources with
      | none =>
        right
        rw [hfind] at hx
        constructor
        · rw [← hx]
          rfl
        · rw [← hx]
          rfl
      | some j =>
        left
        refine ⟨j, rfl, ?_, ?_⟩
        · rw [← hx, hfind]
          rfl
        · rw [← hx, hfind]
          rfl
    · rw [hm1, mfind_mupdate_ne _ _ _ _ hxu] at hx
      exact Or.inl ⟨i', hx, rfl, rfl⟩
  have hcount0 : used.count 0 = 0 := List.count_eq_zero.mpr (fun hc => h0 0 hc rfl)
  refine ⟨⟨?_, ?_, ?_, ?_, ?_, ?_, ?_⟩, ⟨?_, ?_⟩, ?_⟩
  · rw [hr]
    exact b1
  · rw [hs]
    exact hG.snodup
  · rw [hr]
    intro x
    rw [b2 x, hcnt1 x]
    have h1 := hle x
    have h2 : used.count x ≤ used.length := List.count_le_length _ _
    omega
  · rw [hr, hs]
    intro x hx
    rw [b2 x, hcnt1 x, b3 x, hdeps1 x]
    have hb := hG.balance x hx
    omega
  · rw [hr]
    rw [b2 0, hcnt1 0, b3 0, hdeps1 0, hcount0]
    have hb := hG.balance0
    omega
  · rw [hr]
    intro p hp hcon
    have hfind := mfind_of_mem_nodup _ _ b1 hp
    rcases b7 p.1 p.2 hfind with ⟨i1, hi1, hd1, hc1⟩ | ⟨hd1, hc1⟩
    · rcases hst1 p.1 i1 hi1 with ⟨i, hi, hcn, hcl⟩ | ⟨hcn, hcl⟩
      · have hcz : countOf p.1 g.resources = 0 := by
          have hcpos : countOf p.1 (bumpAll used m1) = p.2.dependency_count := by
            rw [countOf, hfind]
            rfl
          have := b2 p.1
          rw [hcnt1 p.1] at this
          rw [hcon.1] at hcpos
          omega
        apply hG.noElig (p.1, i) (mem_of_mfind _ _ _ hi)
        constructor
        · have : countOf p.1 g.resources = i.dependency_count := by
            rw [countOf, hi]
            rfl
          rw [← this, hcz]
        · have hcc := hcon.2
          rw [hc1, hcl] at hcc
          exact hcc
      · have hcc := hcon.2
        rw [hc1, hcl] at hcc
        simp at hcc
    · have hcc := hcon.2
      rw [hc1] at hcc
      simp at hcc
  · rw [hs]
    exact hG.sorted
  · rw [hr]
    intro h0mem
    rcases b6 0 h0mem with h1 | h2
    · rcases keysOf_mupdate_sub _ _ _ _ (by rw [← hm1]; exact h1) with ha | hb
      · exact hN.1 ha
      · exact hu hb.symm
    · exact h0 0 h2 rfl
  · rw [hr]
    intro y hy
    have h2 := b5 y hy
    rcases mem_allDeps_mupdate_append user used g.resources y (by rw [← hm1]; exact h2)
      with ha | hb
    · exact hN.2 y ha
    · exact h0 y hb
  · show (allDeps (depend_many used user g).resources).length +
        (trigsOf (depend_many used user g).semaphore_dependencies).length =
      (allDeps g.resources).length + (trigsOf g.semaphore_dependencies).length + used.length
    rw [hr, hs, b4]
    have e1 : (allDeps m1).length = (allDeps g.resources).length + used.length := by
      rw [hm1]
      exact allDeps_mupdate_append_length user used g.resources
    omega

theorem depend_invariant (used user : Nat) (g : GC)
    (hG : GoodState g) (hN : NonNullState g)
    (h0 : used ≠ 0) (hu : user ≠ 0)
    (hw : totalEdges g + 1 < U64) :
    GoodState (depend used user g) ∧ NonNullState (depend used user g) ∧
    totalEdges (depend used user g) = totalEdges g + 1 := by
  have h := depend_many_invariant [used] user g hG hN
    (fun u hu' => by
      rw [List.mem_singleton] at hu'
      rw [hu']
      exact h0) hu
    (by
      have : ([used] : List Nat).length = 1 := rfl
      omega)
  have hl : ([used] : List Nat).length = 1 := rfl
  rw [hl] at h
  exact h

theorem depend_sem_invariant (used s v : Nat) (g : GC)
    (hG : GoodState g) (hN : NonNullState g)
    (h0 : used ≠ 0)
    (hw : totalEdges g + 1 < U64) :
    GoodState (depend_sem used s v g) ∧ NonNullState (depend_sem used s v g) ∧
    totalEdges (depend_sem used s v g) = totalEdges g + 1 := by
  have hr : (depend_sem used s v g).resources =
      mupdate used (fun i => { i with dependency_count := wrapInc i.dependency_count })
        g.resources := rfl
  have hs : (depend_sem used s v g).semaphore_dependencies =
      mupdate s
        (fun si => { si with triggers := trig_insert ⟨v, used, none⟩ si.triggers })
        g.semaphore_dependencies := rfl
  have hle : ∀ x, countOf x g.resources ≤ totalEdges g := countOf_le_totalEdges g hG hN
  have hcnt : ∀ x, countOf x (depend_sem used s v g).resources =
      countOf x g.resources + (if x = used then 1 else 0) := by
    intro x
    rw [hr]
    by_cases hx : x = used
    · subst hx
      rw [countOf_mupdate_self, if_pos rfl]
      show wrapInc (countOf x g.resources) = countOf x g.resources + 1
      apply wrapInc_eq
      have := hle x
      omega
    · rw [countOf_mupdate_ne _ _ _ _ hx, if_neg hx]
      omega
  have hdeps : ∀ x, depsTo x (depend_sem used s v g).resources = depsTo x g.resources := by
    intro x
    rw [hr]
    exact depsTo_mupdate used x
      (fun i => { i with dependency_count := wrapInc i.dependency_count })
      g.resources (fun i => rfl)
  have htw : ∀ x, twOf (trigsOf (depend_sem used s v g).semaphore_dependencies) x =
      twOf (trigsOf g.semaphore_dependencies) x + (if used = x then 1 else 0) := by
    intro x
    rw [hs]
    have h := twOf_trigsOf_mupdate_insert s ⟨v, used, none⟩ g.semaphore_dependencies x
    exact h
  refine ⟨⟨?_, ?_, ?_, ?_, ?_, ?_, ?_⟩, ⟨?_, ?_⟩, ?_⟩
  · rw [hr]
    exact NoDupKeys_mupdate _ _ _ hG.rnodup
  · rw [hs]
    exact NoDupKeys_mupdate _ _ _ hG.snodup
  · intro x
    rw [hcnt x]
    have h1 := hle x
    by_cases hx : x = used
    · rw [if_pos hx]
      omega
    · rw [if_neg hx]
      omega
  · intro x hx
    rw [hcnt x, hdeps x, trigsTo_eq_twOf, htw x]
    have hb := hG.balance x hx
    rw [trigsTo_eq_twOf] at hb
    by_cases hxu : x = used
    · rw [if_pos hxu, if_pos hxu.symm]
      omega
    · rw [if_neg hxu, if_neg (fun hc : used = x => hxu hc.symm)]
      omega
  · rw [hcnt 0, hdeps 0, if_neg (fun hc : (0 : Nat) = used => h0 hc.symm)]
    have hb := hG.balance0
    omega
  · intro p hp hcon
    rw [hr] at hp
    have hfind := mfind_of_mem_nodup _ _ (NoDupKeys_mupdate _ _ _ hG.rnodup) hp
    by_cases hxu : p.1 = used
    · have hcp : countOf p.1 (depend_sem used s v g).resources = p.2.dependency_count := by
        rw [countOf, hr, hfind]
        rfl
      rw [hcnt p.1, if_pos hxu] at hcp
      rw [hcon.1] at hcp
      omega
    · rw [mfind_mupdate_ne _ _ _ _ hxu] at hfind
      exact hG.noElig (p.1, p.2) (mem_of_mfind _ _ _ hfind) hcon
  · rw [hs]
    refine sorted_mupdate s _ _ (fun si hsi => trigSorted_insert _ _ hsi) ?_ hG.sorted
    exact trigSorted_insert _ _ List.Pairwise.nil
  · rw [hr]
    intro h0mem
    rcases keysOf_mupdate_sub _ _ _ _ h0mem with ha | hb
    · exact hN.1 ha
    · exact h0 hb.symm
  · rw [hr]
    intro y hy
    exact hN.2 y (mem_allDeps_mupdate_keep used
      (fun i => { i with dependency_count := wrapInc i.dependency_count })
      g.resources (fun i => rfl) y hy)
  · show (allDeps (depend_sem used s v g).resources).length +
        (trigsOf (depend_sem used s v g).semaphore_dependencies).length =
      (allDeps g.resources).length + (trigsOf g.semaphore_dependencies).length + 1
    rw [hr, hs]
    have e1 := allDeps_mupdate_keep_length used
      (fun i => { i with dependency_count := wrapInc i.dependency_count })
      g.resources (fun i => rfl)
    have e2 := trigsOf_length_mupdate_insert s ⟨v, used, none⟩ g.semaphore_dependencies
    omega

theorem add_trigger_invariant (s v cb : Nat) (g : GC)
    (hG : GoodState g) (hN : NonNullState g) :
    GoodState (add_trigger s v cb g) ∧ NonNullState (add_trigger s v cb g) ∧
    totalEdges (add_trigger s v cb g) = totalEdges g + 1 := by
  have hr : (add_trigger s v cb g).resources = g.resources := rfl
  have hs : (add_trigger s v cb g).semaphore_dependencies =
      mupdate s
        (fun si => { si with triggers := trig_insert ⟨v, 0, some cb⟩ si.triggers })
        g.semaphore_dependencies := rfl
  have htw : ∀ x, twOf (trigsOf (add_trigger s v cb g).semaphore_dependencies) x =
      twOf (trigsOf g.semaphore_dependencies) x + (if (0 : Nat) = x then 1 else 0) := by
    intro x
    rw [hs]
    exact twOf_trigsOf_mupdate_insert s ⟨v, 0, some cb⟩ g.semaphore_dependencies x
  refine ⟨⟨?_, ?_, ?_, ?_, ?_, ?_, ?_⟩, ⟨?_, ?_⟩, ?_⟩
  · rw [hr]
    exact hG.rnodup
  · rw [hs]
    exact NoDupKeys_mupdate _ _ _ hG.snodup
  · rw [hr]
    exact hG.bounded
  · intro x hx
    rw [hr, trigsTo_eq_twOf, htw x, if_neg (fun hc : (0 : Nat) = x => hx hc.symm)]
    have hb := hG.balance x hx
    rw [trigsTo_eq_twOf] at hb
    omega
  · rw [hr]
    exact hG.balance0
  · rw [hr]
    exact hG.noElig
  · rw [hs]
    refine sorted_mupdate s _ _ (fun si hsi => trigSorted_insert _ _ hsi) ?_ hG.sorted
    exact trigSorted_insert _ _ List.Pairwise.nil
  · rw [hr]
    exact hN.1
  · rw [hr]
    exact hN.2
  · show (allDeps (add_trigger s v cb g).resources).length +
        (trigsOf (add_trigger s v cb g).semaphore_dependencies).length =
      (allDeps g.resources).length + (trigsOf g.semaphore_dependencies).length + 1
    rw [hr, hs]
    have e2 := trigsOf_length_mupdate_insert s ⟨v, 0, some cb⟩ g.semaphore_dependencies
    omega

end Vkgc

namespace Vkgc

/-! ### Invariant preservation over whole operation sequences -/

theorem apply_op_invariant (g : GC) (op : Op) (hG : GoodState g) (hN : NonNullState g)
    (hok : opOK op) (hw : totalEdges g + opWeight op < U64) :
    GoodState (apply_op g op).1 ∧ NonNullState (apply_op g op).1 ∧
    totalEdges (apply_op g op).1 ≤ totalEdges g + opWeight op ∧
    decsPositive (apply_op g op).2 := by
  cases op with
  | release r c =>
    obtain ⟨a1, a2, a3, a4⟩ := release_invariant r c g hG hN hok
    simp only [apply_op, opWeight]
    exact ⟨a1, a2, by omega, a4⟩
  | release_sem s =>
    obtain ⟨a1, a2, a3⟩ := release_sem_invariant s g hG hN
    simp only [apply_op, opWeight]
    refine ⟨a1, a2, by omega, ?_⟩
    intro x old h
    simp at h
  | depend used user =>
    obtain ⟨a1, a2, a3⟩ := depend_invariant used user g hG hN hok.1 hok.2
      (by simp only [opWeight] at hw; omega)
    simp only [apply_op, opWeight]
    refine ⟨a1, a2, by omega, ?_⟩
    intro x old h
    simp at h
  | depend_many used user =>
    obtain ⟨a1, a2, a3⟩ := depend_many_invariant used user g hG hN hok.1 hok.2
      (by simp only [opWeight] at hw; omega)
    simp only [apply_op, opWeight]
    refine ⟨a1, a2, by omega, ?_⟩
    intro x old h
    simp at h
  | depend_sem used s v =>
    obtain ⟨a1, a2, a3⟩ := depend_sem_invariant used s v g hG hN hok
      (by simp only [opWeight] at hw; omega)
    simp only [apply_op, opWeight]
    refine ⟨a1, a2, by omega, ?_⟩
    intro x old h
    simp at h
  | add_trigger s v cb =>
    obtain ⟨a1, a2, a3⟩ := add_trigger_invariant s v cb g hG hN
    simp only [apply_op, opWeight]
    refine ⟨a1, a2, by omega, ?_⟩
    intro x old h
    simp at h
  | collect q =>
    obtain ⟨a1, a2, a3, a4⟩ := collect_invariant q g hG hN
    simp only [apply_op, opWeight]
    exact ⟨a1, a2, by omega, a4⟩
  | wait_collect q1 q2 =>
    obtain ⟨a1, a2, a3, a4⟩ := wait_collect_invariant q1 q2 g hG hN
    simp only [apply_op, opWeight]
    exact ⟨a1, a2, by omega, a4⟩

theorem runWeight_nil : runWeight [] = 0 := rfl

theorem runWeight_cons (op : Op) (rest : List Op) :
    runWeight (op :: rest) = opWeight op + runWeight rest := by
  simp [runWeight]

theorem run_invariant (ops : List Op) (g : GC) (hG : GoodState g) (hN : NonNullState g)
    (hok : ∀ op ∈ ops, opOK op) (hw : totalEdges g + runWeight ops < U64) :
    GoodState (run g ops).1 ∧ NonNullState (run g ops).1 ∧
    totalEdges (run g ops).1 ≤ totalEdges g + runWeight ops ∧
    decsPositive (run g ops).2 := by
  induction ops generalizing g with
  | nil =>
    refine ⟨hG, hN, ?_, ?_⟩
    · show totalEdges g ≤ totalEdges g + runWeight []
      rw [runWeight_nil]
      omega
    · intro x old h
      simp [run] at h
  | cons op rest ih =>
    have hrw := runWeight_cons op rest
    have hw1 : totalEdges g + opWeight op < U64 := by omega
    obtain ⟨a1, a2, a3, a4⟩ :=
      apply_op_invariant g op hG hN (hok op (List.mem_cons_self _ _)) hw1
    have hw2 : totalEdges (apply_op g op).1 + runWeight rest < U64 := by omega
    obtain ⟨b1, b2, b3, b4⟩ :=
      ih (apply_op g op).1 a1 a2 (fun o ho => hok o (List.mem_cons_of_mem _ ho)) hw2
    refine ⟨b1, b2, ?_, ?_⟩
    · show totalEdges (run (apply_op g op).1 rest).1 ≤ totalEdges g + runWeight (op :: rest)
      omega
    · show decsPositive ((apply_op g op).2 ++ (run (apply_op g op).1 rest).2)
      intro x old hm
      rcases List.mem_append.mp hm with h1 | h2
      · exact a4 x old h1
      · exact b4 x old h2

theorem GoodState_gc0 : GoodState gc0 := by
  refine ⟨?_, ?_, ?_, ?_, ?_, ?_, ?_⟩
  · simp [NoDupKeys, keysOf, gc0]
  · simp [NoDupKeys, keysOf, gc0]
  · intro x
    exact U64_pos
  · intro x hx
    rfl
  · exact Nat.le.refl
  · intro p hp
    simp [gc0] at hp
  · intro p hp
    simp [gc0] at hp

theorem NonNullState_gc0 : NonNullState gc0 := by
  constructor
  · simp [keysOf, gc0]
  · intro x hx
    simp [allDeps, gc0] at hx

theorem totalEdges_gc0 : totalEdges gc0 = 0 := rfl

theorem run0_invariant (ops : List Op) (hok : ∀ op ∈ ops, opOK op)
    (hw : runWeight ops < U64) :
    GoodState (run0 ops).1 ∧ NonNullState (run0 ops).1 ∧
    totalEdges (run0 ops).1 ≤ runWeight ops ∧
    decsPositive (run0 ops).2 := by
  have h := run_invariant ops gc0 GoodState_gc0 NonNullState_gc0 hok
    (by rw [totalEdges_gc0]; omega)
  rw [totalEdges_gc0] at h
  simpa [run0] using h

end Vkgc

namespace Vkgc

/-! ### Lazy record creation and the C7/C8 claim theorems -/

theorem mem_keys_mupdate_self [Inhabited α] (k : Nat) (f : α → α) (m : List (Nat × α)) :
    k ∈ keysOf (mupdate k f m) :=
  mem_keys_of_mfind _ _ _ (mfind_mupdate_self k f m)

theorem mem_keys_mupdate_of_mem [Inhabited α] (k k' : Nat) (f : α → α) (m : List (Nat × α))
    (h : k' ∈ keysOf m) : k' ∈ keysOf (mupdate k f m) := by
  by_cases hk : k ∈ keysOf m
  · rw [keysOf_mupdate_present k f m hk]
    exact h
  · rw [keysOf_mupdate_absent k f m hk]
    exact List.mem_append.mpr (Or.inl h)

theorem bumpAll_keys_mono (used : List Nat) (m : RMap) (k : Nat) (h : k ∈ keysOf m) :
    k ∈ keysOf (bumpAll used m) := by
  induction used generalizing m with
  | nil => exact h
  | cons u rest ih =>
    rw [bumpAll_cons]
    exact ih _ (mem_keys_mupdate_of_mem _ _ _ _ h)

theorem bumpAll_mem_used (used : List Nat) (m : RMap) (u : Nat) (h : u ∈ used) :
    u ∈ keysOf (bumpAll used m) := by
  induction used generalizing m with
  | nil => simp at h
  | cons u0 rest ih =>
    rw [bumpAll_cons]
    rcases List.mem_cons.mp h with h1 | h2
    · subst h1
      exact bumpAll_keys_mono _ _ _ (mem_keys_mupdate_self _ _ _)
    · exact ih _ h2

theorem depend_many_materializes (used : List Nat) (user : Nat) (g : GC) :
    user ∈ keysOf (depend_many used user g).resources ∧
    ∀ u ∈ used, u ∈ keysOf (depend_many used user g).resources := by
  have hr : (depend_many used user g).resources = bumpAll used
      (mupdate user (fun i => { i with dependents := i.dependents ++ used })
        g.resources) := rfl
  rw [hr]
  constructor
  · exact bumpAll_keys_mono _ _ _ (mem_keys_mupdate_self _ _ _)
  · intro u hu
    exact bumpAll_mem_used _ _ _ hu

/-- C8: over any run of non-null-identity operations whose total number of
dependency registrations fits in 64 bits, every logged `dependency_count--`
found a strictly positive count (so the `size_t` decrement never wraps to
2^64 - 1), every stored count stays below 2^64, and in the final state each
non-null record's count equals its number of unresolved incoming edges
(dependents-list entries plus pending triggers): each registered edge is
consumed by exactly one decrement. -/
theorem C8_no_wraparound (ops : List Op) (hok : ∀ op ∈ ops, opOK op)
    (hw : runWeight ops < U64) :
    decsPositive (run0 ops).2 ∧
    (∀ x, countOf x (run0 ops).1.resources < U64) ∧
    (∀ x, x ≠ 0 → countOf x (run0 ops).1.resources =
      depsTo x (run0 ops).1.resources +
        trigsTo x (run0 ops).1.semaphore_dependencies) := by
  obtain ⟨hG, _, _, hdec⟩ := run0_invariant ops hok hw
  exact ⟨hdec, hG.bounded, hG.balance⟩

theorem C8_no_wraparound_witness :
    (∀ op ∈ [Op.depend 1 2, Op.release 1 5], opOK op) ∧
    runWeight [Op.depend 1 2, Op.release 1 5] < U64 ∧
    decsPositive (run0 [Op.depend 1 2, Op.release 1 5]).2 :=
  ⟨by intro op hop; fin_cases hop <;> simp [opOK],
   by decide,
   (C8_no_wraparound [Op.depend 1 2, Op.release 1 5]
     (by intro op hop; fin_cases hop <;> simp [opOK]) (by decide)).1⟩

/-- C7 counterexample: after `depend(1, 2)` and `release(2)`, resource 2's
cascade decrements resource 1 to zero, and 1's record persists with count 0,
no cleanup, and no pending trigger attached to it — none of the three
conditions the claim allows. -/
theorem C7_counterexample :
    ∃ p ∈ (run0 [Op.depend 1 2, Op.release 2 7]).1.resources,
      ¬(1 ≤ p.2.dependency_count ∨ p.2.cleanup.isSome = true ∨
        1 ≤ trigsTo p.1 (run0 [Op.depend 1 2, Op.release 2 7]).1.semaphore_dependencies) := by
  decide

/-- C7 (amended): over any bounded run of non-null-identity operations, a
resource record may outlive all three claimed conditions (see the
counterexample): the "exists only while" direction is false.  What does hold
in every reachable state is that no record remains in the deletable state
(count 0 with a cleanup set) and that every non-null record's count equals
its unresolved incoming edges.  The lazy-materialization half of the claim
stands in full: the first mention of an identity by `depend`/`depend_many`
(user and every used id) or by depend-on-counter (vkgc.cc:67) leaves its
record in the registry, and `release` likewise materializes the record via
`operator[]` in the map it hands to `check_delete` — that record may then be
removed by the very eligibility check the same call performs. -/
theorem C7_record_states (ops : List Op) (hok : ∀ op ∈ ops, opOK op)
    (hw : runWeight ops < U64) :
    (∀ p ∈ (run0 ops).1.resources,
      ¬(p.2.dependency_count = 0 ∧ p.2.cleanup.isSome = true)) ∧
    (∀ p ∈ (run0 ops).1.resources, p.1 ≠ 0 →
      p.2.dependency_count = depsTo p.1 (run0 ops).1.resources +
        trigsTo p.1 (run0 ops).1.semaphore_dependencies) ∧
    (∀ (used : List Nat) (user : Nat) (g : GC),
      user ∈ keysOf (depend_many used user g).resources ∧
      ∀ u ∈ used, u ∈ keysOf (depend_many used user g).resources) ∧
    (∀ (used s v : Nat) (g : GC),
      used ∈ keysOf (depend_sem used s v g).resources) ∧
    (∀ (r c : Nat) (g : GC),
      r ∈ keysOf (mupdate r (fun i => { i with cleanup := some c }) g.resources)) := by
  obtain ⟨hG, hN, _, _⟩ := run0_invariant ops hok hw
  refine ⟨?_, ?_, ?_, ?_, ?_⟩
  · intro p hp hcon
    exact hG.noElig p hp ⟨hcon.1, hcon.2⟩
  · intro p hp hp0
    have hfind := mfind_of_mem_nodup _ _ hG.rnodup hp
    have hcp : countOf p.1 (run0 ops).1.resources = p.2.dependency_count := by
      rw [countOf, hfind]
      rfl
    rw [← hcp]
    exact hG.balance p.1 hp0
  · intro used user g
    exact depend_many_materializes used user g
  · intro used s v g
    show used ∈ keysOf (mupdate used
      (fun i => { i with dependency_count := wrapInc i.dependency_count }) g.resources)
    exact mem_keys_mupdate_self _ _ _
  · intro r c g
    exact mem_keys_mupdate_self _ _ _

theorem C7_record_states_witness :
    (∀ op ∈ [Op.depend 1 2, Op.release 2 7], opOK op) ∧
    runWeight [Op.depend 1 2, Op.release 2 7] < U64 ∧
    (∀ p ∈ (run0 [Op.depend 1 2, Op.release 2 7]).1.resources,
      ¬(p.2.dependency_count = 0 ∧ p.2.cleanup.isSome = true)) :=
  ⟨by intro op hop; fin_cases hop <;> simp [opOK],
   by decide,
   (C7_record_states [Op.depend 1 2, Op.release 2 7]
     (by intro op hop; fin_cases hop <;> simp [opOK]) (by decide)).1⟩

end Vkgc

namespace Vkgc

/-! ### Draining wait_collect: the C6 machinery -/

theorem list_exists_max (l : List α) (f : α → Nat) (h : l ≠ []) :
    ∃ p ∈ l, ∀ r ∈ l, f r ≤ f p := by
  induction l with
  | nil => exact absurd rfl h
  | cons a rest ih =>
    cases rest with
    | nil =>
      refine ⟨a, List.mem_cons_self _ _, ?_⟩
      intro r hr
      rcases List.mem_cons.mp hr with h1 | h2
      · rw [h1]
      · simp at h2
    | cons b rest2 =>
      obtain ⟨p, hp, hm⟩ := ih (by simp)
      by_cases hab : f a ≤ f p
      · refine ⟨p, List.mem_cons_of_mem _ hp, ?_⟩
        intro r hr
        rcases List.mem_cons.mp hr with h1 | h2
        · rw [h1]
          exact hab
        · exact hm r h2
      · refine ⟨a, List.mem_cons_self _ _, ?_⟩
        intro r hr
        rcases List.mem_cons.mp hr with h1 | h2
        · rw [h1]
        · have := hm r h2
          omega

theorem collect_sems_drain (q : Nat → Nat) (sems : SMap) (res : RMap)
    (hd : ∀ p ∈ sems, p.2.should_destroy = true ∧ ∀ t ∈ p.2.triggers, t.value ≤ q p.1) :
    (collect_sems q sems res).1 = [] := by
  induction sems generalizing res with
  | nil => rfl
  | cons pp rest ih =>
    cases pp with
    | mk sid si =>
      obtain ⟨hsd, hts⟩ := hd (sid, si) (List.mem_cons_self _ _)
      have hem : (fire_triggers (q sid) si.triggers res).1 = [] := by
        rw [fire_triggers_fst]
        rw [List.dropWhile_eq_nil_iff]
        intro t ht
        simpa using hts t ht
      simp only [collect_sems]
      rw [if_pos ?_]
      · dsimp only
        exact ih _ (fun p hp => hd p (List.mem_cons_of_mem _ hp))
      · rw [hem, hsd]
        rfl

theorem drained_state_empty (g2 : GC) (rank : Nat → Nat)
    (hG : GoodState g2)
    (h0 : 0 ∉ keysOf g2.resources)
    (hsem : g2.semaphore_dependencies = [])
    (hclean : ∀ p ∈ g2.resources, p.2.cleanup.isSome = true)
    (hrank : ∀ p ∈ g2.resources, ∀ d ∈ p.2.dependents, rank d < rank p.1) :
    g2.resources = [] := by
  by_contra hne
  obtain ⟨p, hp, hmax⟩ := list_exists_max g2.resources (fun r => rank r.1) hne
  have hp0 : p.1 ≠ 0 := by
    intro hc
    apply h0
    rw [← hc]
    exact List.mem_map_of_mem Prod.fst hp
  have hfind := mfind_of_mem_nodup _ _ hG.rnodup hp
  have hcp : countOf p.1 g2.resources = p.2.dependency_count := by
    rw [countOf, hfind]
    rfl
  have hpos : 1 ≤ p.2.dependency_count := by
    rcases Nat.eq_zero_or_pos p.2.dependency_count with hz | hpos
    · exact absurd ⟨hz, hclean p hp⟩ (hG.noElig p hp)
    · exact hpos
  have htz : trigsTo p.1 g2.semaphore_dependencies = 0 := by
    rw [hsem]
    rfl
  have hb := hG.balance p.1 hp0
  rw [hcp, htz] at hb
  have hdep : 1 ≤ depsTo p.1 g2.resources := by omega
  have hmem : p.1 ∈ allDeps g2.resources := by
    rw [depsTo_eq_count_allDeps] at hdep
    exact List.count_pos_iff.mp hdep
  obtain ⟨y, hy, hyd⟩ := exists_of_mem_allDeps _ _ hmem
  have hlt := hrank y hy p.1 hyd
  have hle := hmax y hy
  omega

theorem collect_stable (q : Nat → Nat) (g : GC) (hG : GoodState g) (hN : NonNullState g) :
    (∀ x i', mfind x (collect q g).1.resources = some i' →
      ∃ i, mfind x g.resources = some i ∧ i'.dependents = i.dependents ∧
        i'.cleanup = i.cleanup) ∧
    (∀ p ∈ (collect q g).1.semaphore_dependencies, ∃ si,
      mfind p.1 g.semaphore_dependencies = some si ∧
      p.2.should_destroy = si.should_destroy ∧ p.2.triggers.Sublist si.triggers) := by
  have hIB0 : IB (fun x => twOf (trigsOf g.semaphore_dependencies) x + 0)
      g.resources [] := by
    refine IB_nil _ _ hG.rnodup hG.bounded ?_ hG.balance0
    intro x hx
    have hb := hG.balance x hx
    rw [trigsTo_eq_twOf] at hb
    omega
  have hinv0 : ∀ x i, mfind x g.resources = some i → i.dependency_count = 0 →
      i.cleanup.isSome = true → False := by
    intro x i hx hc0 hcs
    exact hG.noElig (x, i) (mem_of_mfind _ _ _ hx) ⟨hc0, hcs⟩
  obtain ⟨c1, c2, c3, c4, c5⟩ :=
    collect_sems_invariant q g.semaphore_dependencies g.resources (fun _ => 0)
      hG.snodup hIB0 hinv0
  exact ⟨c4, collect_sems_entry_stable q g.semaphore_dependencies g.resources hG.snodup⟩

/-- C6 (amended): wait_collect runs collect; if any records remain it issues
the blocking device wait and collects again.  When every resource has been
released, every counter has been released, the second pass's counter values
dominate all pending targets, identities are non-null, the quiescent
invariants hold, and the dependency graph is acyclic (witnessed by a rank
function decreasing along dependents edges), wait_collect leaves both
registries empty on return.  Without the acyclicity and all-released
conditions the registries can remain non-empty (see the counterexample). -/
theorem C6_drain (q1 q2 : Nat → Nat) (g : GC) (rank : Nat → Nat)
    (hG : GoodState g) (hN : NonNullState g)
    (hclean : ∀ p ∈ g.resources, p.2.cleanup.isSome = true)
    (hsd : ∀ p ∈ g.semaphore_dependencies, p.2.should_destroy = true)
    (hq2 : ∀ p ∈ g.semaphore_dependencies, ∀ t ∈ p.2.triggers, t.value ≤ q2 p.1)
    (hrank : ∀ p ∈ g.resources, ∀ d ∈ p.2.dependents, rank d < rank p.1) :
    (wait_collect q1 q2 g).1.resources = [] ∧
    (wait_collect q1 q2 g).1.semaphore_dependencies = [] := by
  obtain ⟨hG1, hN1, _, _⟩ := collect_invariant q1 g hG hN
  obtain ⟨hst1, hsem1⟩ := collect_stable q1 g hG hN
  have hclean1 : ∀ p ∈ (collect q1 g).1.resources, p.2.cleanup.isSome = true := by
    intro p hp
    have hfind := mfind_of_mem_nodup _ _ hG1.rnodup hp
    obtain ⟨i, hi, hd, hc⟩ := hst1 p.1 p.2 hfind
    rw [hc]
    exact hclean (p.1, i) (mem_of_mfind _ _ _ hi)
  have hrank1 : ∀ p ∈ (collect q1 g).1.resources, ∀ d ∈ p.2.dependents,
      rank d < rank p.1 := by
    intro p hp d hd
    have hfind := mfind_of_mem_nodup _ _ hG1.rnodup hp
    obtain ⟨i, hi, hdp, hc⟩ := hst1 p.1 p.2 hfind
    rw [hdp] at hd
    exact hrank (p.1, i) (mem_of_mfind _ _ _ hi) d hd
  have hsd1 : ∀ p ∈ (collect q1 g).1.semaphore_dependencies,
      p.2.should_destroy = true ∧ ∀ t ∈ p.2.triggers, t.value ≤ q2 p.1 := by
    intro p hp
    obtain ⟨si, hsi, hsdp, htr⟩ := hsem1 p hp
    constructor
    · rw [hsdp]
      exact hsd (p.1, si) (mem_of_mfind _ _ _ hsi)
    · intro t ht
      exact hq2 (p.1, si) (mem_of_mfind _ _ _ hsi) t (htr.subset ht)
  by_cases hc : (collect q1 g).1.resources.length ≠ 0 ∨
      (collect q1 g).1.semaphore_dependencies.length ≠ 0
  · have heq : wait_collect q1 q2 g = ((collect q2 (collect q1 g).1).1,
        (collect q1 g).2 ++ (Event.wait_idle :: (collect q2 (collect q1 g).1).2)) := by
      simp only [wait_collect]
      rw [if_pos hc]
    obtain ⟨hG2, hN2, _, _⟩ := collect_invariant q2 (collect q1 g).1 hG1 hN1
    obtain ⟨hst2, _⟩ := collect_stable q2 (collect q1 g).1 hG1 hN1
    have hsem2 : (collect q2 (collect q1 g).1).1.semaphore_dependencies = [] := by
      show (collect_sems q2 (collect q1 g).1.semaphore_dependencies
        (collect q1 g).1.resources).1 = []
      exact collect_sems_drain q2 _ _ hsd1
    have hclean2 : ∀ p ∈ (collect q2 (collect q1 g).1).1.resources,
        p.2.cleanup.isSome = true := by
      intro p hp
      have hfind := mfind_of_mem_nodup _ _ hG2.rnodup hp
      obtain ⟨i, hi, hd, hcl⟩ := hst2 p.1 p.2 hfind
      rw [hcl]
      exact hclean1 (p.1, i) (mem_of_mfind _ _ _ hi)
    have hrank2 : ∀ p ∈ (collect q2 (collect q1 g).1).1.resources,
        ∀ d ∈ p.2.dependents, rank d < rank p.1 := by
      intro p hp d hd
      have hfind := mfind_of_mem_nodup _ _ hG2.rnodup hp
      obtain ⟨i, hi, hdp, hcl⟩ := hst2 p.1 p.2 hfind
      rw [hdp] at hd
      exact hrank1 (p.1, i) (mem_of_mfind _ _ _ hi) d hd
    have hres2 : (collect q2 (collect q1 g).1).1.resources = [] :=
      drained_state_empty _ rank hG2 hN2.1 hsem2 hclean2 hrank2
    rw [heq]
    exact ⟨hres2, hsem2⟩
  · push_neg at hc
    have heq : wait_collect q1 q2 g = collect q1 g := by
      simp only [wait_collect]
      rw [if_neg ?_]
      intro hcc
      rcases hcc with h1 | h2
      · exact h1 hc.1
      · exact h2 hc.2
    rw [heq]
    constructor
    · exact List.length_eq_zero.mp hc.1
    · exact List.length_eq_zero.mp hc.2

theorem C6_drain_witness :
    (wait_collect (fun _ => 0) (fun _ => 5)
      ⟨[(1, ⟨1, [], some 9⟩)], [(2, ⟨[⟨5, 1, none⟩], true⟩)]⟩).1.resources = [] ∧
    (wait_collect (fun _ => 0) (fun _ => 5)
      ⟨[(1, ⟨1, [], some 9⟩)], [(2, ⟨[⟨5, 1, none⟩], true⟩)]⟩).1.semaphore_dependencies
      = [] := by
  refine C6_drain (fun _ => 0) (fun _ => 5)
    ⟨[(1, ⟨1, [], some 9⟩)], [(2, ⟨[⟨5, 1, none⟩], true⟩)]⟩ (fun x => x)
    ⟨?_, ?_, ?_, ?_, ?_, ?_, ?_⟩ ⟨?_, ?_⟩ ?_ ?_ ?_ ?_
  · decide
  · decide
  · intro x
    by_cases h : 1 = x
    · subst h
      decide
    · simp [countOf, mfind, h]
      decide
  · intro x hx
    by_cases h : 1 = x
    · subst h
      decide
    · simp [countOf, depsTo, trigsTo, trigsOf, twOf, mfind, h]
      decide
  · decide
  · decide
  · intro p hp
    simp only [List.mem_singleton] at hp
    subst hp
    simp [trigSorted]
  · decide
  · decide
  · decide
  · decide
  · decide
  · decide

/-- C6 counterexample: with a two-resource dependency cycle, both cleanups
released and no counters at all (so every counter trivially reaches its
final value under a device-idle wait), wait_collect returns with both
records still in the resource registry. -/
theorem C6_counterexample :
    (run0 [Op.depend 1 2, Op.depend 2 1, Op.release 1 10, Op.release 2 20,
      Op.wait_collect (fun _ => 0) (fun _ => 0)]).1.resources.length = 2 := by
  decide

end Vkgc
